import Mathlib

/-!
SchedSim: a shallow embedding of `schedsim.c`

The three schedulers of `SchedSim/schedsim.c` (non-preemptive priority,
shortest-remaining-time-first, round robin) are embedded as Lean functions over
lists of process records.

Modelling decisions
* The C array `processes[0..n-1]` is a `List ProcessType`; `n` is its length.
* `int` fields are `Int`, and every scheduler is embedded twice.  `priorityWalk`,
  `sjfStep` and `rrScan` compute the clock, `wt`, `tat` and the remaining bursts in exact
  integers; `priorityWalk32`, `sjfStep32` and `rrScan32` are the same code with the
  result of every `int` operation reduced to 32 bits by `wrap32`, as the compiled
  program computes it.  The two agree as long as no operation leaves the range of `int`
  (`priorityWalk32_eq`, `sjfLoop32_eq`, `rrLoop32_eq`).  Statements that involve sums of
  burst times or the clock at arbitrary inputs are about the 32-bit functions and carry
  the bound under which nothing overflows; statements at concrete inputs, about the
  sentinel `INT_MAX`, about the frame or about the working buffer of round robin do not
  depend on the difference.  The two subtractions of `comparePriority` are wrapped
  throughout, because their sign is what the sort consumes.
* `qsort` is the C library routine, not code of this program.  It is a parameter
  of `priorityScheduling`; `QsortPost` is the postcondition ISO C gives it
  (a permutation of the input, ascending for the comparator, nothing promised
  about elements that compare equal).
* The `while` loops of `sjfScheduling` and `roundRobinScheduling` carry a fuel
  argument: `none` means the fuel ran out before the loop exited.
* Quantities the program does not keep are computed by functions that follow its loops:
  `sjfIdleSteps` and `sjfIdleSteps32` count the idle iterations of the SRTF loop,
  `sjfIterate32` is the state at the head of an iteration.
-/

namespace SchedSim

/-! ## Process record (lines 5-13) -/

/-- The struct `ProcessType`. -/
structure ProcessType where
  pid : Int
  bt : Int
  art : Int
  wt : Int
  tat : Int
  pri : Int
  rem_bt : Int
deriving DecidableEq, Repr

/-- The constant `INT_MAX` of `limits.h` for a 32-bit `int`. -/
def INT_MAX : Int := 2147483647

/-- The constant `INT_MIN` of `limits.h` for a 32-bit `int`. -/
def INT_MIN : Int := -2147483648

/-- Two's-complement reduction of an exact integer to a 32-bit `int`. -/
def wrap32 (x : Int) : Int := (x + 2147483648) % 4294967296 - 2147483648

/-! ## Priority scheduling (lines 16-46) -/

/-- The comparator `comparePriority` (lines 16-26). -/
def comparePriority (p1 p2 : ProcessType) : Int :=
  if p1.pri ≠ p2.pri then wrap32 (p1.pri - p2.pri)
  else wrap32 (p1.art - p2.art)

/-- What ISO C promises of `qsort(base, n, size, cmp)`: the array afterwards is a
rearrangement of the array before, in ascending order for `cmp`. -/
def QsortPost {α : Type} (cmp : α → α → Int) (input output : List α) : Prop :=
  output.Perm input ∧ output.Pairwise (fun a b => cmp a b ≤ 0)

/-- The `for` loop of `priorityScheduling` (lines 33-45), from index `i` on,
with `current_time` as an accumulator.  The arithmetic is exact; `priorityWalk32` is the
same loop in `int` arithmetic. -/
def priorityWalk : List ProcessType → Int → List ProcessType
  | [], _ => []
  | p :: rest, current_time =>
    let current_time := if current_time < p.art then p.art else current_time
    let wt := current_time - p.art
    let tat := wt + p.bt
    { p with wt := wt, tat := tat } :: priorityWalk rest (current_time + p.bt)

/-- The function `priorityScheduling` (lines 29-46); `qsort` is the library sort. -/
def priorityScheduling
    (qsort : (ProcessType → ProcessType → Int) → List ProcessType → List ProcessType)
    (processes : List ProcessType) : List ProcessType :=
  priorityWalk (qsort comparePriority processes) 0

/-- A conforming `qsort`: insertion sort, which keeps equal elements in input order. -/
def insertionQsort (cmp : ProcessType → ProcessType → Int) (l : List ProcessType) :
    List ProcessType :=
  l.insertionSort (fun a b => cmp a b ≤ 0)

/-- A second conforming `qsort`: insertion sort fed from the back of the array, which
leaves equal elements in reverse input order. -/
def reverseQsort (cmp : ProcessType → ProcessType → Int) (l : List ProcessType) :
    List ProcessType :=
  l.reverse.insertionSort (fun a b => cmp a b ≤ 0)

/-- The array of `main` (lines 164-168); `rem_bt` is not initialised there and is
zero-filled by the aggregate initialiser. -/
def referenceWorkload : List ProcessType :=
  [ { pid := 1, bt := 10, art := 0, wt := 0, tat := 0, pri := 3, rem_bt := 0 },
    { pid := 2, bt := 5, art := 1, wt := 0, tat := 0, pri := 1, rem_bt := 0 },
    { pid := 3, bt := 8, art := 2, wt := 0, tat := 0, pri := 2, rem_bt := 0 } ]

/-! ## Shortest remaining time first (lines 49-99) -/

/-- The scan of lines 68-76 from index `i` on; the accumulators are
`shortest_process` (`none` stands for `-1`) and `min_rem_time`. -/
def sjfFind (current_time : Int) :
    List ProcessType → Nat → Option Nat → Int → Option Nat × Int
  | [], _, shortest_process, min_rem_time => (shortest_process, min_rem_time)
  | p :: rest, i, shortest_process, min_rem_time =>
    if p.art ≤ current_time ∧ p.rem_bt > 0 ∧ p.rem_bt < min_rem_time then
      sjfFind current_time rest (i + 1) (some i) p.rem_bt
    else
      sjfFind current_time rest (i + 1) shortest_process min_rem_time

/-- The variables that live across iterations of the `while` loop of `sjfScheduling`. -/
structure SjfState where
  processes : List ProcessType
  current_time : Int
  completed : Nat
deriving DecidableEq, Repr

/-- The index chosen by lines 65-76 in state `s`. -/
def sjfShortest (s : SjfState) : Option Nat :=
  (sjfFind s.current_time s.processes 0 none INT_MAX).1

/-- One iteration of the `while` body (lines 64-97).  The arithmetic is exact; `sjfStep32` is
the same iteration in `int` arithmetic. -/
def sjfStep (s : SjfState) : SjfState :=
  match sjfShortest s with
  | none => { s with current_time := s.current_time + 1 }
  | some k =>
    match s.processes[k]? with
    | none => s
    | some p =>
      let p := { p with rem_bt := p.rem_bt - 1 }
      let current_time := s.current_time + 1
      if p.rem_bt = 0 then
        let tat := current_time - p.art
        { processes := s.processes.set k { p with tat := tat, wt := tat - p.bt },
          current_time := current_time,
          completed := s.completed + 1 }
      else
        { processes := s.processes.set k p,
          current_time := current_time,
          completed := s.completed }

/-- The `while (completed < n)` loop (lines 63-98) with a bound on its iterations. -/
def sjfLoop : Nat → SjfState → Option SjfState
  | 0, s => if s.completed < s.processes.length then none else some s
  | fuel + 1, s =>
    if s.completed < s.processes.length then sjfLoop fuel (sjfStep s) else some s

/-- The state on entry to the `while` loop (lines 50-61): every `rem_bt` is set to
`bt`; `total_time` is summed there and never read, so it is left out. -/
def sjfInit (processes : List ProcessType) : SjfState :=
  { processes := processes.map (fun p => { p with rem_bt := p.bt }),
    current_time := 0,
    completed := 0 }

/-- The loop of `sjfScheduling` run from its entry state; the result keeps the clock. -/
def sjfRun (fuel : Nat) (processes : List ProcessType) : Option SjfState :=
  sjfLoop fuel (sjfInit processes)

/-- The function `sjfScheduling` (lines 49-99). -/
def sjfScheduling (fuel : Nat) (processes : List ProcessType) :
    Option (List ProcessType) :=
  (sjfRun fuel processes).map (fun s => s.processes)

/-! ## Round robin (lines 102-147) -/

/-- The `for` loop of lines 115-140 from index `i` on.  Each array cell is paired with
its cell of the local `rem_bt` buffer; the accumulators are `current_time` and `done`.
The arithmetic is exact; `rrScan32` is the same loop in `int` arithmetic. -/
def rrScan (quantum : Int) :
    List (ProcessType × Int) → Int → Bool → List (ProcessType × Int) × Int × Bool
  | [], current_time, done => ([], current_time, done)
  | (p, rem_bt) :: rest, current_time, done =>
    if rem_bt > 0 then
      if rem_bt > quantum then
        let r := rrScan quantum rest (current_time + quantum) false
        ((p, rem_bt - quantum) :: r.1, r.2)
      else
        let current_time := current_time + rem_bt
        let p := { p with wt := current_time - p.bt - p.art }
        let p := { p with tat := current_time - p.art }
        let r := rrScan quantum rest current_time false
        ((p, 0) :: r.1, r.2)
    else
      let r := rrScan quantum rest current_time done
      ((p, rem_bt) :: r.1, r.2)

/-- The `while (1)` loop of lines 111-144 with a bound on the number of scans. -/
def rrLoop (quantum : Int) :
    Nat → List (ProcessType × Int) → Int → Option (List (ProcessType × Int) × Int)
  | 0, _, _ => none
  | fuel + 1, cells, current_time =>
    let r := rrScan quantum cells current_time true
    if r.2.2 then some (r.1, r.2.1) else rrLoop quantum fuel r.1 r.2.1

/-- The state on entry to the `while` loop (lines 103-109): `rem_bt[i] = processes[i].bt`. -/
def rrInit (processes : List ProcessType) : List (ProcessType × Int) :=
  processes.map (fun p => (p, p.bt))

/-- The loops of `roundRobinScheduling` run from the entry state; the result keeps the
local `rem_bt` buffer and the clock. -/
def rrRun (fuel : Nat) (processes : List ProcessType) (quantum : Int) :
    Option (List (ProcessType × Int) × Int) :=
  rrLoop quantum fuel (rrInit processes) 0

/-- The function `roundRobinScheduling` (lines 102-147). -/
def roundRobinScheduling (fuel : Nat) (processes : List ProcessType) (quantum : Int) :
    Option (List ProcessType) :=
  (rrRun fuel processes quantum).map (fun r => r.1.map Prod.fst)

/-! ## Specification-side definitions -/

/-- The sort key of the priority scheduler in the specification's words: ascending
`priority`, ties broken by ascending `arrival_time`. -/
def keyLE (a b : ProcessType) : Prop :=
  a.pri < b.pri ∨ (a.pri = b.pri ∧ a.art ≤ b.art)

instance (a b : ProcessType) : Decidable (keyLE a b) := by
  unfold keyLE; infer_instance

/-- The full key of the specification, ascending `(priority, arrival_time, original index)`
compared lexicographically, on records tagged with their input index. -/
def indexedKeyLE (x y : Nat × ProcessType) : Prop :=
  x.2.pri < y.2.pri ∨ (x.2.pri = y.2.pri ∧
    (x.2.art < y.2.art ∨ (x.2.art = y.2.art ∧ x.1 ≤ y.1)))

instance (x y : Nat × ProcessType) : Decidable (indexedKeyLE x y) := by
  unfold indexedKeyLE; infer_instance

/-- The execution order the specification asks of the priority scheduler: the input
sorted by ascending `(priority, arrival_time, original index)`. -/
def specPriorityOrder (processes : List ProcessType) : List ProcessType :=
  (processes.enum.insertionSort indexedKeyLE).map Prod.snd

/-- A record with its two output fields blanked: what identifies an input record. -/
def clearResults (p : ProcessType) : ProcessType :=
  { p with wt := 0, tat := 0 }

/-- The time at which a record starts to execute in a non-preemptive schedule, read
back from its results: `WT = start − AT`. -/
def startTime (p : ProcessType) : Int := p.wt + p.art

/-- The comparator is a consistent total preorder on the elements of `l`, which is
what ISO C requires of the caller of `qsort`. -/
def ConsistentOn {α : Type} (cmp : α → α → Int) (l : List α) : Prop :=
  (∀ a ∈ l, ∀ b ∈ l, (cmp a b < 0 ↔ 0 < cmp b a)) ∧
  (∀ a ∈ l, ∀ b ∈ l, ∀ c ∈ l, cmp a b ≤ 0 → cmp b c ≤ 0 → cmp a c ≤ 0)

/-- The subtractions of `comparePriority` stay within `int` for every pair of records
of the workload. -/
def CompareInRange (processes : List ProcessType) : Prop :=
  ∀ a ∈ processes, ∀ b ∈ processes,
    (INT_MIN ≤ a.pri - b.pri ∧ a.pri - b.pri ≤ INT_MAX) ∧
    (INT_MIN ≤ a.art - b.art ∧ a.art - b.art ≤ INT_MAX)

/-- Two records that tie on priority and arrival time, told apart by their pid. -/
def tiedWorkload : List ProcessType :=
  [ { pid := 1, bt := 4, art := 0, wt := 0, tat := 0, pri := 1, rem_bt := 0 },
    { pid := 2, bt := 6, art := 0, wt := 0, tat := 0, pri := 1, rem_bt := 0 } ]

/-- Two records whose priorities are `INT_MIN` and 1: their difference does not fit
an `int`. -/
def overflowWorkload : List ProcessType :=
  [ { pid := 1, bt := 4, art := 0, wt := 0, tat := 0, pri := -2147483648, rem_bt := 0 },
    { pid := 2, bt := 6, art := 0, wt := 0, tat := 0, pri := 1, rem_bt := 0 } ]

/-- First-come-first-served in input order in the specification's words: the clock
starts at `t`, each process runs once, uninterrupted, for its whole burst, and on
completion `TAT = completion_time − arrival_time`, `WT = TAT − burst_time`. -/
def fcfsSchedule : List ProcessType → Int → List ProcessType
  | [], _ => []
  | p :: rest, t =>
    let completion := t + p.bt
    let tat := completion - p.art
    { p with tat := tat, wt := tat - p.bt } :: fcfsSchedule rest completion

/-- The sum of the burst times of the first `k` records. -/
def burstPrefix (processes : List ProcessType) (k : Nat) : Int :=
  ((processes.take k).map (fun p => p.bt)).sum

/-- The total of the positive remaining bursts of the round-robin buffer. -/
def rrRemaining (cells : List (ProcessType × Int)) : Nat :=
  (cells.map (fun c => c.2.toNat)).sum

/-- What holds of a cell of the round-robin state at clock `ct`: its remaining burst is
between 0 and the burst time, the time it has run has elapsed, and once it has completed
its results are those of a completion at or after its burst time. -/
def RRCell (ct : Int) (c : ProcessType × Int) : Prop :=
  0 ≤ c.2 ∧ c.2 ≤ c.1.bt ∧ c.1.bt - c.2 ≤ ct ∧
  (c.2 = 0 → c.1.tat = c.1.wt + c.1.bt ∧ 0 ≤ c.1.wt + c.1.art ∧ c.1.bt ≤ c.1.tat + c.1.art)

/-- A single process that arrives at time 100 and needs one time unit. -/
def lateWorkload : List ProcessType :=
  [ { pid := 1, bt := 1, art := 100, wt := 0, tat := 0, pri := 0, rem_bt := 0 } ]

/-- A single process that arrives at time 2 and needs three time units. -/
def lateSingle : ProcessType :=
  { pid := 1, bt := 3, art := 2, wt := 0, tat := 0, pri := 0, rem_bt := 0 }

/-- What holds of a record of the SRTF state at clock `t`: its remaining burst is
between 0 and the burst time, the units it has run all lie between its arrival and `t`,
and once it has completed its results are those of a completion no earlier than
arrival plus burst. -/
def SjfCell (t : Int) (p : ProcessType) : Prop :=
  0 ≤ p.rem_bt ∧ p.rem_bt ≤ p.bt ∧ (p.rem_bt < p.bt → p.art + (p.bt - p.rem_bt) ≤ t) ∧
  (p.rem_bt = 0 → p.tat = p.wt + p.bt ∧ 0 ≤ p.wt ∧ p.bt ≤ p.tat)

/-- The loop invariant of `sjfScheduling`: every record satisfies `SjfCell` and
`completed` counts the records whose remaining burst is 0. -/
def SjfInv (s : SjfState) : Prop :=
  (∀ p ∈ s.processes, SjfCell s.current_time p) ∧
  s.completed = s.processes.countP (fun p => decide (p.rem_bt = 0))

/-- Every record arrives by `latest` and has a remaining burst the scan of lines 68-76
can see, that is one below the `INT_MAX` it starts `min_rem_time` at. -/
def SjfBound (latest : Int) (s : SjfState) : Prop :=
  ∀ p ∈ s.processes, p.art ≤ latest ∧ p.rem_bt < INT_MAX

/-- A bound on the iterations the SRTF loop still has to make: the units of work left
plus the time until the latest arrival. -/
def sjfMeasure (latest : Int) (s : SjfState) : Nat :=
  (s.processes.map (fun p => p.rem_bt.toNat)).sum + (latest - s.current_time).toNat

/-- An arrival time no record of the workload exceeds. -/
def latestArrival (processes : List ProcessType) : Int :=
  (processes.map (fun p => p.art)).foldr max 0

/-- A single process whose burst time is `INT_MAX`, arriving at time 0. -/
def maxBurstProcess : ProcessType :=
  { pid := 1, bt := 2147483647, art := 0, wt := 0, tat := 0, pri := 0, rem_bt := 0 }

/-- The fields that identify a record and that no scheduler may touch. -/
def identityFields (p : ProcessType) : Int × Int × Int × Int :=
  (p.pid, p.bt, p.art, p.pri)

/-- A record with priority `INT_MIN`. -/
def lowestPriorityRecord : ProcessType :=
  { pid := 1, bt := 4, art := 0, wt := 0, tat := 0, pri := -2147483648, rem_bt := 0 }

/-- A record with priority 1. -/
def priorityOneRecord : ProcessType :=
  { pid := 2, bt := 6, art := 0, wt := 0, tat := 0, pri := 1, rem_bt := 0 }

/-- A record with a negative burst time and a negative arrival time. -/
def invalidRecord : ProcessType :=
  { pid := 1, bt := -5, art := -3, wt := 0, tat := 0, pri := 0, rem_bt := 0 }

/-- What holds of the SRTF state when the workload has a record with a burst time that
is not positive: `rem_bt` never exceeds `bt`, such a record is still there, and
`completed` counts the records with positive burst whose remaining burst is 0. -/
def SjfStuck (s : SjfState) : Prop :=
  (∀ p ∈ s.processes, p.rem_bt ≤ p.bt) ∧ (∃ p ∈ s.processes, p.bt ≤ 0) ∧
  s.completed = s.processes.countP (fun p => decide (0 < p.bt ∧ p.rem_bt = 0))

/-- The sort looks at the records only through the comparator: on two arrays that agree,
index by index, on a key that decides every comparison, it applies the same
rearrangement.  Every comparison sort has this property; the ISO C postcondition does
not state it. -/
def QsortOblivious
    (qsort : (ProcessType → ProcessType → Int) → List ProcessType → List ProcessType) : Prop :=
  ∀ (β : Type) (key : ProcessType → β) (cmp : ProcessType → ProcessType → Int)
    (l1 l2 : List ProcessType),
    (∀ a a' b b', key a = key a' → key b = key b' → cmp a b = cmp a' b') →
    l1.map key = l2.map key → (qsort cmp l1).map key = (qsort cmp l2).map key

/-- No record of the state has arrived and is unfinished: the condition under which an
iteration of the SRTF loop is an idle step. -/
def sjfNoneEligible (s : SjfState) : Bool :=
  s.processes.all (fun p => !(decide (p.art ≤ s.current_time ∧ 0 < p.rem_bt)))

/-- The number of idle steps among the iterations the `while` loop makes from state `s`,
followed for at most `fuel` iterations. -/
def sjfIdleSteps : Nat → SjfState → Nat
  | 0, _ => 0
  | fuel + 1, s =>
    if s.completed < s.processes.length then
      (if sjfNoneEligible s then 1 else 0) + sjfIdleSteps fuel (sjfStep s)
    else 0

/-- Every finished record of the state completed no later than the clock. -/
def SjfCompletedBy (s : SjfState) : Prop :=
  ∀ p ∈ s.processes, p.rem_bt = 0 → p.art + p.tat ≤ s.current_time

/-- The ceiling of `a / q` for a positive `q`. -/
def ceilDiv (a q : Int) : Int := (a + q - 1) / q

/-- The number of scans in which a cell with remaining burst `r` still runs:
`ceil(max(r, 0) / Q)`. -/
def scansFor (quantum : Int) (r : Int) : Nat := (ceilDiv (max r 0) quantum).toNat

/-- The largest `scansFor` over the cells: `max_i ceil(max(r_i, 0) / Q)`, 0 for no cell. -/
def scansNeeded (quantum : Int) (rems : List Int) : Nat :=
  (rems.map (scansFor quantum)).foldr max 0

/-- What one scan does to a remaining burst (lines 117-138). -/
def scanRem (quantum : Int) (r : Int) : Int :=
  if r > 0 then (if r > quantum then r - quantum else 0) else r

/-- The sum of the burst times of `l`, each capped at `c`: `Σ min(BT_j, c)`. -/
def capSum (l : List ProcessType) (c : Int) : Int :=
  (l.map (fun p => min p.bt c)).sum

/-- The closed form of the round-robin completion time of the process `p` that has the
processes `before` ahead of it and the processes `after` behind it in the input: with
`r = ceil(BT / Q)`, `Σ_before min(BT_j, r·Q) + BT + Σ_after min(BT_j, (r − 1)·Q)`. -/
def rrCompletion (quantum : Int) (before : List ProcessType) (p : ProcessType)
    (after : List ProcessType) : Int :=
  capSum before (ceilDiv p.bt quantum * quantum) + p.bt +
    capSum after ((ceilDiv p.bt quantum - 1) * quantum)

/-- The record of a process that completes at `C = rrCompletion`: `TAT = C − AT`,
`WT = C − BT − AT`. -/
def rrFinished (quantum : Int) (before : List ProcessType) (p : ProcessType)
    (after : List ProcessType) : ProcessType :=
  { p with wt := rrCompletion quantum before p after - p.bt - p.art,
           tat := rrCompletion quantum before p after - p.art }

/-- The round-robin state after `m` scans, for the processes `after` that have `before`
ahead of them: a process with `BT ≤ m·Q` is finished, with the results of the formula;
any other still has `BT − m·Q` to run. -/
def rrAfter (quantum : Int) (m : Nat) :
    List ProcessType → List ProcessType → List (ProcessType × Int)
  | _, [] => []
  | before, p :: after =>
    (if p.bt ≤ m * quantum then (rrFinished quantum before p after, 0)
      else (p, p.bt - m * quantum)) :: rrAfter quantum m (before ++ [p]) after

/-! ## The schedulers in 32-bit arithmetic

The definitions of this section repeat `priorityWalk`, `sjfStep` and `rrScan` with the
result of every `int` operation reduced by `wrap32`, as `comparePriority` does: an
addition or subtraction that leaves the range of `int` wraps around, which is what the
compiled program does.  The definitions above compute in exact integers and agree with
these as long as no operation leaves the range of `int`
(`priorityWalk32_eq`, `sjfLoop32_eq`, `rrLoop32_eq`). -/

/-- The value `x` is an `int`. -/
def IsInt (x : Int) : Prop := INT_MIN ≤ x ∧ x ≤ INT_MAX

instance (x : Int) : Decidable (IsInt x) := by
  unfold IsInt; infer_instance

/-- The `for` loop of `priorityScheduling` (lines 33-45) in `int` arithmetic. -/
def priorityWalk32 : List ProcessType → Int → List ProcessType
  | [], _ => []
  | p :: rest, current_time =>
    let current_time := if current_time < p.art then p.art else current_time
    let wt := wrap32 (current_time - p.art)
    let tat := wrap32 (wt + p.bt)
    { p with wt := wt, tat := tat } :: priorityWalk32 rest (wrap32 (current_time + p.bt))

/-- The function `priorityScheduling` (lines 29-46) in `int` arithmetic. -/
def priorityScheduling32
    (qsort : (ProcessType → ProcessType → Int) → List ProcessType → List ProcessType)
    (processes : List ProcessType) : List ProcessType :=
  priorityWalk32 (qsort comparePriority processes) 0

/-- One iteration of the `while` body of `sjfScheduling` (lines 64-97) in `int`
arithmetic. -/
def sjfStep32 (s : SjfState) : SjfState :=
  match sjfShortest s with
  | none => { s with current_time := wrap32 (s.current_time + 1) }
  | some k =>
    match s.processes[k]? with
    | none => s
    | some p =>
      let p := { p with rem_bt := wrap32 (p.rem_bt - 1) }
      let current_time := wrap32 (s.current_time + 1)
      if p.rem_bt = 0 then
        let tat := wrap32 (current_time - p.art)
        { processes := s.processes.set k { p with tat := tat, wt := wrap32 (tat - p.bt) },
          current_time := current_time,
          completed := s.completed + 1 }
      else
        { processes := s.processes.set k p,
          current_time := current_time,
          completed := s.completed }

/-- The `while (completed < n)` loop (lines 63-98) in `int` arithmetic, with a bound on
its iterations. -/
def sjfLoop32 : Nat → SjfState → Option SjfState
  | 0, s => if s.completed < s.processes.length then none else some s
  | fuel + 1, s =>
    if s.completed < s.processes.length then sjfLoop32 fuel (sjfStep32 s) else some s

/-- The loop of `sjfScheduling` in `int` arithmetic, run from its entry state. -/
def sjfRun32 (fuel : Nat) (processes : List ProcessType) : Option SjfState :=
  sjfLoop32 fuel (sjfInit processes)

/-- The function `sjfScheduling` (lines 49-99) in `int` arithmetic. -/
def sjfScheduling32 (fuel : Nat) (processes : List ProcessType) :
    Option (List ProcessType) :=
  (sjfRun32 fuel processes).map (fun s => s.processes)

/-- The `for` loop of `roundRobinScheduling` (lines 115-140) in `int` arithmetic. -/
def rrScan32 (quantum : Int) :
    List (ProcessType × Int) → Int → Bool → List (ProcessType × Int) × Int × Bool
  | [], current_time, done => ([], current_time, done)
  | (p, rem_bt) :: rest, current_time, done =>
    if rem_bt > 0 then
      if rem_bt > quantum then
        let r := rrScan32 quantum rest (wrap32 (current_time + quantum)) false
        ((p, wrap32 (rem_bt - quantum)) :: r.1, r.2)
      else
        let current_time := wrap32 (current_time + rem_bt)
        let p := { p with wt := wrap32 (wrap32 (current_time - p.bt) - p.art) }
        let p := { p with tat := wrap32 (current_time - p.art) }
        let r := rrScan32 quantum rest current_time false
        ((p, 0) :: r.1, r.2)
    else
      let r := rrScan32 quantum rest current_time done
      ((p, rem_bt) :: r.1, r.2)

/-- The `while (1)` loop of lines 111-144 in `int` arithmetic, with a bound on the number
of scans. -/
def rrLoop32 (quantum : Int) :
    Nat → List (ProcessType × Int) → Int → Option (List (ProcessType × Int) × Int)
  | 0, _, _ => none
  | fuel + 1, cells, current_time =>
    let r := rrScan32 quantum cells current_time true
    if r.2.2 then some (r.1, r.2.1) else rrLoop32 quantum fuel r.1 r.2.1

/-- The loops of `roundRobinScheduling` in `int` arithmetic, run from the entry state. -/
def rrRun32 (fuel : Nat) (processes : List ProcessType) (quantum : Int) :
    Option (List (ProcessType × Int) × Int) :=
  rrLoop32 quantum fuel (rrInit processes) 0

/-- The function `roundRobinScheduling` (lines 102-147) in `int` arithmetic. -/
def roundRobinScheduling32 (fuel : Nat) (processes : List ProcessType) (quantum : Int) :
    Option (List ProcessType) :=
  (rrRun32 fuel processes quantum).map (fun r => r.1.map Prod.fst)

/-- No `int` operation of the walk of `priorityScheduling` over `l`, started at clock `t`,
overflows: the waiting time, the turnaround time and the next clock of every record are
`int` values. -/
def WalkInRange : List ProcessType → Int → Prop
  | [], _ => True
  | p :: rest, t =>
    IsInt (max t p.art - p.art) ∧ IsInt (max t p.art - p.art + p.bt) ∧
    IsInt (max t p.art + p.bt) ∧ WalkInRange rest (max t p.art + p.bt)

/-- The schedule of the SRTF loop fits the clock: the latest arrival plus the total burst
is below `INT_MAX`. -/
def SjfInRange (processes : List ProcessType) : Prop :=
  latestArrival processes + (processes.map (fun p => p.bt)).sum < INT_MAX

/-- The schedule of round robin fits the clock and its results fit `wt` and `tat`: the
total burst is an `int`, and so are every arrival time and the total burst minus any
arrival time. -/
def RRInRange (processes : List ProcessType) : Prop :=
  (processes.map (fun p => p.bt)).sum ≤ INT_MAX ∧
  ∀ p ∈ processes, p.art ≤ INT_MAX ∧ (processes.map (fun p => p.bt)).sum - p.art ≤ INT_MAX

/-- Two records of which the first has burst `INT_MAX`. -/
def overflowBurstWorkload : List ProcessType :=
  [ { pid := 1, bt := 2147483647, art := 0, wt := 0, tat := 0, pri := 1, rem_bt := 0 },
    { pid := 2, bt := 1, art := 0, wt := 0, tat := 0, pri := 2, rem_bt := 0 } ]

/-- The number of idle steps among the iterations the `while` loop makes in `int`
arithmetic from state `s`, followed for at most `fuel` iterations. -/
def sjfIdleSteps32 : Nat → SjfState → Nat
  | 0, _ => 0
  | fuel + 1, s =>
    if s.completed < s.processes.length then
      (if sjfNoneEligible s then 1 else 0) + sjfIdleSteps32 fuel (sjfStep32 s)
    else 0

/-- What keeps the SRTF loop within `int`: every arrival is between 0 and `latest`, every
remaining burst is below `INT_MAX`, the clock is not negative, and the later of the clock
and `latest`, plus the work left, is at most `bound`. -/
def SjfFit (latest bound : Int) (s : SjfState) : Prop :=
  (∀ p ∈ s.processes, 0 ≤ p.art ∧ p.art ≤ latest ∧ p.rem_bt < INT_MAX) ∧
  0 ≤ s.current_time ∧
  max s.current_time latest + (s.processes.map (fun p => p.rem_bt)).sum ≤ bound

/-- A single process that arrives at time `INT_MAX` and needs two time units. -/
def lateLongProcess : ProcessType :=
  { pid := 1, bt := 2, art := 2147483647, wt := 0, tat := 0, pri := 0, rem_bt := 0 }

/-- A process that arrives at time 0 and one that arrives at time `INT_MAX`, each needing
one time unit. -/
def earlyLateWorkload : List ProcessType :=
  [ { pid := 1, bt := 1, art := 0, wt := 0, tat := 0, pri := 0, rem_bt := 0 },
    { pid := 2, bt := 1, art := 2147483647, wt := 0, tat := 0, pri := 0, rem_bt := 0 } ]

/-- Two records with bursts `INT_MAX` and 2. -/
def overflowPairWorkload : List ProcessType :=
  [ { pid := 1, bt := 2147483647, art := 0, wt := 0, tat := 0, pri := 1, rem_bt := 0 },
    { pid := 2, bt := 2, art := 0, wt := 0, tat := 0, pri := 2, rem_bt := 0 } ]

/-- What every iteration of the SRTF loop keeps, whatever the clock does: each remaining
burst is between 0 and the burst time, and `completed` counts the records whose remaining
burst is 0. -/
def SjfRem (s : SjfState) : Prop :=
  (∀ p ∈ s.processes, 0 ≤ p.rem_bt ∧ p.rem_bt ≤ p.bt) ∧
  s.completed = s.processes.countP (fun p => decide (p.rem_bt = 0))

/-- The state at the head of the `while` loop of `sjfScheduling`, in `int` arithmetic, after
`j` iterations of its body. -/
def sjfIterate32 (processes : List ProcessType) : Nat → SjfState
  | 0 => sjfInit processes
  | j + 1 => sjfStep32 (sjfIterate32 processes j)

/-- A record with burst 1 arriving at time 0. -/
def unitRecord : ProcessType :=
  { pid := 1, bt := 1, art := 0, wt := 0, tat := 0, pri := 0, rem_bt := 0 }

/-! ## Lemmas: the sort -/

theorem wrap32_of_inRange {x : Int} (h1 : INT_MIN ≤ x) (h2 : x ≤ INT_MAX) : wrap32 x = x := by
  unfold INT_MIN at h1
  unfold INT_MAX at h2
  unfold wrap32
  omega

theorem comparePriority_le_zero_iff {a b : ProcessType}
    (hp : INT_MIN ≤ a.pri - b.pri ∧ a.pri - b.pri ≤ INT_MAX)
    (ha : INT_MIN ≤ a.art - b.art ∧ a.art - b.art ≤ INT_MAX) :
    comparePriority a b ≤ 0 ↔ keyLE a b := by
  unfold comparePriority keyLE
  by_cases h : a.pri = b.pri
  · simp only [h, ne_eq, not_true_eq_false, if_false, lt_self_iff_false, true_and, false_or]
    rw [wrap32_of_inRange ha.1 ha.2]
    omega
  · simp only [ne_eq, h, not_false_eq_true, if_true, false_and, or_false]
    rw [wrap32_of_inRange hp.1 hp.2]
    omega

theorem pairwise_orderedInsert_of {α : Type} (r : α → α → Prop) [DecidableRel r] (a : α) :
    ∀ l : List α, (∀ b ∈ l, r a b ∨ r b a) → (∀ b ∈ l, ∀ c ∈ l, r a b → r b c → r a c) →
      l.Pairwise r → (l.orderedInsert r a).Pairwise r := by
  intro l
  induction l with
  | nil => intro _ _ _; simp
  | cons b l ih =>
    intro htot htr hl
    rw [List.pairwise_cons] at hl
    by_cases hab : r a b
    · simp only [List.orderedInsert, hab, if_true]
      refine List.pairwise_cons.2 ⟨?_, List.pairwise_cons.2 hl⟩
      intro c hc
      rcases List.mem_cons.1 hc with rfl | hc
      · exact hab
      · exact htr b (List.mem_cons_self _ _) c (List.mem_cons_of_mem _ hc) hab (hl.1 c hc)
    · have hba : r b a := (htot b (List.mem_cons_self _ _)).resolve_left hab
      simp only [List.orderedInsert, hab, if_false]
      refine List.pairwise_cons.2 ⟨?_, ?_⟩
      · intro c hc
        rcases (List.mem_orderedInsert r).1 hc with rfl | hc
        · exact hba
        · exact hl.1 c hc
      · exact ih (fun c hc => htot c (List.mem_cons_of_mem _ hc))
          (fun c hc d hd => htr c (List.mem_cons_of_mem _ hc) d (List.mem_cons_of_mem _ hd)) hl.2

theorem pairwise_insertionSort_of {α : Type} (r : α → α → Prop) [DecidableRel r] :
    ∀ l : List α, (∀ a ∈ l, ∀ b ∈ l, r a b ∨ r b a) →
      (∀ a ∈ l, ∀ b ∈ l, ∀ c ∈ l, r a b → r b c → r a c) →
      (l.insertionSort r).Pairwise r := by
  intro l
  induction l with
  | nil => intro _ _; simp
  | cons a l ih =>
    intro htot htr
    rw [List.insertionSort]
    apply pairwise_orderedInsert_of
    · intro b hb
      exact htot a (List.mem_cons_self _ _) b
        (List.mem_cons_of_mem _ ((List.mem_insertionSort r).1 hb))
    · intro b hb c hc
      exact htr a (List.mem_cons_self _ _) b
        (List.mem_cons_of_mem _ ((List.mem_insertionSort r).1 hb)) c
        (List.mem_cons_of_mem _ ((List.mem_insertionSort r).1 hc))
    · exact ih (fun x hx y hy => htot x (List.mem_cons_of_mem _ hx) y (List.mem_cons_of_mem _ hy))
        (fun x hx y hy z hz => htr x (List.mem_cons_of_mem _ hx) y (List.mem_cons_of_mem _ hy)
          z (List.mem_cons_of_mem _ hz))

theorem consistentOn_total {α : Type} {cmp : α → α → Int} {l : List α}
    (h : ConsistentOn cmp l) : ∀ a ∈ l, ∀ b ∈ l, cmp a b ≤ 0 ∨ cmp b a ≤ 0 := by
  intro a ha b hb
  by_cases hab : cmp a b ≤ 0
  · exact Or.inl hab
  · right
    have := (h.1 b hb a ha).2 (by omega)
    omega

/-- The reversed insertion sort meets the postcondition of `qsort` whenever the caller
meets its precondition. -/
theorem reverseQsort_conforms (cmp : ProcessType → ProcessType → Int) (l : List ProcessType)
    (h : ConsistentOn cmp l) : QsortPost cmp l (reverseQsort cmp l) := by
  have hrev : ∀ x, x ∈ l.reverse → x ∈ l := fun x hx => List.mem_reverse.1 hx
  refine ⟨(List.perm_insertionSort _ _).trans (List.reverse_perm l), ?_⟩
  unfold reverseQsort
  apply pairwise_insertionSort_of
  · intro a ha b hb
    exact consistentOn_total h a (hrev a ha) b (hrev b hb)
  · intro a ha b hb c hc
    exact h.2 a (hrev a ha) b (hrev b hb) c (hrev c hc)

theorem priorityWalk_cons (p : ProcessType) (rest : List ProcessType) (t : Int) :
    priorityWalk (p :: rest) t =
      { p with wt := max t p.art - p.art, tat := max t p.art - p.art + p.bt } ::
        priorityWalk rest (max t p.art + p.bt) := by
  have h : (if t < p.art then p.art else t) = max t p.art := by
    by_cases hlt : t < p.art
    · rw [if_pos hlt, max_eq_right (le_of_lt hlt)]
    · rw [if_neg hlt, max_eq_left (not_lt.1 hlt)]
  simp only [priorityWalk, h]

theorem priorityWalk_map_clearResults (l : List ProcessType) :
    ∀ t : Int, (priorityWalk l t).map clearResults = l.map clearResults := by
  induction l with
  | nil => intro t; rfl
  | cons p rest ih =>
    intro t
    rw [priorityWalk_cons, List.map_cons, List.map_cons, ih]
    rfl

theorem pairwise_keyLE_clearResults (l : List ProcessType) :
    (l.map clearResults).Pairwise keyLE ↔ l.Pairwise keyLE := by
  rw [List.pairwise_map]
  exact Iff.rfl

theorem priorityWalk_pairwise_keyLE (l : List ProcessType) (t : Int) :
    (priorityWalk l t).Pairwise keyLE ↔ l.Pairwise keyLE := by
  rw [← pairwise_keyLE_clearResults, priorityWalk_map_clearResults,
    pairwise_keyLE_clearResults]

theorem priorityWalk_mem (l : List ProcessType) :
    ∀ (t : Int) (p : ProcessType), p ∈ priorityWalk l t →
      p.tat = p.wt + p.bt ∧ p.art ≤ startTime p := by
  induction l with
  | nil => intro t p h; simp [priorityWalk] at h
  | cons a rest ih =>
    intro t p h
    rw [priorityWalk_cons] at h
    rcases List.mem_cons.1 h with rfl | h
    · refine ⟨rfl, ?_⟩
      simp [startTime]
    · exact ih _ p h

/-- C1: on the workload of `main`, P1(BT=10,AT=0,PRI=3), P2(BT=5,AT=1,PRI=1),
P3(BT=8,AT=2,PRI=2) in that order, `priorityScheduling` leaves the records in the order
P2, P3, P1 with P2: WT=0, TAT=5; P3: WT=4, TAT=12; P1: WT=14, TAT=24, whatever
conforming `qsort` it is linked against. -/
theorem priorityScheduling_reference
    (qsort : (ProcessType → ProcessType → Int) → List ProcessType → List ProcessType)
    (h : QsortPost comparePriority referenceWorkload (qsort comparePriority referenceWorkload)) :
    priorityScheduling qsort referenceWorkload =
      [ { pid := 2, bt := 5, art := 1, wt := 0, tat := 5, pri := 1, rem_bt := 0 },
        { pid := 3, bt := 8, art := 2, wt := 4, tat := 12, pri := 2, rem_bt := 0 },
        { pid := 1, bt := 10, art := 0, wt := 14, tat := 24, pri := 3, rem_bt := 0 } ] := by
  have key : ∀ out ∈ referenceWorkload.permutations',
      out.Pairwise (fun a b => comparePriority a b ≤ 0) →
      priorityWalk out 0 =
        [ { pid := 2, bt := 5, art := 1, wt := 0, tat := 5, pri := 1, rem_bt := 0 },
          { pid := 3, bt := 8, art := 2, wt := 4, tat := 12, pri := 2, rem_bt := 0 },
          { pid := 1, bt := 10, art := 0, wt := 14, tat := 24, pri := 3, rem_bt := 0 } ] := by
    decide
  exact key _ (List.mem_permutations'.2 h.1) h.2

/-- Witness for C1: the insertion sort is a `qsort` that meets the postcondition on the
workload of `main`. -/
theorem priorityScheduling_reference_witness :
    QsortPost comparePriority referenceWorkload (insertionQsort comparePriority referenceWorkload) ∧
    priorityScheduling insertionQsort referenceWorkload =
      [ { pid := 2, bt := 5, art := 1, wt := 0, tat := 5, pri := 1, rem_bt := 0 },
        { pid := 3, bt := 8, art := 2, wt := 4, tat := 12, pri := 2, rem_bt := 0 },
        { pid := 1, bt := 10, art := 0, wt := 14, tat := 24, pri := 3, rem_bt := 0 } ] :=
  ⟨⟨by decide, by decide⟩, priorityScheduling_reference insertionQsort ⟨by decide, by decide⟩⟩

/-- C2 (as stated, refuted): a `qsort` that meets the ISO C postcondition on every input
whose comparator is consistent leaves two records that tie on priority and arrival time
in the reverse of their input order, so the order after `priorityScheduling` is not the
one sorted by `(priority, arrival_time, original index)`.  Apart from ties, on two records
of priorities `INT_MIN` and 1 the comparator's subtraction wraps and every sorted array
for it has the record of priority 1 first. -/
theorem priorityScheduling_ties_not_input_order :
    (∃ qsort : (ProcessType → ProcessType → Int) → List ProcessType → List ProcessType,
      (∀ cmp l, ConsistentOn cmp l → QsortPost cmp l (qsort cmp l)) ∧
      CompareInRange tiedWorkload ∧
      (priorityScheduling qsort tiedWorkload).map (fun p => p.pid) = [2, 1] ∧
      (specPriorityOrder tiedWorkload).map (fun p => p.pid) = [1, 2]) ∧
    (QsortPost comparePriority overflowWorkload (insertionQsort comparePriority overflowWorkload) ∧
      (priorityScheduling insertionQsort overflowWorkload).map (fun p => p.pid) = [2, 1] ∧
      (specPriorityOrder overflowWorkload).map (fun p => p.pid) = [1, 2]) :=
  ⟨⟨reverseQsort, reverseQsort_conforms, by unfold CompareInRange; decide, by decide, by decide⟩,
    ⟨by decide, by decide⟩, by decide, by decide⟩

/-- C2 (amended): for every workload on which the subtractions of `comparePriority` do
not overflow, and every `qsort` result allowed by its postcondition, the records that
`priorityScheduling` leaves are a permutation of the input records (outputs aside) in
ascending order of `(priority, arrival_time)`; nothing is said about the order of records
that tie on both. -/
theorem priorityScheduling_sorted_perm
    (qsort : (ProcessType → ProcessType → Int) → List ProcessType → List ProcessType)
    (processes : List ProcessType) (hr : CompareInRange processes)
    (hq : QsortPost comparePriority processes (qsort comparePriority processes)) :
    ((priorityScheduling qsort processes).map clearResults).Perm (processes.map clearResults) ∧
    (priorityScheduling qsort processes).Pairwise keyLE := by
  unfold priorityScheduling
  refine ⟨?_, ?_⟩
  · rw [priorityWalk_map_clearResults]
    exact hq.1.map _
  · rw [priorityWalk_pairwise_keyLE]
    refine hq.2.imp_of_mem ?_
    intro a b ha hb hab
    have h := hr a (hq.1.subset ha) b (hq.1.subset hb)
    exact (comparePriority_le_zero_iff h.1 h.2).1 hab

/-- Witness for C2 (amended), on the workload with a tie. -/
theorem priorityScheduling_sorted_perm_witness :
    CompareInRange tiedWorkload ∧
    QsortPost comparePriority tiedWorkload (reverseQsort comparePriority tiedWorkload) ∧
    ((priorityScheduling reverseQsort tiedWorkload).map clearResults).Perm
      (tiedWorkload.map clearResults) ∧
    (priorityScheduling reverseQsort tiedWorkload).Pairwise keyLE :=
  ⟨by unfold CompareInRange; decide, ⟨by decide, by decide⟩,
    priorityScheduling_sorted_perm reverseQsort tiedWorkload (by unfold CompareInRange; decide)
      ⟨by decide, by decide⟩⟩

/-! ## Lemmas: round robin -/

theorem rrScan_cons (quantum : Int) (p : ProcessType) (r : Int)
    (rest : List (ProcessType × Int)) (ct : Int) (done : Bool) :
    rrScan quantum ((p, r) :: rest) ct done =
      if r > 0 then
        if r > quantum then
          ((p, r - quantum) :: (rrScan quantum rest (ct + quantum) false).1,
            (rrScan quantum rest (ct + quantum) false).2)
        else
          (({ p with wt := ct + r - p.bt - p.art, tat := ct + r - p.art }, 0) ::
              (rrScan quantum rest (ct + r) false).1,
            (rrScan quantum rest (ct + r) false).2)
      else
        ((p, r) :: (rrScan quantum rest ct done).1, (rrScan quantum rest ct done).2) := by
  simp only [rrScan]

theorem RRCell_mono {ct ct' : Int} {c : ProcessType × Int} (h : RRCell ct c) (hle : ct ≤ ct') :
    RRCell ct' c := by
  obtain ⟨h1, h2, h3, h4⟩ := h
  exact ⟨h1, h2, by omega, h4⟩

theorem rrScan_inv (quantum : Int) (hQ : 1 ≤ quantum) (cells : List (ProcessType × Int)) :
    ∀ (ct : Int) (done : Bool), (∀ c ∈ cells, RRCell ct c) →
      ct ≤ (rrScan quantum cells ct done).2.1 ∧
      ∀ c ∈ (rrScan quantum cells ct done).1, RRCell (rrScan quantum cells ct done).2.1 c := by
  induction cells with
  | nil => intro ct done _; simp [rrScan]
  | cons c rest ih =>
    obtain ⟨p, r⟩ := c
    intro ct done hinv
    obtain ⟨h1, h2, h3, h4⟩ := hinv (p, r) (List.mem_cons_self _ _)
    have hrest : ∀ c ∈ rest, RRCell ct c := fun c hc => hinv c (List.mem_cons_of_mem _ hc)
    simp only at h1 h2 h3 h4
    rw [rrScan_cons]
    by_cases hr : r > 0
    · by_cases hq : r > quantum
      · simp only [hr, hq, if_true]
        obtain ⟨ihle, ihinv⟩ := ih (ct + quantum) false
          (fun c hc => RRCell_mono (hrest c hc) (by omega))
        refine ⟨by omega, ?_⟩
        intro c hc
        rcases List.mem_cons.1 hc with rfl | hc
        · refine ⟨?_, ?_, ?_, ?_⟩ <;> simp only <;> intros <;> omega
        · exact ihinv c hc
      · simp only [hr, hq, if_true, if_false]
        obtain ⟨ihle, ihinv⟩ := ih (ct + r) false
          (fun c hc => RRCell_mono (hrest c hc) (by omega))
        refine ⟨by omega, ?_⟩
        intro c hc
        rcases List.mem_cons.1 hc with rfl | hc
        · refine ⟨?_, ?_, ?_, ?_⟩ <;> simp only <;> intros <;> omega
        · exact ihinv c hc
    · simp only [hr, if_false]
      obtain ⟨ihle, ihinv⟩ := ih ct done hrest
      refine ⟨ihle, ?_⟩
      intro c hc
      rcases List.mem_cons.1 hc with rfl | hc
      · exact RRCell_mono ⟨h1, h2, h3, h4⟩ ihle
      · exact ihinv c hc

theorem rrScan_done (quantum : Int) (cells : List (ProcessType × Int)) :
    ∀ (ct : Int) (done : Bool), (rrScan quantum cells ct done).2.2 = true →
      (∀ c ∈ cells, c.2 ≤ 0) ∧ (rrScan quantum cells ct done).1 = cells ∧
      (rrScan quantum cells ct done).2.1 = ct ∧ done = true := by
  induction cells with
  | nil => intro ct done h; simpa [rrScan] using h
  | cons c rest ih =>
    obtain ⟨p, r⟩ := c
    intro ct done h
    rw [rrScan_cons] at h ⊢
    by_cases hr : r > 0
    · by_cases hq : r > quantum
      · simp only [hr, hq, if_true] at h
        exact absurd (ih _ _ h).2.2.2 (by simp)
      · simp only [hr, hq, if_true, if_false] at h
        exact absurd (ih _ _ h).2.2.2 (by simp)
    · simp only [hr, if_false] at h ⊢
      obtain ⟨i1, i2, i3, i4⟩ := ih _ _ h
      refine ⟨?_, by rw [i2], i3, i4⟩
      intro c hc
      rcases List.mem_cons.1 hc with rfl | hc
      · simp only; omega
      · exact i1 c hc

theorem rrScan_remaining (quantum : Int) (hQ : 1 ≤ quantum) (cells : List (ProcessType × Int)) :
    ∀ (ct : Int) (done : Bool),
      rrRemaining (rrScan quantum cells ct done).1 ≤ rrRemaining cells ∧
      ((rrScan quantum cells ct done).2.2 = false → done = true →
        rrRemaining (rrScan quantum cells ct done).1 < rrRemaining cells) := by
  induction cells with
  | nil => intro ct done; simp [rrScan, rrRemaining]
  | cons c rest ih =>
    obtain ⟨p, r⟩ := c
    intro ct done
    rw [rrScan_cons]
    by_cases hr : r > 0
    · by_cases hq : r > quantum
      · simp only [hr, hq, if_true]
        have := (ih (ct + quantum) false).1
        simp only [rrRemaining, List.map_cons, List.sum_cons] at this ⊢
        omega
      · simp only [hr, hq, if_true, if_false]
        have := (ih (ct + r) false).1
        simp only [rrRemaining, List.map_cons, List.sum_cons] at this ⊢
        omega
    · simp only [hr, if_false]
      obtain ⟨ih1, ih2⟩ := ih ct done
      simp only [rrRemaining, List.map_cons, List.sum_cons] at ih1 ih2 ⊢
      refine ⟨by omega, fun h1 h2 => ?_⟩
      have := ih2 h1 h2
      omega

theorem rrLoop_terminates (quantum : Int) (hQ : 1 ≤ quantum) :
    ∀ (fuel : Nat) (cells : List (ProcessType × Int)) (ct : Int),
      rrRemaining cells < fuel → ∃ out, rrLoop quantum fuel cells ct = some out := by
  intro fuel
  induction fuel with
  | zero => intro cells ct h; omega
  | succ n ih =>
    intro cells ct h
    rw [rrLoop]
    by_cases hd : (rrScan quantum cells ct true).2.2 = true
    · simp [hd]
    · simp only [hd]
      have hlt := (rrScan_remaining quantum hQ cells ct true).2 (by simpa using hd) rfl
      exact ih _ _ (by omega)

theorem rrLoop_inv (quantum : Int) (hQ : 1 ≤ quantum) :
    ∀ (fuel : Nat) (cells : List (ProcessType × Int)) (ct : Int)
      (out : List (ProcessType × Int) × Int),
      (∀ c ∈ cells, RRCell ct c) → rrLoop quantum fuel cells ct = some out →
      ∀ c ∈ out.1, RRCell out.2 c ∧ c.2 = 0 := by
  intro fuel
  induction fuel with
  | zero => intro cells ct out _ h; simp [rrLoop] at h
  | succ n ih =>
    intro cells ct out hinv h
    rw [rrLoop] at h
    obtain ⟨_, hinv'⟩ := rrScan_inv quantum hQ cells ct true hinv
    by_cases hd : (rrScan quantum cells ct true).2.2 = true
    · simp only [hd, if_true, Option.some.injEq] at h
      obtain ⟨d1, d2, d3, _⟩ := rrScan_done quantum cells ct true hd
      subst h
      intro c hc
      have hc' := hinv' c hc
      refine ⟨hc', ?_⟩
      simp only at hc
      rw [d2] at hc
      have := d1 c hc
      have := hc'.1
      omega
    · simp only [hd] at h
      exact ih _ _ out hinv' h

theorem rrLoop_fuel_mono (quantum : Int) :
    ∀ (fuel extra : Nat) (cells : List (ProcessType × Int)) (ct : Int)
      (out : List (ProcessType × Int) × Int),
      rrLoop quantum fuel cells ct = some out →
      rrLoop quantum (fuel + extra) cells ct = some out := by
  intro fuel
  induction fuel with
  | zero => intro extra cells ct out h; simp [rrLoop] at h
  | succ n ih =>
    intro extra cells ct out h
    rw [show n + 1 + extra = (n + extra) + 1 by omega, rrLoop]
    rw [rrLoop] at h
    by_cases hd : (rrScan quantum cells ct true).2.2 = true
    · simpa [hd] using h
    · simp only [hd] at h ⊢
      exact ih _ _ _ _ h

theorem rrInit_inv (processes : List ProcessType) (hbt : ∀ p ∈ processes, 0 < p.bt) :
    ∀ c ∈ rrInit processes, RRCell 0 c := by
  intro c hc
  obtain ⟨p, hp, rfl⟩ := List.mem_map.1 hc
  have := hbt p hp
  refine ⟨?_, ?_, ?_, ?_⟩ <;> simp only <;> intros <;> omega

theorem rrScan_completed (quantum : Int) (l : List ProcessType) :
    ∀ (ct : Int) (done : Bool),
      rrScan quantum (l.map (fun p => (p, (0 : Int)))) ct done =
        (l.map (fun p => (p, (0 : Int))), ct, done) := by
  induction l with
  | nil => intro ct done; rfl
  | cons p rest ih =>
    intro ct done
    rw [List.map_cons, rrScan_cons]
    simp [ih]

theorem rrScan_large_quantum (quantum : Int) (processes : List ProcessType) :
    ∀ (ct : Int) (done : Bool), (∀ p ∈ processes, 0 < p.bt) → (∀ p ∈ processes, p.bt ≤ quantum) →
      rrScan quantum (rrInit processes) ct done =
        ((fcfsSchedule processes ct).map (fun p => (p, (0 : Int))),
          ct + (processes.map (fun p => p.bt)).sum, done && processes.isEmpty) := by
  induction processes with
  | nil => intro ct done _ _; simp [rrInit, rrScan, fcfsSchedule]
  | cons p rest ih =>
    intro ct done hbt hq
    have hp := hbt p (List.mem_cons_self _ _)
    have hpq := hq p (List.mem_cons_self _ _)
    have ih' := ih (ct + p.bt) false (fun a ha => hbt a (List.mem_cons_of_mem _ ha))
      (fun a ha => hq a (List.mem_cons_of_mem _ ha))
    unfold rrInit at ih' ⊢
    rw [List.map_cons, rrScan_cons, ih']
    have hnq : ¬ p.bt > quantum := by omega
    simp only [gt_iff_lt, hp, hnq, if_true, if_false, fcfsSchedule, List.map_cons, List.sum_cons,
      List.isEmpty_cons, Bool.and_false, Bool.false_and, Prod.mk.injEq, List.cons.injEq,
      ProcessType.mk.injEq, and_true, true_and]
    omega

theorem fcfsSchedule_getElem? (processes : List ProcessType) :
    ∀ (t : Int) (i : Nat) (p : ProcessType), processes[i]? = some p →
      (fcfsSchedule processes t)[i]? =
        some { p with tat := t + burstPrefix processes (i + 1) - p.art,
                      wt := t + burstPrefix processes i - p.art } := by
  induction processes with
  | nil => intro t i p h; simp at h
  | cons a rest ih =>
    intro t i p h
    cases i with
    | zero =>
      simp only [List.getElem?_cons_zero, Option.some.injEq] at h
      subst h
      simp only [fcfsSchedule, List.getElem?_cons_zero, burstPrefix, List.take_succ_cons,
        List.take_zero, List.map_cons, List.map_nil, List.sum_cons, List.sum_nil,
        Option.some.injEq, ProcessType.mk.injEq, true_and, and_true]
      omega
    | succ j =>
      rw [List.getElem?_cons_succ] at h
      have := ih (t + a.bt) j p h
      simp only [fcfsSchedule, List.getElem?_cons_succ, this, burstPrefix, List.take_succ_cons,
        List.map_cons, List.sum_cons, Option.some.injEq, ProcessType.mk.injEq, true_and, and_true]
      omega

theorem rrLoop_single (quantum : Int) (p : ProcessType) :
    ∀ (k : Nat) (r ct : Int), 0 < r → r ≤ k * quantum →
      rrLoop quantum (k + 1) [(p, r)] ct =
        some ([({ p with wt := ct + r - p.bt - p.art, tat := ct + r - p.art }, 0)], ct + r) := by
  intro k
  induction k with
  | zero => intro r ct h1 h2; simp at h2; omega
  | succ n ih =>
    intro r ct h1 h2
    rw [rrLoop, rrScan_cons]
    by_cases hq : r > quantum
    · have h3 : r - quantum ≤ n * quantum := by
        have : ((n + 1 : Nat) : Int) * quantum = n * quantum + quantum := by
          push_cast; ring
        omega
      simp only [gt_iff_lt, h1, hq, if_true, rrScan, Bool.false_eq_true, if_false]
      rw [ih (r - quantum) (ct + quantum) (by omega) h3]
      simp only [Option.some.injEq, Prod.mk.injEq, List.cons.injEq, ProcessType.mk.injEq,
        and_true, true_and]
      omega
    · simp only [gt_iff_lt, h1, hq, if_true, if_false, rrScan, Bool.false_eq_true]
      cases n with
      | zero => simp [rrLoop, rrScan]
      | succ m => simp [rrLoop, rrScan]

/-! ## Theorems: round robin -/

/-- In exact arithmetic: for every workload with all burst times positive and every quantum
at least the largest burst time, `roundRobinScheduling` returns (two scans are enough) the
first-come-first-served schedule in input order from time 0: process `i` completes at
the sum of the bursts of processes `0..i`, so `TAT_i = (BT_0 + .. + BT_i) − AT_i` and
`WT_i = (BT_0 + .. + BT_{i-1}) − AT_i`. -/
theorem roundRobin_large_quantum_fcfs_exact (processes : List ProcessType) (quantum : Int)
    (hbt : ∀ p ∈ processes, 0 < p.bt) (hq : ∀ p ∈ processes, p.bt ≤ quantum) (extra : Nat) :
    roundRobinScheduling (2 + extra) processes quantum = some (fcfsSchedule processes 0) ∧
    ∀ (i : Nat) (p : ProcessType), processes[i]? = some p →
      (fcfsSchedule processes 0)[i]? =
        some { p with tat := burstPrefix processes (i + 1) - p.art,
                      wt := burstPrefix processes i - p.art } := by
  constructor
  · have h2 : rrLoop quantum 2 (rrInit processes) 0 =
        some ((fcfsSchedule processes 0).map (fun p => (p, (0 : Int))),
          0 + (processes.map (fun p => p.bt)).sum) := by
      rw [rrLoop, rrScan_large_quantum quantum processes 0 true hbt hq]
      cases processes with
      | nil => simp
      | cons a rest => simp [rrLoop, rrScan_completed]
    unfold roundRobinScheduling rrRun
    rw [rrLoop_fuel_mono quantum 2 extra _ _ _ h2]
    simp [Function.comp_def]
  · intro i p h
    have := fcfsSchedule_getElem? processes 0 i p h
    simpa using this

/-- In exact arithmetic: for every valid workload (every burst time positive, every arrival
time non-negative) and every quantum at least 1, `roundRobinScheduling` returns, and when it
does every process has its working remaining burst at 0, `TAT = WT + burst_time`,
`WT ≥ −arrival_time` and `TAT ≥ burst_time − arrival_time`. -/
theorem roundRobin_results_exact (processes : List ProcessType) (quantum : Int)
    (hbt : ∀ p ∈ processes, 0 < p.bt) (hart : ∀ p ∈ processes, 0 ≤ p.art)
    (hQ : 1 ≤ quantum) :
    (∃ fuel out, rrRun fuel processes quantum = some out) ∧
    (∀ fuel out, rrRun fuel processes quantum = some out →
      ∀ c ∈ out.1, c.2 = 0 ∧ c.1.tat = c.1.wt + c.1.bt ∧
        -c.1.art ≤ c.1.wt ∧ c.1.bt - c.1.art ≤ c.1.tat) := by
  have _ := hart
  constructor
  · exact ⟨rrRemaining (rrInit processes) + 1,
      rrLoop_terminates quantum hQ _ (rrInit processes) 0 (Nat.lt_succ_self _)⟩
  · intro fuel out h c hc
    obtain ⟨⟨_, _, _, h4⟩, h0⟩ :=
      rrLoop_inv quantum hQ fuel (rrInit processes) 0 out (rrInit_inv processes hbt) h c hc
    obtain ⟨e1, e2, e3⟩ := h4 h0
    exact ⟨h0, e1, by omega, by omega⟩

/-- C9 (as stated, refuted): the single process with burst 3 arriving at time 2 ends, under
`roundRobinScheduling` with quantum 2, with `WT = −2` and `TAT = 1`, not `WT = 0` and
`TAT = 3`. -/
theorem roundRobin_single_late :
    roundRobinScheduling 3 [lateSingle] 2 =
      some [{ pid := 1, bt := 3, art := 2, wt := -2, tat := 1, pri := 0, rem_bt := 0 }] := by
  decide

/-- C9 (amended): for every single-process workload with positive burst time and
non-negative arrival time and every quantum at least 1, `roundRobinScheduling` returns
with `WT = −arrival_time` and `TAT = burst_time − arrival_time`: `WT = 0` and
`TAT = burst_time` when the process arrives at time 0. -/
theorem roundRobin_single (p : ProcessType) (quantum : Int)
    (hbt : 0 < p.bt) (hart : 0 ≤ p.art) (hQ : 1 ≤ quantum) (extra : Nat) :
    roundRobinScheduling (p.bt.toNat + 1 + extra) [p] quantum =
      some [{ p with wt := -p.art, tat := p.bt - p.art }] := by
  have _ := hart
  have hk : p.bt ≤ (p.bt.toNat : Int) * quantum := by
    have h1 : ((p.bt.toNat : Nat) : Int) = p.bt := Int.toNat_of_nonneg (le_of_lt hbt)
    rw [h1]
    nlinarith
  have h := rrLoop_single quantum p p.bt.toNat p.bt 0 hbt hk
  unfold roundRobinScheduling rrRun rrInit
  rw [List.map_cons, List.map_nil, rrLoop_fuel_mono quantum _ extra _ _ _ h]
  simp

/-- Witness for C9 (amended): burst 3, arrival 2, quantum 2. -/
theorem roundRobin_single_witness :
    0 < lateSingle.bt ∧ 0 ≤ lateSingle.art ∧ (1 : Int) ≤ 2 ∧
    roundRobinScheduling (lateSingle.bt.toNat + 1 + 0) [lateSingle] 2 =
      some [{ lateSingle with wt := -lateSingle.art, tat := lateSingle.bt - lateSingle.art }] :=
  ⟨by decide, by decide, by decide,
    roundRobin_single lateSingle 2 (by decide) (by decide) (by decide) 0⟩

/-- C10: on the workload of `main`, P1(BT=10,AT=0), P2(BT=5,AT=1), P3(BT=8,AT=2) in that
order with quantum 2, `roundRobinScheduling` returns (six scans are enough) with
P1: WT=13, TAT=23; P2: WT=9, TAT=14; P3: WT=11, TAT=19, and every process satisfies
`WT ≥ 0`, `TAT = WT + burst_time`, `TAT ≥ burst_time`. -/
theorem roundRobin_reference (extra : Nat) :
    roundRobinScheduling (6 + extra) referenceWorkload 2 =
      some [ { pid := 1, bt := 10, art := 0, wt := 13, tat := 23, pri := 3, rem_bt := 0 },
             { pid := 2, bt := 5, art := 1, wt := 9, tat := 14, pri := 1, rem_bt := 0 },
             { pid := 3, bt := 8, art := 2, wt := 11, tat := 19, pri := 2, rem_bt := 0 } ] ∧
    ∀ p ∈ [ ({ pid := 1, bt := 10, art := 0, wt := 13, tat := 23, pri := 3, rem_bt := 0 } :
              ProcessType),
            { pid := 2, bt := 5, art := 1, wt := 9, tat := 14, pri := 1, rem_bt := 0 },
            { pid := 3, bt := 8, art := 2, wt := 11, tat := 19, pri := 2, rem_bt := 0 } ],
      0 ≤ p.wt ∧ p.tat = p.wt + p.bt ∧ p.bt ≤ p.tat := by
  constructor
  · have h : rrLoop 2 6 (rrInit referenceWorkload) 0 =
        some ([ ({ pid := 1, bt := 10, art := 0, wt := 13, tat := 23, pri := 3, rem_bt := 0 }, 0),
                ({ pid := 2, bt := 5, art := 1, wt := 9, tat := 14, pri := 1, rem_bt := 0 }, 0),
                ({ pid := 3, bt := 8, art := 2, wt := 11, tat := 19, pri := 2, rem_bt := 0 }, 0) ],
              23) := by
      decide
    unfold roundRobinScheduling rrRun
    rw [rrLoop_fuel_mono 2 6 extra _ _ _ h]
    rfl
  · decide

/-! ## Lemmas: shortest remaining time first -/

theorem sjfFind_cons (t : Int) (a : ProcessType) (rest : List ProcessType) (i : Nat)
    (sp : Option Nat) (m : Int) :
    sjfFind t (a :: rest) i sp m =
      if a.art ≤ t ∧ a.rem_bt > 0 ∧ a.rem_bt < m then sjfFind t rest (i + 1) (some i) a.rem_bt
      else sjfFind t rest (i + 1) sp m := by
  simp only [sjfFind]

/-- What the scan of lines 68-76 returns: either nothing new was found, and then no
record of the list is arrived, unfinished and below `min_rem_time`; or the record at
some position `j`, which is arrived and unfinished, strictly below every such record
before it and at most every such record of the list. -/
theorem sjfFind_spec (t : Int) (l : List ProcessType) :
    ∀ (i : Nat) (sp : Option Nat) (m : Int),
      ((sjfFind t l i sp m).1 = sp ∧ (sjfFind t l i sp m).2 = m ∧
        ∀ p ∈ l, ¬ (p.art ≤ t ∧ 0 < p.rem_bt ∧ p.rem_bt < m)) ∨
      (∃ (j : Nat) (p : ProcessType), l[j]? = some p ∧ (sjfFind t l i sp m).1 = some (i + j) ∧
        (sjfFind t l i sp m).2 = p.rem_bt ∧ p.art ≤ t ∧ 0 < p.rem_bt ∧ p.rem_bt < m ∧
        (∀ (j' : Nat) (q : ProcessType), j' < j → l[j']? = some q → q.art ≤ t → 0 < q.rem_bt →
          p.rem_bt < q.rem_bt) ∧
        (∀ q ∈ l, q.art ≤ t → 0 < q.rem_bt → p.rem_bt ≤ q.rem_bt)) := by
  induction l with
  | nil => intro i sp m; left; simp [sjfFind]
  | cons a rest ih =>
    intro i sp m
    rw [sjfFind_cons]
    by_cases hc : a.art ≤ t ∧ a.rem_bt > 0 ∧ a.rem_bt < m
    · rw [if_pos hc]
      right
      rcases ih (i + 1) (some i) a.rem_bt with ⟨h1, h2, h3⟩ | ⟨j, p, hj, h1, h2, h3, h4, h5, h6, h7⟩
      · refine ⟨0, a, List.getElem?_cons_zero, by simpa using h1, h2, hc.1, hc.2.1, hc.2.2, ?_, ?_⟩
        · intro j' q hj'; omega
        · intro q hq hq1 hq2
          rcases List.mem_cons.1 hq with rfl | hq
          · exact le_refl _
          · have := h3 q hq
            by_contra hlt
            exact this ⟨hq1, hq2, by omega⟩
      · refine ⟨j + 1, p, by simpa using hj, by rw [h1]; congr 1; omega, h2, h3, h4,
          by omega, ?_, ?_⟩
        · intro j' q hj' hq hq1 hq2
          cases j' with
          | zero =>
            simp only [List.getElem?_cons_zero, Option.some.injEq] at hq
            subst hq
            exact h5
          | succ k =>
            rw [List.getElem?_cons_succ] at hq
            exact h6 k q (by omega) hq hq1 hq2
        · intro q hq hq1 hq2
          rcases List.mem_cons.1 hq with rfl | hq
          · exact le_of_lt h5
          · exact h7 q hq hq1 hq2
    · rw [if_neg hc]
      rcases ih (i + 1) sp m with ⟨h1, h2, h3⟩ | ⟨j, p, hj, h1, h2, h3, h4, h5, h6, h7⟩
      · left
        refine ⟨h1, h2, ?_⟩
        intro q hq
        rcases List.mem_cons.1 hq with rfl | hq
        · exact hc
        · exact h3 q hq
      · right
        have ha : a.art ≤ t → 0 < a.rem_bt → m ≤ a.rem_bt := by
          intro ha1 ha2
          by_contra hlt
          exact hc ⟨ha1, ha2, by omega⟩
        refine ⟨j + 1, p, by simpa using hj, by rw [h1]; congr 1; omega, h2, h3, h4, h5, ?_, ?_⟩
        · intro j' q hj' hq hq1 hq2
          cases j' with
          | zero =>
            simp only [List.getElem?_cons_zero, Option.some.injEq] at hq
            subst hq
            have := ha hq1 hq2
            omega
          | succ k =>
            rw [List.getElem?_cons_succ] at hq
            exact h6 k q (by omega) hq hq1 hq2
        · intro q hq hq1 hq2
          rcases List.mem_cons.1 hq with rfl | hq
          · have := ha hq1 hq2
            omega
          · exact h7 q hq hq1 hq2

/-- When the scan selects nothing, no arrived unfinished record is below `INT_MAX`. -/
theorem sjfShortest_none (s : SjfState) (h : sjfShortest s = none) :
    ∀ p ∈ s.processes, ¬ (p.art ≤ s.current_time ∧ 0 < p.rem_bt ∧ p.rem_bt < INT_MAX) := by
  unfold sjfShortest at h
  rcases sjfFind_spec s.current_time s.processes 0 none INT_MAX with
    ⟨_, _, h3⟩ | ⟨j, p, _, h1, _⟩
  · exact h3
  · rw [h] at h1
    exact absurd h1 (by simp)

/-- When the scan selects index `k`, the record there is arrived and unfinished, has the
least remaining burst of all such records, and is the first to have it. -/
theorem sjfShortest_some (s : SjfState) (k : Nat) (h : sjfShortest s = some k) :
    ∃ p, s.processes[k]? = some p ∧ p.art ≤ s.current_time ∧ 0 < p.rem_bt ∧
      p.rem_bt < INT_MAX ∧
      (∀ (j : Nat) (q : ProcessType), j < k → s.processes[j]? = some q →
        q.art ≤ s.current_time → 0 < q.rem_bt → p.rem_bt < q.rem_bt) ∧
      (∀ q ∈ s.processes, q.art ≤ s.current_time → 0 < q.rem_bt → p.rem_bt ≤ q.rem_bt) := by
  unfold sjfShortest at h
  rcases sjfFind_spec s.current_time s.processes 0 none INT_MAX with
    ⟨h1, _, _⟩ | ⟨j, p, hj, h1, _, h3, h4, h5, h6, h7⟩
  · rw [h] at h1
    exact absurd h1 (by simp)
  · rw [h] at h1
    simp only [zero_add, Option.some.injEq] at h1
    subst h1
    exact ⟨p, hj, h3, h4, h5, h6, h7⟩

theorem sjfStep_idle (s : SjfState) (h : sjfShortest s = none) :
    sjfStep s = { s with current_time := s.current_time + 1 } := by
  unfold sjfStep
  rw [h]

theorem sjfStep_run (s : SjfState) (k : Nat) (p : ProcessType)
    (h : sjfShortest s = some k) (hp : s.processes[k]? = some p) :
    sjfStep s =
      if p.rem_bt - 1 = 0 then
        { processes := s.processes.set k
            { p with rem_bt := p.rem_bt - 1, tat := s.current_time + 1 - p.art,
                     wt := s.current_time + 1 - p.art - p.bt },
          current_time := s.current_time + 1,
          completed := s.completed + 1 }
      else
        { processes := s.processes.set k { p with rem_bt := p.rem_bt - 1 },
          current_time := s.current_time + 1,
          completed := s.completed } := by
  unfold sjfStep
  rw [h]
  simp only [hp]

theorem SjfCell_mono {t t' : Int} {p : ProcessType} (h : SjfCell t p) (hle : t ≤ t') :
    SjfCell t' p := by
  obtain ⟨h1, h2, h3, h4⟩ := h
  exact ⟨h1, h2, fun hlt => le_trans (h3 hlt) hle, h4⟩

theorem countP_set_of_getElem? {α : Type} (f : α → Bool) (l : List α) (k : Nat) (a b : α)
    (h : l[k]? = some a) :
    (l.set k b).countP f + (if f a then 1 else 0) = l.countP f + (if f b then 1 else 0) := by
  induction l generalizing k with
  | nil => simp at h
  | cons c rest ih =>
    cases k with
    | zero =>
      simp only [List.getElem?_cons_zero, Option.some.injEq] at h
      subst h
      simp only [List.set_cons_zero, List.countP_cons]
      omega
    | succ j =>
      rw [List.getElem?_cons_succ] at h
      have := ih j h
      simp only [List.set_cons_succ, List.countP_cons]
      omega

theorem sum_map_set_of_getElem? {α : Type} (f : α → Nat) (l : List α) (k : Nat) (a b : α)
    (h : l[k]? = some a) :
    ((l.set k b).map f).sum + f a = (l.map f).sum + f b := by
  induction l generalizing k with
  | nil => simp at h
  | cons c rest ih =>
    cases k with
    | zero =>
      simp only [List.getElem?_cons_zero, Option.some.injEq] at h
      subst h
      simp only [List.set_cons_zero, List.map_cons, List.sum_cons]
      omega
    | succ j =>
      rw [List.getElem?_cons_succ] at h
      have := ih j h
      simp only [List.set_cons_succ, List.map_cons, List.sum_cons]
      omega

/-- One iteration of the `while` body keeps the loop invariant. -/
theorem sjfStep_inv (s : SjfState) (h : SjfInv s) : SjfInv (sjfStep s) := by
  obtain ⟨hcell, hcount⟩ := h
  cases hs : sjfShortest s with
  | none =>
    rw [sjfStep_idle s hs]
    exact ⟨fun p hp => SjfCell_mono (hcell p hp) (by simp), hcount⟩
  | some k =>
    obtain ⟨p, hp, harr, hpos, _, _, _⟩ := sjfShortest_some s k hs
    have hmem : p ∈ s.processes := List.getElem?_mem hp
    obtain ⟨c1, c2, c3, c4⟩ := hcell p hmem
    rw [sjfStep_run s k p hs hp]
    by_cases hz : p.rem_bt - 1 = 0
    · rw [if_pos hz]
      refine ⟨?_, ?_⟩
      · intro q hq
        rcases List.mem_or_eq_of_mem_set hq with hq | rfl
        · exact SjfCell_mono (hcell q hq) (by simp)
        · refine ⟨?_, ?_, ?_, ?_⟩ <;> simp only <;> intros <;> omega
      · have := countP_set_of_getElem? (fun p => decide (p.rem_bt = 0)) s.processes k p
          { p with rem_bt := p.rem_bt - 1, tat := s.current_time + 1 - p.art,
                   wt := s.current_time + 1 - p.art - p.bt } hp
        have hd : decide (p.rem_bt - 1 = 0) = true := decide_eq_true hz
        have hnd : decide (p.rem_bt = 0) = false := decide_eq_false (by omega)
        simp only [hd, hnd, if_true, if_false, Bool.false_eq_true] at this
        simp only
        omega
    · rw [if_neg hz]
      refine ⟨?_, ?_⟩
      · intro q hq
        rcases List.mem_or_eq_of_mem_set hq with hq | rfl
        · exact SjfCell_mono (hcell q hq) (by simp)
        · refine ⟨?_, ?_, ?_, ?_⟩ <;> simp only <;> intros <;> omega
      · have := countP_set_of_getElem? (fun p => decide (p.rem_bt = 0)) s.processes k p
          { p with rem_bt := p.rem_bt - 1 } hp
        have hd : decide (p.rem_bt - 1 = 0) = false := decide_eq_false hz
        have hnd : decide (p.rem_bt = 0) = false := decide_eq_false (by omega)
        simp only [hd, hnd, if_false, Bool.false_eq_true] at this
        simp only
        omega

theorem sjfStep_bound (latest : Int) (s : SjfState) (h : SjfBound latest s) :
    SjfBound latest (sjfStep s) := by
  cases hs : sjfShortest s with
  | none =>
    rw [sjfStep_idle s hs]
    exact h
  | some k =>
    obtain ⟨p, hp, _, _, _, _, _⟩ := sjfShortest_some s k hs
    have hmem : p ∈ s.processes := List.getElem?_mem hp
    obtain ⟨b1, b2⟩ := h p hmem
    rw [sjfStep_run s k p hs hp]
    by_cases hz : p.rem_bt - 1 = 0
    · rw [if_pos hz]
      intro q hq
      rcases List.mem_or_eq_of_mem_set hq with hq | rfl
      · exact h q hq
      · exact ⟨b1, by simp only; omega⟩
    · rw [if_neg hz]
      intro q hq
      rcases List.mem_or_eq_of_mem_set hq with hq | rfl
      · exact h q hq
      · exact ⟨b1, by simp only; omega⟩

theorem exists_unfinished (s : SjfState) (h : SjfInv s)
    (hlt : s.completed < s.processes.length) : ∃ p ∈ s.processes, 0 < p.rem_bt := by
  by_contra hno
  have hall : ∀ p ∈ s.processes, (fun p : ProcessType => decide (p.rem_bt = 0)) p = true := by
    intro p hp
    have h0 := (h.1 p hp).1
    have : ¬ 0 < p.rem_bt := fun hpos => hno ⟨p, hp, hpos⟩
    simp only [decide_eq_true_eq]
    omega
  have := List.countP_eq_length.2 hall
  rw [← h.2] at this
  omega

/-- While some record is unfinished, one iteration of the `while` body lowers the
measure, provided every remaining burst is below `INT_MAX`. -/
theorem sjfStep_measure (latest : Int) (s : SjfState) (h : SjfInv s) (hb : SjfBound latest s)
    (hlt : s.completed < s.processes.length) :
    sjfMeasure latest (sjfStep s) < sjfMeasure latest s := by
  cases hs : sjfShortest s with
  | none =>
    rw [sjfStep_idle s hs]
    obtain ⟨p, hp, hpos⟩ := exists_unfinished s h hlt
    obtain ⟨b1, b2⟩ := hb p hp
    have hnot := sjfShortest_none s hs p hp
    have harr : s.current_time < p.art := by
      by_contra hle
      exact hnot ⟨by omega, hpos, b2⟩
    simp only [sjfMeasure]
    omega
  | some k =>
    obtain ⟨p, hp, _, hpos, _, _, _⟩ := sjfShortest_some s k hs
    rw [sjfStep_run s k p hs hp]
    by_cases hz : p.rem_bt - 1 = 0
    · rw [if_pos hz]
      have := sum_map_set_of_getElem? (fun p => p.rem_bt.toNat) s.processes k p
        { p with rem_bt := p.rem_bt - 1, tat := s.current_time + 1 - p.art,
                 wt := s.current_time + 1 - p.art - p.bt } hp
      simp only [sjfMeasure] at this ⊢
      omega
    · rw [if_neg hz]
      have := sum_map_set_of_getElem? (fun p => p.rem_bt.toNat) s.processes k p
        { p with rem_bt := p.rem_bt - 1 } hp
      simp only [sjfMeasure] at this ⊢
      omega

theorem sjfLoop_terminates (latest : Int) :
    ∀ (fuel : Nat) (s : SjfState), SjfInv s → SjfBound latest s → sjfMeasure latest s ≤ fuel →
      ∃ out, sjfLoop fuel s = some out := by
  intro fuel
  induction fuel with
  | zero =>
    intro s h hb hm
    rw [sjfLoop]
    by_cases hlt : s.completed < s.processes.length
    · have := sjfStep_measure latest s h hb hlt
      omega
    · simp [hlt]
  | succ n ih =>
    intro s h hb hm
    rw [sjfLoop]
    by_cases hlt : s.completed < s.processes.length
    · rw [if_pos hlt]
      have := sjfStep_measure latest s h hb hlt
      exact ih _ (sjfStep_inv s h) (sjfStep_bound latest s hb) (by omega)
    · simp [hlt]

theorem sjfLoop_inv :
    ∀ (fuel : Nat) (s out : SjfState), SjfInv s → sjfLoop fuel s = some out →
      SjfInv out ∧ ¬ out.completed < out.processes.length := by
  intro fuel
  induction fuel with
  | zero =>
    intro s out h hrun
    rw [sjfLoop] at hrun
    by_cases hlt : s.completed < s.processes.length
    · simp [hlt] at hrun
    · simp only [hlt, if_false, Option.some.injEq] at hrun
      subst hrun
      exact ⟨h, hlt⟩
  | succ n ih =>
    intro s out h hrun
    rw [sjfLoop] at hrun
    by_cases hlt : s.completed < s.processes.length
    · rw [if_pos hlt] at hrun
      exact ih _ out (sjfStep_inv s h) hrun
    · simp only [hlt, if_false, Option.some.injEq] at hrun
      subst hrun
      exact ⟨h, hlt⟩

theorem sjfInit_inv (processes : List ProcessType) (hbt : ∀ p ∈ processes, 0 < p.bt) :
    SjfInv (sjfInit processes) := by
  refine ⟨?_, ?_⟩
  · intro q hq
    obtain ⟨p, hp, rfl⟩ := List.mem_map.1 hq
    have := hbt p hp
    refine ⟨?_, ?_, ?_, ?_⟩ <;> simp only <;> intros <;> omega
  · simp only [sjfInit]
    symm
    rw [List.countP_eq_zero]
    intro q hq
    obtain ⟨p, hp, rfl⟩ := List.mem_map.1 hq
    have := hbt p hp
    simp only [decide_eq_true_eq]
    omega

theorem le_latestArrival (processes : List ProcessType) :
    ∀ p ∈ processes, p.art ≤ latestArrival processes := by
  induction processes with
  | nil => intro p hp; simp at hp
  | cons a rest ih =>
    intro p hp
    simp only [latestArrival, List.map_cons, List.foldr_cons]
    rcases List.mem_cons.1 hp with rfl | hp
    · exact le_max_left _ _
    · exact le_trans (ih p hp) (le_max_right _ _)

theorem sjfInit_bound (processes : List ProcessType)
    (hmax : ∀ p ∈ processes, p.bt < INT_MAX) :
    SjfBound (latestArrival processes) (sjfInit processes) := by
  intro q hq
  obtain ⟨p, hp, rfl⟩ := List.mem_map.1 hq
  exact ⟨le_latestArrival processes p hp, hmax p hp⟩

theorem sjfLoop_max_burst_stuck :
    ∀ (fuel : Nat) (t : Int),
      sjfLoop fuel { processes := [{ maxBurstProcess with rem_bt := 2147483647 }],
                     current_time := t, completed := 0 } = none := by
  intro fuel
  induction fuel with
  | zero => intro t; simp [sjfLoop]
  | succ n ih =>
    intro t
    have hstep : sjfStep { processes := [{ maxBurstProcess with rem_bt := 2147483647 }],
                           current_time := t, completed := 0 } =
        { processes := [{ maxBurstProcess with rem_bt := 2147483647 }],
          current_time := t + 1, completed := 0 } := by
      simp [sjfStep, sjfShortest, sjfFind, INT_MAX]
    rw [sjfLoop, hstep]
    simpa using ih (t + 1)

theorem sjfLoop_single_idle (q : ProcessType) :
    ∀ (d : Nat) (t : Int) (fuel : Nat), t + d = q.art →
      sjfLoop (d + fuel) { processes := [q], current_time := t, completed := 0 } =
        sjfLoop fuel { processes := [q], current_time := q.art, completed := 0 } := by
  intro d
  induction d with
  | zero =>
    intro t fuel h
    simp only [Nat.cast_zero, add_zero] at h
    rw [Nat.zero_add, h]
  | succ n ih =>
    intro t fuel h
    have hlt : ¬ q.art ≤ t := by push_cast at h; omega
    have hstep : sjfStep { processes := [q], current_time := t, completed := 0 } =
        { processes := [q], current_time := t + 1, completed := 0 } := by
      simp [sjfStep, sjfShortest, sjfFind, hlt]
    rw [show n + 1 + fuel = (n + fuel) + 1 by omega, sjfLoop, hstep]
    simp only [List.length_singleton, Nat.lt_one_iff, if_true]
    exact ih (t + 1) fuel (by push_cast at h; omega)

theorem sjfShortest_single (q : ProcessType) (t : Int) (c : Nat)
    (h : q.art ≤ t ∧ q.rem_bt > 0 ∧ q.rem_bt < INT_MAX) :
    sjfShortest { processes := [q], current_time := t, completed := c } = some 0 := by
  simp only [sjfShortest, sjfFind]
  rw [if_pos h]

theorem sjfLoop_single_run :
    ∀ (r : Nat) (q : ProcessType) (t : Int) (fuel : Nat), q.art ≤ t → q.rem_bt = r + 1 →
      q.rem_bt < INT_MAX →
      sjfLoop (r + 1 + fuel) { processes := [q], current_time := t, completed := 0 } =
        some { processes := [{ q with rem_bt := 0, tat := t + r + 1 - q.art,
                                      wt := t + r + 1 - q.art - q.bt }],
               current_time := t + r + 1, completed := 1 } := by
  intro r
  induction r with
  | zero =>
    intro q t fuel harr hrem hmax
    simp only [Nat.cast_zero, zero_add] at hrem
    have hcond : q.art ≤ t ∧ q.rem_bt > 0 ∧ q.rem_bt < INT_MAX := ⟨harr, by omega, hmax⟩
    have hstep : sjfStep { processes := [q], current_time := t, completed := 0 } =
        { processes := [{ q with rem_bt := 0, tat := t + 1 - q.art, wt := t + 1 - q.art - q.bt }],
          current_time := t + 1, completed := 1 } := by
      rw [sjfStep_run _ 0 q (sjfShortest_single q t 0 hcond) rfl]
      simp [hrem]
    rw [show 0 + 1 + fuel = fuel + 1 by omega, sjfLoop, hstep]
    simp only [List.length_singleton, Nat.lt_one_iff, if_true, Nat.cast_zero, add_zero]
    cases fuel with
    | zero => simp [sjfLoop]
    | succ m => simp [sjfLoop]
  | succ n ih =>
    intro q t fuel harr hrem hmax
    have hcond : q.art ≤ t ∧ q.rem_bt > 0 ∧ q.rem_bt < INT_MAX := ⟨harr, by omega, hmax⟩
    have hnz : ¬ q.rem_bt - 1 = 0 := by push_cast at hrem; omega
    have hstep : sjfStep { processes := [q], current_time := t, completed := 0 } =
        { processes := [{ q with rem_bt := q.rem_bt - 1 }],
          current_time := t + 1, completed := 0 } := by
      rw [sjfStep_run _ 0 q (sjfShortest_single q t 0 hcond) rfl]
      simp [hnz]
    rw [show n + 1 + 1 + fuel = (n + 1 + fuel) + 1 by omega, sjfLoop, hstep]
    simp only [List.length_singleton, Nat.lt_one_iff, if_true]
    rw [ih { q with rem_bt := q.rem_bt - 1 } (t + 1) fuel (by simp only; omega)
      (by simp only; push_cast at hrem ⊢; omega) (by simp only; omega)]
    simp only [Option.some.injEq, SjfState.mk.injEq, List.cons.injEq, ProcessType.mk.injEq,
      and_true, true_and]
    push_cast
    omega

/-- On a single process whose burst is positive and below `INT_MAX` and whose arrival is
non-negative, `sjfScheduling` idles until the arrival, runs the burst, and returns with
`WT = 0` and `TAT = burst_time`. -/
theorem sjfScheduling_single (p : ProcessType) (hbt : 0 < p.bt) (hart : 0 ≤ p.art)
    (hmax : p.bt < INT_MAX) (extra : Nat) :
    sjfScheduling (p.art.toNat + (p.bt.toNat + extra)) [p] =
      some [{ p with rem_bt := 0, wt := 0, tat := p.bt }] := by
  obtain ⟨r, hr⟩ : ∃ r : Nat, p.bt = r + 1 := ⟨(p.bt - 1).toNat, by omega⟩
  have hr2 : p.bt.toNat = r + 1 := by omega
  unfold sjfScheduling sjfRun sjfInit
  rw [List.map_cons, List.map_nil,
    sjfLoop_single_idle { p with rem_bt := p.bt } p.art.toNat 0 _ (by simp only; omega), hr2,
    sjfLoop_single_run r { p with rem_bt := p.bt } p.art extra (le_refl _) hr hmax]
  simp only [Option.map_some', Option.some.injEq, List.cons.injEq, ProcessType.mk.injEq,
    and_true, true_and]
  omega

/-- On a single process with non-negative arrival, `priorityScheduling` returns with
`WT = 0` and `TAT = burst_time`, whatever `qsort` allowed by the postcondition is used. -/
theorem priorityScheduling_single
    (qsort : (ProcessType → ProcessType → Int) → List ProcessType → List ProcessType)
    (p : ProcessType) (hart : 0 ≤ p.art)
    (hq : QsortPost comparePriority [p] (qsort comparePriority [p])) :
    priorityScheduling qsort [p] = [{ p with wt := 0, tat := p.bt }] := by
  unfold priorityScheduling
  rw [List.perm_singleton.1 hq.1, priorityWalk_cons]
  simp only [priorityWalk, List.cons.injEq, ProcessType.mk.injEq, and_true, true_and]
  rw [max_eq_right hart]
  omega

/-- An iteration of the `while` body in a state where some arrived, unfinished record has
a remaining burst below `INT_MAX`: the record at the selected index `k` has the least
remaining burst of the arrived unfinished records and is the first with it; only that
record changes, its `rem_bt` drops by 1, and the clock advances by 1. -/
theorem sjfStep_selects_shortest (s : SjfState)
    (h : ∃ p ∈ s.processes, p.art ≤ s.current_time ∧ 0 < p.rem_bt ∧ p.rem_bt < INT_MAX) :
    ∃ (k : Nat) (p : ProcessType), s.processes[k]? = some p ∧
      p.art ≤ s.current_time ∧ 0 < p.rem_bt ∧
      (∀ q ∈ s.processes, q.art ≤ s.current_time → 0 < q.rem_bt → p.rem_bt ≤ q.rem_bt) ∧
      (∀ (j : Nat) (q : ProcessType), j < k → s.processes[j]? = some q →
        q.art ≤ s.current_time → 0 < q.rem_bt → p.rem_bt < q.rem_bt) ∧
      (sjfStep s).current_time = s.current_time + 1 ∧
      (sjfStep s).processes.map (fun q => q.rem_bt) =
        (s.processes.map (fun q => q.rem_bt)).set k (p.rem_bt - 1) := by
  cases hs : sjfShortest s with
  | none =>
    obtain ⟨p, hp, hel⟩ := h
    exact absurd hel (sjfShortest_none s hs p hp)
  | some k =>
    obtain ⟨p, hp, h1, h2, _, h4, h5⟩ := sjfShortest_some s k hs
    refine ⟨k, p, hp, h1, h2, h5, h4, ?_, ?_⟩
    · rw [sjfStep_run s k p hs hp]
      by_cases hz : p.rem_bt - 1 = 0
      · rw [if_pos hz]
      · rw [if_neg hz]
    · rw [sjfStep_run s k p hs hp]
      by_cases hz : p.rem_bt - 1 = 0
      · rw [if_pos hz]
        simp only [List.map_set]
      · rw [if_neg hz]
        simp only [List.map_set]

/-- An iteration of the `while` body in a state where no record is both arrived and
unfinished: no record changes and the clock advances by 1. -/
theorem sjfStep_idle_of_none_eligible (s : SjfState)
    (h : ∀ p ∈ s.processes, ¬ (p.art ≤ s.current_time ∧ 0 < p.rem_bt)) :
    sjfStep s = { s with current_time := s.current_time + 1 } := by
  cases hs : sjfShortest s with
  | none => exact sjfStep_idle s hs
  | some k =>
    obtain ⟨p, hp, h1, h2, _⟩ := sjfShortest_some s k hs
    exact absurd ⟨h1, h2⟩ (h p (List.getElem?_mem hp))

/-! ## Theorems: shortest remaining time first -/

/-- In exact arithmetic: for every valid workload (every burst time positive, every arrival
time non-negative), whenever `sjfScheduling` returns every process has `rem_bt = 0`, `WT ≥ 0`,
`TAT = WT + burst_time` and `TAT ≥ burst_time`; and it does return when every burst time
is below `INT_MAX`. -/
theorem sjfScheduling_results_exact (processes : List ProcessType)
    (hbt : ∀ p ∈ processes, 0 < p.bt) (hart : ∀ p ∈ processes, 0 ≤ p.art) :
    (∀ fuel out, sjfScheduling fuel processes = some out →
      ∀ p ∈ out, p.rem_bt = 0 ∧ 0 ≤ p.wt ∧ p.tat = p.wt + p.bt ∧ p.bt ≤ p.tat) ∧
    ((∀ p ∈ processes, p.bt < INT_MAX) →
      ∃ fuel out, sjfScheduling fuel processes = some out) := by
  have _ := hart
  constructor
  · intro fuel out h p hp
    unfold sjfScheduling sjfRun at h
    cases hrun : sjfLoop fuel (sjfInit processes) with
    | none => rw [hrun] at h; simp at h
    | some fin =>
      rw [hrun] at h
      simp only [Option.map_some', Option.some.injEq] at h
      subst h
      obtain ⟨⟨hcell, hcount⟩, hdone⟩ :=
        sjfLoop_inv fuel _ fin (sjfInit_inv processes hbt) hrun
      have hlen : fin.processes.countP (fun p => decide (p.rem_bt = 0)) = fin.processes.length :=
        le_antisymm (List.countP_le_length _) (by omega)
      have hz : p.rem_bt = 0 := by
        have := List.countP_eq_length.1 hlen p hp
        simpa using this
      obtain ⟨_, _, _, c4⟩ := hcell p hp
      obtain ⟨e1, e2, e3⟩ := c4 hz
      exact ⟨hz, e2, e1, e3⟩
  · intro hmax
    obtain ⟨fin, hfin⟩ := sjfLoop_terminates (latestArrival processes)
      (sjfMeasure (latestArrival processes) (sjfInit processes)) (sjfInit processes)
      (sjfInit_inv processes hbt) (sjfInit_bound processes hmax) (le_refl _)
    exact ⟨_, fin.processes, by unfold sjfScheduling sjfRun; rw [hfin]; rfl⟩

/-- C5 (the code at the failing input): in the entry state of the single process with
burst `INT_MAX` arriving at time 0, the record has arrived and is unfinished, yet the
iteration selects nothing: no `rem_bt` changes and only the clock moves. -/
theorem sjfStep_skips_max_burst :
    (sjfInit [maxBurstProcess]).processes =
      [{ maxBurstProcess with rem_bt := 2147483647 }] ∧
    (∀ p ∈ (sjfInit [maxBurstProcess]).processes,
      p.art ≤ (sjfInit [maxBurstProcess]).current_time ∧ 0 < p.rem_bt) ∧
    sjfShortest (sjfInit [maxBurstProcess]) = none ∧
    sjfStep (sjfInit [maxBurstProcess]) =
      { processes := [{ maxBurstProcess with rem_bt := 2147483647 }],
        current_time := 1, completed := 0 } := by
  refine ⟨by decide, by decide, by decide, by decide⟩

/-- C8 (the code at the failing input): on the single process with burst `INT_MAX`
arriving at time 0, the loop of `sjfScheduling` never exits, whatever the bound on its
iterations, so no `WT` or `TAT` is produced. -/
theorem sjfScheduling_max_burst_diverges :
    ∀ fuel, sjfScheduling fuel [maxBurstProcess] = none := by
  intro fuel
  unfold sjfScheduling sjfRun
  have h : sjfInit [maxBurstProcess] =
      { processes := [{ maxBurstProcess with rem_bt := 2147483647 }],
        current_time := 0, completed := 0 } := by decide
  rw [h, sjfLoop_max_burst_stuck fuel 0]
  rfl

/-! ## Lemmas: frame -/

theorem mem_set_or_eq_of_mem {α : Type} (l : List α) (k : Nat) (q x p : α)
    (hk : l[k]? = some q) (hp : p ∈ l) : p ∈ l.set k x ∨ p = q := by
  induction l generalizing k with
  | nil => simp at hp
  | cons c rest ih =>
    cases k with
    | zero =>
      simp only [List.getElem?_cons_zero, Option.some.injEq] at hk
      subst hk
      rcases List.mem_cons.1 hp with rfl | hp
      · exact Or.inr rfl
      · exact Or.inl (by simp [hp])
    | succ j =>
      rw [List.getElem?_cons_succ] at hk
      rcases List.mem_cons.1 hp with rfl | hp
      · exact Or.inl (by simp)
      · rcases ih j hk hp with h | h
        · exact Or.inl (by simp [h])
        · exact Or.inr h

theorem map_set_of_getElem? {α β : Type} (f : α → β) (l : List α) (k : Nat) (p x : α)
    (hk : l[k]? = some p) (hx : f x = f p) : (l.set k x).map f = l.map f := by
  induction l generalizing k with
  | nil => simp at hk
  | cons c rest ih =>
    cases k with
    | zero =>
      simp only [List.getElem?_cons_zero, Option.some.injEq] at hk
      subst hk
      simp [hx]
    | succ j =>
      rw [List.getElem?_cons_succ] at hk
      simp [ih j hk]

theorem sjfStep_identity (s : SjfState) :
    (sjfStep s).processes.map identityFields = s.processes.map identityFields := by
  cases hs : sjfShortest s with
  | none => rw [sjfStep_idle s hs]
  | some k =>
    obtain ⟨p, hp, _⟩ := sjfShortest_some s k hs
    rw [sjfStep_run s k p hs hp]
    by_cases hz : p.rem_bt - 1 = 0
    · rw [if_pos hz]
      exact map_set_of_getElem? identityFields _ k p _ hp rfl
    · rw [if_neg hz]
      exact map_set_of_getElem? identityFields _ k p _ hp rfl

theorem sjfLoop_identity :
    ∀ (fuel : Nat) (s out : SjfState), sjfLoop fuel s = some out →
      out.processes.map identityFields = s.processes.map identityFields := by
  intro fuel
  induction fuel with
  | zero =>
    intro s out h
    rw [sjfLoop] at h
    by_cases hlt : s.completed < s.processes.length
    · simp [hlt] at h
    · simp only [hlt, if_false, Option.some.injEq] at h
      rw [← h]
  | succ n ih =>
    intro s out h
    rw [sjfLoop] at h
    by_cases hlt : s.completed < s.processes.length
    · rw [if_pos hlt] at h
      rw [ih _ out h, sjfStep_identity]
    · simp only [hlt, if_false, Option.some.injEq] at h
      rw [← h]

theorem sjfInit_identity (processes : List ProcessType) :
    (sjfInit processes).processes.map identityFields = processes.map identityFields := by
  simp only [sjfInit, List.map_map]
  rfl

theorem rrScan_frame (quantum : Int) (cells : List (ProcessType × Int)) :
    ∀ (ct : Int) (done : Bool),
      (rrScan quantum cells ct done).1.map (fun c => clearResults c.1) =
        cells.map (fun c => clearResults c.1) := by
  induction cells with
  | nil => intro ct done; rfl
  | cons c rest ih =>
    obtain ⟨p, r⟩ := c
    intro ct done
    rw [rrScan_cons]
    by_cases hr : r > 0
    · by_cases hq : r > quantum
      · simp only [hr, hq, if_true, List.map_cons, ih]
      · simp only [hr, hq, if_true, if_false, List.map_cons, ih]
        rfl
    · simp only [hr, if_false, List.map_cons, ih]

theorem rrLoop_frame (quantum : Int) :
    ∀ (fuel : Nat) (cells : List (ProcessType × Int)) (ct : Int)
      (out : List (ProcessType × Int) × Int), rrLoop quantum fuel cells ct = some out →
      out.1.map (fun c => clearResults c.1) = cells.map (fun c => clearResults c.1) := by
  intro fuel
  induction fuel with
  | zero => intro cells ct out h; simp [rrLoop] at h
  | succ n ih =>
    intro cells ct out h
    rw [rrLoop] at h
    by_cases hd : (rrScan quantum cells ct true).2.2 = true
    · simp only [hd, if_true, Option.some.injEq] at h
      rw [← h]
      exact rrScan_frame quantum cells ct true
    · simp only [hd] at h
      rw [ih _ _ out h]
      exact rrScan_frame quantum cells ct true

/-! ## Theorems: termination of the SRTF loop -/

/-- Below `INT_MAX` the loop of `sjfScheduling` exits, and it exits with every process
completed. -/
theorem sjfRun_terminates_below_max (processes : List ProcessType)
    (hbt : ∀ p ∈ processes, 0 < p.bt) (hmax : ∀ p ∈ processes, p.bt < INT_MAX) :
    ∃ fuel out, sjfRun fuel processes = some out ∧
      out.completed = out.processes.length ∧ out.processes.length = processes.length ∧
      ∀ p ∈ out.processes, p.rem_bt = 0 := by
  obtain ⟨fin, hfin⟩ := sjfLoop_terminates (latestArrival processes)
    (sjfMeasure (latestArrival processes) (sjfInit processes)) (sjfInit processes)
    (sjfInit_inv processes hbt) (sjfInit_bound processes hmax) (le_refl _)
  obtain ⟨⟨hcell, hcount⟩, hdone⟩ :=
    sjfLoop_inv _ _ fin (sjfInit_inv processes hbt) hfin
  have hle : fin.processes.countP (fun p => decide (p.rem_bt = 0)) ≤ fin.processes.length :=
    List.countP_le_length _
  have hlen : fin.processes.countP (fun p => decide (p.rem_bt = 0)) = fin.processes.length :=
    le_antisymm hle (by omega)
  refine ⟨_, fin, hfin, by omega, ?_, ?_⟩
  · have h1 := congrArg List.length (sjfLoop_identity _ _ fin hfin)
    have h2 := congrArg List.length (sjfInit_identity processes)
    simp only [List.length_map] at h1 h2
    omega
  · intro p hp
    have := List.countP_eq_length.1 hlen p hp
    simpa using this

/-- C11 (the code at the failing input): the workload of one process with burst `INT_MAX`
has every burst time positive, yet the `while` loop of `sjfScheduling` does not exit
within any number of iterations. -/
theorem sjfRun_max_burst_never_exits :
    (∀ p ∈ [maxBurstProcess], 0 < p.bt) ∧ ∀ fuel, sjfRun fuel [maxBurstProcess] = none := by
  refine ⟨by decide, fun fuel => ?_⟩
  unfold sjfRun
  have h : sjfInit [maxBurstProcess] =
      { processes := [{ maxBurstProcess with rem_bt := 2147483647 }],
        current_time := 0, completed := 0 } := by decide
  rw [h, sjfLoop_max_burst_stuck fuel 0]

/-! ## Theorems: the comparator -/

/-- C20 (the code at the failing input): for priorities `INT_MIN` and 1, both `int`
values, with arrival time 0, the first key is the smaller one but the subtraction wraps
and `comparePriority` returns `INT_MAX`, a positive value. -/
theorem comparePriority_wraps :
    lowestPriorityRecord.pri < priorityOneRecord.pri ∧
    (INT_MIN ≤ lowestPriorityRecord.pri ∧ priorityOneRecord.pri ≤ INT_MAX) ∧
    (0 ≤ lowestPriorityRecord.art ∧ 0 ≤ priorityOneRecord.art) ∧
    comparePriority lowestPriorityRecord priorityOneRecord = 2147483647 ∧
    comparePriority priorityOneRecord lowestPriorityRecord = -2147483647 := by
  decide

/-- When the priorities differ by less than `2^31` and the arrival times are non-negative
`int` values, the sign of `comparePriority` is that of the lexicographic comparison of
`(priority, arrival_time)`. -/
theorem comparePriority_sign (a b : ProcessType)
    (hp : INT_MIN ≤ a.pri - b.pri ∧ a.pri - b.pri ≤ INT_MAX)
    (ha : 0 ≤ a.art ∧ a.art ≤ INT_MAX) (hb : 0 ≤ b.art ∧ b.art ≤ INT_MAX) :
    (comparePriority a b < 0 ↔ (a.pri < b.pri ∨ (a.pri = b.pri ∧ a.art < b.art))) ∧
    (comparePriority a b = 0 ↔ (a.pri = b.pri ∧ a.art = b.art)) ∧
    (0 < comparePriority a b ↔ (b.pri < a.pri ∨ (a.pri = b.pri ∧ b.art < a.art))) := by
  have hr : INT_MIN ≤ a.art - b.art ∧ a.art - b.art ≤ INT_MAX := by
    unfold INT_MIN INT_MAX at *
    omega
  have e1 := wrap32_of_inRange hr.1 hr.2
  have e2 := wrap32_of_inRange hp.1 hp.2
  unfold comparePriority
  by_cases h : a.pri = b.pri
  · simp only [h, ne_eq, not_true_eq_false, if_false, lt_self_iff_false, true_and, false_or]
    rw [e1]
    omega
  · simp only [ne_eq, h, not_false_eq_true, if_true, false_and, or_false]
    rw [e2]
    exact ⟨by omega, ⟨fun h0 => h (by omega), False.elim⟩, by omega⟩

/-! ## Theorems: frame and empty workload -/

/-- C15: on the empty workload `priorityScheduling` (for a `qsort` that permutes),
`sjfScheduling` (whatever the bound on iterations) and `roundRobinScheduling` (any
quantum, after its one scan) return the empty sequence: no `WT` or `TAT` is written and
there is no failure. -/
theorem schedulers_empty_workload :
    (∀ qsort : (ProcessType → ProcessType → Int) → List ProcessType → List ProcessType,
      (qsort comparePriority []).Perm [] → priorityScheduling qsort [] = []) ∧
    (∀ fuel, sjfScheduling fuel [] = some []) ∧
    (∀ fuel quantum, roundRobinScheduling (fuel + 1) [] quantum = some []) := by
  refine ⟨?_, ?_, ?_⟩
  · intro qsort h
    unfold priorityScheduling
    rw [List.perm_nil.1 h]
    rfl
  · intro fuel
    cases fuel with
    | zero => rfl
    | succ n => rfl
  · intro fuel quantum
    rfl

/-- Witness for C15: the insertion sort on the empty workload. -/
theorem schedulers_empty_workload_witness :
    (insertionQsort comparePriority []).Perm [] ∧ priorityScheduling insertionQsort [] = [] :=
  ⟨by decide, schedulers_empty_workload.1 insertionQsort (by decide)⟩

/-! ## Lemmas: invalid configurations -/

theorem SjfStuck_lt (s : SjfState) (h : SjfStuck s) : s.completed < s.processes.length := by
  obtain ⟨_, ⟨w, hw, hwbt⟩, hcount⟩ := h
  have hle := List.countP_le_length (fun p : ProcessType => decide (0 < p.bt ∧ p.rem_bt = 0))
    (l := s.processes)
  have hne : s.processes.countP (fun p => decide (0 < p.bt ∧ p.rem_bt = 0)) ≠
      s.processes.length := by
    intro e
    have := List.countP_eq_length.1 e w hw
    simp only [decide_eq_true_eq] at this
    omega
  omega

theorem sjfInit_stuck (processes : List ProcessType) (h : ∃ p ∈ processes, p.bt ≤ 0) :
    SjfStuck (sjfInit processes) := by
  obtain ⟨w, hw, hwbt⟩ := h
  refine ⟨?_, ⟨{ w with rem_bt := w.bt }, List.mem_map.2 ⟨w, hw, rfl⟩, hwbt⟩, ?_⟩
  · intro q hq
    obtain ⟨p, _, rfl⟩ := List.mem_map.1 hq
    exact le_refl _
  · simp only [sjfInit]
    symm
    rw [List.countP_eq_zero]
    intro q hq
    obtain ⟨p, _, rfl⟩ := List.mem_map.1 hq
    simp only [decide_eq_true_eq]
    omega

/-! ## Lemmas: independence of stale fields -/

theorem orderedInsert_map_key {β : Type} (key : ProcessType → β)
    (cmp : ProcessType → ProcessType → Int)
    (hcmp : ∀ a a' b b', key a = key a' → key b = key b' → cmp a b = cmp a' b')
    (a a' : ProcessType) (ha : key a = key a') :
    ∀ l1 l2 : List ProcessType, l1.map key = l2.map key →
      (l1.orderedInsert (fun x y => cmp x y ≤ 0) a).map key =
        (l2.orderedInsert (fun x y => cmp x y ≤ 0) a').map key := by
  intro l1
  induction l1 with
  | nil =>
    intro l2 h
    cases l2 with
    | nil => simp [ha]
    | cons b' t2 => simp at h
  | cons b t1 ih =>
    intro l2 h
    cases l2 with
    | nil => simp at h
    | cons b' t2 =>
      simp only [List.map_cons, List.cons.injEq] at h
      have hc : cmp a b = cmp a' b' := hcmp a a' b b' ha h.1
      by_cases hle : cmp a b ≤ 0
      · have hle' : cmp a' b' ≤ 0 := by rw [← hc]; exact hle
        simp [List.orderedInsert, hle, hle', ha, h.1, h.2]
      · have hle' : ¬ cmp a' b' ≤ 0 := by rw [← hc]; exact hle
        simp only [List.orderedInsert, hle, hle', if_false, List.map_cons, h.1, ih t2 h.2]

theorem insertionSort_map_key {β : Type} (key : ProcessType → β)
    (cmp : ProcessType → ProcessType → Int)
    (hcmp : ∀ a a' b b', key a = key a' → key b = key b' → cmp a b = cmp a' b') :
    ∀ l1 l2 : List ProcessType, l1.map key = l2.map key →
      (l1.insertionSort (fun x y => cmp x y ≤ 0)).map key =
        (l2.insertionSort (fun x y => cmp x y ≤ 0)).map key := by
  intro l1
  induction l1 with
  | nil =>
    intro l2 h
    cases l2 with
    | nil => rfl
    | cons b' t2 => simp at h
  | cons b t1 ih =>
    intro l2 h
    cases l2 with
    | nil => simp at h
    | cons b' t2 =>
      simp only [List.map_cons, List.cons.injEq] at h
      simp only [List.insertionSort]
      exact orderedInsert_map_key key cmp hcmp b b' h.1 _ _ (ih t2 h.2)

/-- The reversed insertion sort looks at the records only through the comparator. -/
theorem reverseQsort_oblivious : QsortOblivious reverseQsort := by
  intro β key cmp l1 l2 hcmp h
  refine insertionSort_map_key key cmp hcmp l1.reverse l2.reverse ?_
  rw [List.map_reverse, List.map_reverse, h]

theorem lt_length_of_getElem? {α : Type} {l : List α} {k : Nat} {a : α} (h : l[k]? = some a) :
    k < l.length := by
  by_contra hk
  rw [List.getElem?_eq_none (by omega)] at h
  exact absurd h (by simp)

theorem SjfInv_all_done (s : SjfState) (h : SjfInv s)
    (hdone : ¬ s.completed < s.processes.length) : ∀ p ∈ s.processes, p.rem_bt = 0 := by
  have hle := List.countP_le_length (fun p : ProcessType => decide (p.rem_bt = 0))
    (l := s.processes)
  have hlen : s.processes.countP (fun p => decide (p.rem_bt = 0)) = s.processes.length :=
    le_antisymm hle (by rw [← h.2]; omega)
  intro p hp
  have := List.countP_eq_length.1 hlen p hp
  simpa using this

/-! ## Lemmas: the clock of the SRTF loop -/

theorem int_sum_map_set_of_getElem? {α : Type} (f : α → Int) (l : List α) (k : Nat) (a b : α)
    (h : l[k]? = some a) :
    ((l.set k b).map f).sum + f a = (l.map f).sum + f b := by
  induction l generalizing k with
  | nil => simp at h
  | cons c rest ih =>
    cases k with
    | zero =>
      simp only [List.getElem?_cons_zero, Option.some.injEq] at h
      subst h
      simp only [List.set_cons_zero, List.map_cons, List.sum_cons]
      omega
    | succ j =>
      rw [List.getElem?_cons_succ] at h
      have := ih j h
      simp only [List.set_cons_succ, List.map_cons, List.sum_cons]
      omega

/-- In a run that returns, every remaining burst is below `INT_MAX` throughout. -/
theorem sjfLoop_returns_bound :
    ∀ (fuel : Nat) (s out : SjfState), SjfInv s → sjfLoop fuel s = some out →
      ∀ p ∈ s.processes, p.rem_bt < INT_MAX := by
  intro fuel
  induction fuel with
  | zero =>
    intro s out hinv hrun p hp
    rw [sjfLoop] at hrun
    by_cases hlt : s.completed < s.processes.length
    · simp [hlt] at hrun
    · rw [SjfInv_all_done s hinv hlt p hp]
      decide
  | succ n ih =>
    intro s out hinv hrun p hp
    rw [sjfLoop] at hrun
    by_cases hlt : s.completed < s.processes.length
    · rw [if_pos hlt] at hrun
      have hnext := ih _ out (sjfStep_inv s hinv) hrun
      cases hs : sjfShortest s with
      | none =>
        rw [sjfStep_idle s hs] at hnext
        exact hnext p hp
      | some k =>
        obtain ⟨q, hq, _, _, hqmax, _⟩ := sjfShortest_some s k hs
        rw [sjfStep_run s k q hs hq] at hnext
        by_cases hz : q.rem_bt - 1 = 0
        · rw [if_pos hz] at hnext
          rcases mem_set_or_eq_of_mem s.processes k q _ p hq hp with h1 | h1
          · exact hnext p h1
          · rw [h1]; exact hqmax
        · rw [if_neg hz] at hnext
          rcases mem_set_or_eq_of_mem s.processes k q _ p hq hp with h1 | h1
          · exact hnext p h1
          · rw [h1]; exact hqmax
    · rw [SjfInv_all_done s hinv hlt p hp]
      decide

theorem sjfNoneEligible_iff (s : SjfState) :
    sjfNoneEligible s = true ↔
      ∀ p ∈ s.processes, ¬ (p.art ≤ s.current_time ∧ 0 < p.rem_bt) := by
  simp only [sjfNoneEligible, List.all_eq_true, Bool.not_eq_true', decide_eq_false_iff_not]

/-- In a run that returns, the clock at the exit is the clock at the start plus the work
left at the start plus the idle steps made. -/
theorem sjfLoop_clock :
    ∀ (fuel : Nat) (s out : SjfState), SjfInv s → sjfLoop fuel s = some out →
      out.current_time =
        s.current_time + (s.processes.map (fun p => p.rem_bt)).sum + sjfIdleSteps fuel s := by
  intro fuel
  induction fuel with
  | zero =>
    intro s out hinv hrun
    rw [sjfLoop] at hrun
    by_cases hlt : s.completed < s.processes.length
    · simp [hlt] at hrun
    · simp only [hlt, if_false, Option.some.injEq] at hrun
      subst hrun
      have hz : (s.processes.map (fun p => p.rem_bt)).sum = 0 := by
        apply List.sum_eq_zero
        intro x hx
        obtain ⟨p, hp, rfl⟩ := List.mem_map.1 hx
        exact SjfInv_all_done s hinv hlt p hp
      simp [sjfIdleSteps, hz]
  | succ n ih =>
    intro s out hinv hrun
    have hbound := sjfLoop_returns_bound (n + 1) s out hinv hrun
    rw [sjfLoop] at hrun
    rw [sjfIdleSteps]
    by_cases hlt : s.completed < s.processes.length
    · rw [if_pos hlt] at hrun ⊢
      have hnext := ih _ out (sjfStep_inv s hinv) hrun
      cases hs : sjfShortest s with
      | none =>
        have hidle : sjfNoneEligible s = true := by
          rw [sjfNoneEligible_iff]
          intro p hp hel
          exact sjfShortest_none s hs p hp ⟨hel.1, hel.2, hbound p hp⟩
        rw [sjfStep_idle s hs] at hnext
        simp only at hnext
        rw [hnext, hidle, sjfStep_idle s hs]
        simp only [if_true]
        push_cast
        omega
      | some k =>
        obtain ⟨q, hq, hqarr, hqpos, _⟩ := sjfShortest_some s k hs
        have hidle : sjfNoneEligible s = false := by
          cases h : sjfNoneEligible s with
          | false => rfl
          | true =>
            exact absurd ⟨hqarr, hqpos⟩ ((sjfNoneEligible_iff s).1 h q (List.getElem?_mem hq))
        have hstep := sjfStep_run s k q hs hq
        by_cases hz : q.rem_bt - 1 = 0
        · rw [if_pos hz] at hstep
          have hsum := int_sum_map_set_of_getElem? (fun p => p.rem_bt) s.processes k q
            { q with rem_bt := q.rem_bt - 1, tat := s.current_time + 1 - q.art,
                     wt := s.current_time + 1 - q.art - q.bt } hq
          rw [hnext, hidle, hstep]
          simp only [Bool.false_eq_true, if_false, Nat.zero_add] at hsum ⊢
          rw [← hstep]
          omega
        · rw [if_neg hz] at hstep
          have hsum := int_sum_map_set_of_getElem? (fun p => p.rem_bt) s.processes k q
            { q with rem_bt := q.rem_bt - 1 } hq
          rw [hnext, hidle, hstep]
          simp only [Bool.false_eq_true, if_false, Nat.zero_add] at hsum ⊢
          rw [← hstep]
          omega
    · simp only [hlt, if_false, Option.some.injEq] at hrun ⊢
      subst hrun
      have hz : (s.processes.map (fun p => p.rem_bt)).sum = 0 := by
        apply List.sum_eq_zero
        intro x hx
        obtain ⟨p, hp, rfl⟩ := List.mem_map.1 hx
        exact SjfInv_all_done s hinv hlt p hp
      simp [hz]

theorem sjfStep_completedBy (s : SjfState) (h : SjfCompletedBy s) :
    SjfCompletedBy (sjfStep s) := by
  cases hs : sjfShortest s with
  | none =>
    rw [sjfStep_idle s hs]
    intro p hp hz
    have := h p hp hz
    simp only
    omega
  | some k =>
    obtain ⟨q, hq, _⟩ := sjfShortest_some s k hs
    rw [sjfStep_run s k q hs hq]
    by_cases hz : q.rem_bt - 1 = 0
    · rw [if_pos hz]
      intro p hp hp0
      rcases List.mem_or_eq_of_mem_set hp with hp | rfl
      · have := h p hp hp0
        simp only
        omega
      · simp only
        omega
    · rw [if_neg hz]
      intro p hp hp0
      rcases List.mem_or_eq_of_mem_set hp with hp | rfl
      · have := h p hp hp0
        simp only
        omega
      · exact absurd hp0 hz

theorem sjfLoop_completedBy :
    ∀ (fuel : Nat) (s out : SjfState), SjfCompletedBy s → sjfLoop fuel s = some out →
      SjfCompletedBy out := by
  intro fuel
  induction fuel with
  | zero =>
    intro s out h hrun
    rw [sjfLoop] at hrun
    by_cases hlt : s.completed < s.processes.length
    · simp [hlt] at hrun
    · simp only [hlt, if_false, Option.some.injEq] at hrun
      subst hrun
      exact h
  | succ n ih =>
    intro s out h hrun
    rw [sjfLoop] at hrun
    by_cases hlt : s.completed < s.processes.length
    · rw [if_pos hlt] at hrun
      exact ih _ out (sjfStep_completedBy s h) hrun
    · simp only [hlt, if_false, Option.some.injEq] at hrun
      subst hrun
      exact h

theorem sjfLoop_of_done (fuel : Nat) (s : SjfState)
    (h : ¬ s.completed < s.processes.length) : sjfLoop fuel s = some s := by
  cases fuel with
  | zero => rw [sjfLoop, if_neg h]
  | succ n => rw [sjfLoop, if_neg h]

/-- The iteration that makes `completed` reach `n` writes a record whose completion time
is the clock it leaves. -/
theorem sjfStep_last_completion (s : SjfState) (hlt : s.completed < s.processes.length)
    (hdone : ¬ (sjfStep s).completed < (sjfStep s).processes.length) :
    ∃ p ∈ (sjfStep s).processes, p.art + p.tat = (sjfStep s).current_time := by
  cases hs : sjfShortest s with
  | none =>
    rw [sjfStep_idle s hs] at hdone
    exact absurd hlt hdone
  | some k =>
    obtain ⟨q, hq, _⟩ := sjfShortest_some s k hs
    have hstep := sjfStep_run s k q hs hq
    by_cases hz : q.rem_bt - 1 = 0
    · rw [if_pos hz] at hstep
      rw [hstep]
      refine ⟨_, List.getElem?_mem (List.getElem?_set_eq_of_lt _ (lt_length_of_getElem? hq)), ?_⟩
      simp only
      omega
    · rw [if_neg hz] at hstep
      rw [hstep] at hdone
      simp only [List.length_set] at hdone
      exact absurd hlt hdone

theorem sjfLoop_last_completion :
    ∀ (fuel : Nat) (s out : SjfState), s.completed < s.processes.length →
      sjfLoop fuel s = some out →
      ∃ p ∈ out.processes, p.art + p.tat = out.current_time := by
  intro fuel
  induction fuel with
  | zero =>
    intro s out hlt hrun
    rw [sjfLoop, if_pos hlt] at hrun
    exact absurd hrun (by simp)
  | succ n ih =>
    intro s out hlt hrun
    rw [sjfLoop, if_pos hlt] at hrun
    by_cases hnext : (sjfStep s).completed < (sjfStep s).processes.length
    · exact ih _ out hnext hrun
    · rw [sjfLoop_of_done n _ hnext] at hrun
      simp only [Option.some.injEq] at hrun
      subst hrun
      exact sjfStep_last_completion s hlt hnext

/-! ## Lemmas: elapsed time of the SRTF loop in exact arithmetic -/

/-- In exact arithmetic: for every non-empty valid workload, the clock at which
`sjfScheduling` stops is the largest completion time `arrival_time + TAT` over all processes (some process has
it, none exceeds it), and it is the sum of all burst times plus the number of idle steps
(iterations at which no record was arrived and unfinished); the loop does stop when every
burst time is below `INT_MAX`. -/
theorem sjf_elapsed_time_exact (processes : List ProcessType) (hne : processes ≠ [])
    (hbt : ∀ p ∈ processes, 0 < p.bt) (hart : ∀ p ∈ processes, 0 ≤ p.art) :
    (∀ fuel out, sjfRun fuel processes = some out →
      (∃ p ∈ out.processes, p.art + p.tat = out.current_time) ∧
      (∀ p ∈ out.processes, p.art + p.tat ≤ out.current_time) ∧
      out.current_time =
        (processes.map (fun p => p.bt)).sum + sjfIdleSteps fuel (sjfInit processes)) ∧
    ((∀ p ∈ processes, p.bt < INT_MAX) → ∃ fuel out, sjfRun fuel processes = some out) := by
  have _ := hart
  constructor
  · intro fuel out hrun
    unfold sjfRun at hrun
    have hinv := sjfInit_inv processes hbt
    refine ⟨?_, ?_, ?_⟩
    · refine sjfLoop_last_completion fuel _ out ?_ hrun
      simp only [sjfInit, List.length_map]
      exact List.length_pos.2 hne
    · have hinit : SjfCompletedBy (sjfInit processes) := by
        intro p hp hz
        have := (hinv.1 p hp)
        obtain ⟨q, hq, rfl⟩ := List.mem_map.1 hp
        have := hbt q hq
        simp only at hz
        omega
      have hout := sjfLoop_completedBy fuel _ out hinit hrun
      obtain ⟨hinv', hdone⟩ := sjfLoop_inv fuel _ out hinv hrun
      intro p hp
      exact hout p hp (SjfInv_all_done out hinv' hdone p hp)
    · have := sjfLoop_clock fuel _ out hinv hrun
      rw [this]
      simp [sjfInit, Function.comp_def]
  · intro hmax
    obtain ⟨fuel, out, hrun, _⟩ := sjfRun_terminates_below_max processes hbt hmax
    exact ⟨fuel, out, hrun⟩

/-! ## Lemmas: the number of round-robin scans -/

theorem rrScan_rems (quantum : Int) (cells : List (ProcessType × Int)) :
    ∀ (ct : Int) (done : Bool),
      (rrScan quantum cells ct done).1.map Prod.snd =
        (cells.map Prod.snd).map (scanRem quantum) := by
  induction cells with
  | nil => intro ct done; rfl
  | cons c rest ih =>
    obtain ⟨p, r⟩ := c
    intro ct done
    rw [rrScan_cons]
    by_cases hr : r > 0
    · by_cases hq : r > quantum
      · simp only [hr, hq, if_true, List.map_cons, ih, scanRem]
      · simp only [hr, hq, if_true, if_false, List.map_cons, ih, scanRem]
    · simp only [hr, if_false, List.map_cons, ih, scanRem]

theorem rrScan_done_eq (quantum : Int) (cells : List (ProcessType × Int)) :
    ∀ (ct : Int) (done : Bool),
      (rrScan quantum cells ct done).2.2 = (done && cells.all (fun c => decide (c.2 ≤ 0))) := by
  induction cells with
  | nil => intro ct done; simp [rrScan]
  | cons c rest ih =>
    obtain ⟨p, r⟩ := c
    intro ct done
    rw [rrScan_cons]
    by_cases hr : r > 0
    · have hn : ¬ r ≤ 0 := by omega
      by_cases hq : r > quantum
      · simp [hr, hq, ih, hn]
      · simp [hr, hq, ih, hn]
    · have hn : r ≤ 0 := by omega
      simp [hr, ih, hn]

theorem ceilDiv_nonpos (quantum : Int) (hQ : 1 ≤ quantum) : ceilDiv 0 quantum = 0 := by
  unfold ceilDiv
  exact Int.ediv_eq_zero_of_lt (by omega) (by omega)

theorem ceilDiv_succ (quantum : Int) (hQ : 1 ≤ quantum) (r : Int) :
    ceilDiv (r + quantum) quantum = ceilDiv r quantum + 1 := by
  unfold ceilDiv
  have h : r + quantum + quantum - 1 = (r + quantum - 1) + 1 * quantum := by ring
  rw [h, Int.add_mul_ediv_right _ _ (by omega)]

theorem ceilDiv_pos (quantum : Int) (hQ : 1 ≤ quantum) (r : Int) (hr : 0 < r) :
    1 ≤ ceilDiv r quantum := by
  have h := ceilDiv_succ quantum hQ (r - quantum)
  rw [show r - quantum + quantum = r by ring] at h
  rw [h]
  unfold ceilDiv
  have : 0 ≤ (r - quantum + quantum - 1) / quantum := Int.ediv_nonneg (by omega) (by omega)
  omega

theorem scansFor_scanRem (quantum : Int) (hQ : 1 ≤ quantum) (r : Int) :
    scansFor quantum (scanRem quantum r) = scansFor quantum r - 1 := by
  unfold scansFor scanRem
  by_cases hr : r > 0
  · by_cases hq : r > quantum
    · simp only [hr, hq, if_true]
      rw [max_eq_left (by omega : (0 : Int) ≤ r - quantum), max_eq_left (by omega : (0 : Int) ≤ r)]
      have h := ceilDiv_succ quantum hQ (r - quantum)
      rw [show r - quantum + quantum = r by ring] at h
      have := ceilDiv_pos quantum hQ (r - quantum) (by omega)
      omega
    · simp only [hr, hq, if_true, if_false]
      rw [max_eq_left (by omega : (0 : Int) ≤ r), max_self, ceilDiv_nonpos quantum hQ]
      have h := ceilDiv_succ quantum hQ (r - quantum)
      rw [show r - quantum + quantum = r by ring] at h
      have h0 : ceilDiv (r - quantum) quantum = 0 := by
        unfold ceilDiv
        exact Int.ediv_eq_zero_of_lt (by omega) (by omega)
      omega
  · simp only [hr, if_false]
    rw [max_eq_right (by omega : r ≤ 0), ceilDiv_nonpos quantum hQ]
    rfl

theorem scansFor_pos (quantum : Int) (hQ : 1 ≤ quantum) (r : Int) (hr : 0 < r) :
    1 ≤ scansFor quantum r := by
  unfold scansFor
  rw [max_eq_left (by omega : (0 : Int) ≤ r)]
  have := ceilDiv_pos quantum hQ r hr
  omega

theorem scansFor_nonpos (quantum : Int) (hQ : 1 ≤ quantum) (r : Int) (hr : r ≤ 0) :
    scansFor quantum r = 0 := by
  unfold scansFor
  rw [max_eq_right hr, ceilDiv_nonpos quantum hQ]
  rfl

theorem foldr_max_pred (l : List Nat) :
    (l.map (fun n => n - 1)).foldr max 0 = l.foldr max 0 - 1 := by
  induction l with
  | nil => rfl
  | cons a rest ih =>
    simp only [List.map_cons, List.foldr_cons, ih]
    omega

theorem le_foldr_max (l : List Nat) (a : Nat) (h : a ∈ l) : a ≤ l.foldr max 0 := by
  induction l with
  | nil => simp at h
  | cons b rest ih =>
    simp only [List.foldr_cons]
    rcases List.mem_cons.1 h with rfl | h
    · exact le_max_left _ _
    · exact le_trans (ih h) (le_max_right _ _)

theorem scansNeeded_scanRem (quantum : Int) (hQ : 1 ≤ quantum) (rems : List Int) :
    scansNeeded quantum (rems.map (scanRem quantum)) = scansNeeded quantum rems - 1 := by
  unfold scansNeeded
  rw [← foldr_max_pred, List.map_map, List.map_map]
  congr 1
  apply List.map_congr_left
  intro r _
  exact scansFor_scanRem quantum hQ r

theorem scansNeeded_zero (quantum : Int) (hQ : 1 ≤ quantum) (rems : List Int)
    (h : ∀ r ∈ rems, r ≤ 0) : scansNeeded quantum rems = 0 := by
  unfold scansNeeded
  induction rems with
  | nil => rfl
  | cons a rest ih =>
    simp only [List.map_cons, List.foldr_cons,
      scansFor_nonpos quantum hQ a (h a (List.mem_cons_self _ _)),
      ih (fun r hr => h r (List.mem_cons_of_mem _ hr))]
    rfl

theorem scansNeeded_pos (quantum : Int) (hQ : 1 ≤ quantum) (rems : List Int)
    (h : ∃ r ∈ rems, 0 < r) : 1 ≤ scansNeeded quantum rems := by
  obtain ⟨r, hr, hpos⟩ := h
  exact le_trans (scansFor_pos quantum hQ r hpos)
    (le_foldr_max _ _ (List.mem_map.2 ⟨r, hr, rfl⟩))

/-- The loop is still running after `fuel` scans exactly when `fuel` is at most the
number of scans needed. -/
theorem rrLoop_none_iff (quantum : Int) (hQ : 1 ≤ quantum) :
    ∀ (fuel : Nat) (cells : List (ProcessType × Int)) (ct : Int),
      rrLoop quantum fuel cells ct = none ↔
        fuel ≤ scansNeeded quantum (cells.map Prod.snd) := by
  intro fuel
  induction fuel with
  | zero => intro cells ct; simp [rrLoop]
  | succ n ih =>
    intro cells ct
    rw [rrLoop]
    have hdone := rrScan_done_eq quantum cells ct true
    by_cases hall : cells.all (fun c => decide (c.2 ≤ 0)) = true
    · rw [hall] at hdone
      simp only [Bool.and_self] at hdone
      have hz : scansNeeded quantum (cells.map Prod.snd) = 0 := by
        apply scansNeeded_zero quantum hQ
        intro r hr
        obtain ⟨c, hc, rfl⟩ := List.mem_map.1 hr
        have := List.all_eq_true.1 hall c hc
        simpa using this
      simp [hdone, hz]
    · have hd : (rrScan quantum cells ct true).2.2 = false := by
        rw [hdone]
        simpa using hall
      have hex : ∃ r ∈ cells.map Prod.snd, 0 < r := by
        by_contra hno
        apply hall
        rw [List.all_eq_true]
        intro c hc
        have : ¬ 0 < c.2 := fun hpos => hno ⟨c.2, List.mem_map.2 ⟨c, hc, rfl⟩, hpos⟩
        simp only [decide_eq_true_eq]
        omega
      have hpos := scansNeeded_pos quantum hQ _ hex
      simp only [hd, Bool.false_eq_true, if_false]
      rw [ih, rrScan_rems, scansNeeded_scanRem quantum hQ]
      omega

theorem rrLoop_some_done (quantum : Int) :
    ∀ (fuel : Nat) (cells : List (ProcessType × Int)) (ct : Int)
      (out : List (ProcessType × Int) × Int), rrLoop quantum fuel cells ct = some out →
      ∀ c ∈ out.1, c.2 ≤ 0 := by
  intro fuel
  induction fuel with
  | zero => intro cells ct out h; simp [rrLoop] at h
  | succ n ih =>
    intro cells ct out h
    rw [rrLoop] at h
    by_cases hd : (rrScan quantum cells ct true).2.2 = true
    · simp only [hd, if_true, Option.some.injEq] at h
      obtain ⟨d1, d2, _, _⟩ := rrScan_done quantum cells ct true hd
      rw [← h]
      simp only
      rw [d2]
      exact d1
    · simp only [hd] at h
      exact ih _ _ out h

/-! ## Theorems: termination of round robin -/

/-- C19: for every workload and every quantum at least 1, `roundRobinScheduling`
terminates.  A scan finds a record with positive remaining burst exactly when it leaves
`done = 0`, and then it lowers the total remaining burst; the loop is still running after
`max_i ceil(max(BT_i, 0) / Q)` scans and exits in the next one, in which no record has a
positive remaining burst. -/
theorem roundRobin_scan_count (processes : List ProcessType) (quantum : Int)
    (hQ : 1 ≤ quantum) :
    (∀ (cells : List (ProcessType × Int)) (ct : Int),
      ((rrScan quantum cells ct true).2.2 = false ↔ ∃ c ∈ cells, 0 < c.2) ∧
      ((rrScan quantum cells ct true).2.2 = false →
        rrRemaining (rrScan quantum cells ct true).1 < rrRemaining cells)) ∧
    (∀ fuel, fuel ≤ scansNeeded quantum (processes.map (fun p => p.bt)) →
      rrRun fuel processes quantum = none) ∧
    (∀ fuel, scansNeeded quantum (processes.map (fun p => p.bt)) + 1 ≤ fuel →
      ∃ out, rrRun fuel processes quantum = some out ∧ ∀ c ∈ out.1, c.2 ≤ 0) := by
  have hmap : (rrInit processes).map Prod.snd = processes.map (fun p => p.bt) := by
    simp [rrInit, Function.comp_def]
  refine ⟨?_, ?_, ?_⟩
  · intro cells ct
    refine ⟨?_, fun h => (rrScan_remaining quantum hQ cells ct true).2 h rfl⟩
    rw [rrScan_done_eq]
    simp only [Bool.true_and]
    constructor
    · intro h
      by_contra hno
      have hall : cells.all (fun c => decide (c.2 ≤ 0)) = true := by
        rw [List.all_eq_true]
        intro c hc
        have : ¬ 0 < c.2 := fun hpos => hno ⟨c, hc, hpos⟩
        simp only [decide_eq_true_eq]
        omega
      rw [hall] at h
      exact absurd h (by simp)
    · intro h
      obtain ⟨c, hc, hpos⟩ := h
      cases hall : cells.all (fun c => decide (c.2 ≤ 0)) with
      | false => rfl
      | true =>
        have := List.all_eq_true.1 hall c hc
        simp only [decide_eq_true_eq] at this
        omega
  · intro fuel h
    unfold rrRun
    rw [rrLoop_none_iff quantum hQ, hmap]
    exact h
  · intro fuel h
    unfold rrRun
    cases hrun : rrLoop quantum fuel (rrInit processes) 0 with
    | none =>
      rw [rrLoop_none_iff quantum hQ, hmap] at hrun
      omega
    | some out => exact ⟨out, rfl, rrLoop_some_done quantum fuel _ 0 out hrun⟩

/-- Witness for C19: the workload of `main` with quantum 2 needs `5 + 1` scans. -/
theorem roundRobin_scan_count_witness :
    (1 : Int) ≤ 2 ∧ scansNeeded 2 (referenceWorkload.map (fun p => p.bt)) = 5 ∧
    rrRun 5 referenceWorkload 2 = none ∧
    ∃ out, rrRun 6 referenceWorkload 2 = some out ∧ ∀ c ∈ out.1, c.2 ≤ 0 :=
  ⟨by decide, by decide,
    (roundRobin_scan_count referenceWorkload 2 (by decide)).2.1 5 (by decide),
    (roundRobin_scan_count referenceWorkload 2 (by decide)).2.2 6 (by decide)⟩

/-! ## Lemmas: the completion times of round robin -/

theorem capSum_nil (c : Int) : capSum [] c = 0 := rfl

theorem capSum_cons (p : ProcessType) (l : List ProcessType) (c : Int) :
    capSum (p :: l) c = min p.bt c + capSum l c := by
  simp [capSum]

theorem capSum_append (l1 l2 : List ProcessType) (c : Int) :
    capSum (l1 ++ l2) c = capSum l1 c + capSum l2 c := by
  simp [capSum]

theorem capSum_eq_sum (l : List ProcessType) (c : Int) (h : ∀ p ∈ l, p.bt ≤ c) :
    capSum l c = (l.map (fun p => p.bt)).sum := by
  induction l with
  | nil => rfl
  | cons a rest ih =>
    rw [capSum_cons, ih (fun p hp => h p (List.mem_cons_of_mem _ hp)),
      min_eq_left (h a (List.mem_cons_self _ _))]
    simp

theorem capSum_le_sum (l : List ProcessType) (c : Int) :
    capSum l c ≤ (l.map (fun p => p.bt)).sum := by
  induction l with
  | nil => exact le_refl _
  | cons a rest ih =>
    rw [capSum_cons]
    simp only [List.map_cons, List.sum_cons]
    have := min_le_left a.bt c
    omega

theorem ceilDiv_eq (quantum : Int) (hQ : 1 ≤ quantum) (m : Nat) (b : Int)
    (h1 : (m : Int) * quantum < b) (h2 : b ≤ (m : Int) * quantum + quantum) :
    ceilDiv b quantum = m + 1 := by
  unfold ceilDiv
  have h : b + quantum - 1 = (b - 1 - m * quantum) + (m + 1) * quantum := by ring
  rw [h, Int.add_mul_ediv_right _ _ (by omega),
    Int.ediv_eq_zero_of_lt (by omega) (by omega)]
  omega

theorem rrAfter_cons (quantum : Int) (m : Nat) (before : List ProcessType) (p : ProcessType)
    (after : List ProcessType) :
    rrAfter quantum m before (p :: after) =
      (if p.bt ≤ m * quantum then (rrFinished quantum before p after, 0)
        else (p, p.bt - m * quantum)) :: rrAfter quantum m (before ++ [p]) after := rfl

/-- One scan takes the state after `m` scans to the state after `m + 1` scans. -/
theorem rrScan_rrAfter (quantum : Int) (hQ : 1 ≤ quantum) (m : Nat) (after : List ProcessType) :
    ∀ (before : List ProcessType) (ct : Int) (done : Bool),
      ct = capSum before ((m + 1 : Nat) * quantum) + capSum after (m * quantum) →
      rrScan quantum (rrAfter quantum m before after) ct done =
        (rrAfter quantum (m + 1) before after,
          capSum (before ++ after) ((m + 1 : Nat) * quantum),
          done && after.all (fun p => decide (p.bt ≤ m * quantum))) := by
  have hmul : ((m + 1 : Nat) : Int) * quantum = m * quantum + quantum := by
    push_cast; ring
  induction after with
  | nil =>
    intro before ct done hct
    simp [rrAfter, rrScan, hct, capSum_nil]
  | cons p rest ih =>
    intro before ct done hct
    rw [capSum_cons] at hct
    rw [rrAfter_cons, rrAfter_cons]
    by_cases hfin : p.bt ≤ m * quantum
    · have hfin' : p.bt ≤ ((m + 1 : Nat) : Int) * quantum := by rw [hmul]; omega
      have hct' : ct = capSum (before ++ [p]) ((m + 1 : Nat) * quantum) +
          capSum rest (m * quantum) := by
        rw [capSum_append, capSum_cons, capSum_nil, min_eq_left hfin', hct, min_eq_left hfin]
        omega
      rw [if_pos hfin, if_pos hfin', rrScan_cons, ih (before ++ [p]) ct done hct']
      simp [hfin]
    · have hpos : p.bt - m * quantum > 0 := by omega
      rw [if_neg hfin, rrScan_cons]
      rw [min_eq_right (by omega : (m : Int) * quantum ≤ p.bt)] at hct
      by_cases hq : p.bt - m * quantum > quantum
      · have hfin' : ¬ p.bt ≤ ((m + 1 : Nat) : Int) * quantum := by rw [hmul]; omega
        have hct' : ct + quantum = capSum (before ++ [p]) ((m + 1 : Nat) * quantum) +
            capSum rest (m * quantum) := by
          rw [capSum_append, capSum_cons, capSum_nil,
            min_eq_right (by omega : ((m + 1 : Nat) : Int) * quantum ≤ p.bt), hct, hmul]
          omega
        rw [if_neg hfin', ih (before ++ [p]) (ct + quantum) false hct']
        simp only [hpos, hq, if_true, List.append_assoc, List.singleton_append, List.all_cons,
          hfin, decide_False, Bool.false_and, Bool.and_false, Prod.mk.injEq, List.cons.injEq,
          and_true, true_and]
        rw [hmul]
        omega
      · have hfin' : p.bt ≤ ((m + 1 : Nat) : Int) * quantum := by rw [hmul]; omega
        have hceil : ceilDiv p.bt quantum = m + 1 :=
          ceilDiv_eq quantum hQ m p.bt (by omega) (by omega)
        have hct' : ct + (p.bt - m * quantum) =
            capSum (before ++ [p]) ((m + 1 : Nat) * quantum) + capSum rest (m * quantum) := by
          rw [capSum_append, capSum_cons, capSum_nil, min_eq_left hfin', hct]
          omega
        have hC : rrCompletion quantum before p rest = ct + (p.bt - m * quantum) := by
          unfold rrCompletion
          rw [hceil, hct]
          have e1 : ((m : Int) + 1) * quantum = ((m + 1 : Nat) : Int) * quantum := by
            push_cast; ring
          have e2 : ((m : Int) + 1 - 1) * quantum = (m : Int) * quantum := by ring
          rw [e1, e2]
          omega
        rw [if_pos hfin', ih (before ++ [p]) (ct + (p.bt - m * quantum)) false hct']
        simp only [hpos, hq, if_true, if_false, List.append_assoc, List.singleton_append,
          List.all_cons, hfin, decide_False, Bool.false_and, Bool.and_false, Prod.mk.injEq,
          List.cons.injEq, and_true, true_and, rrFinished, hC]

theorem rrAfter_zero (quantum : Int) (after : List ProcessType) :
    ∀ before : List ProcessType, (∀ p ∈ after, 0 < p.bt) →
      rrAfter quantum 0 before after = rrInit after := by
  induction after with
  | nil => intro before _; rfl
  | cons p rest ih =>
    intro before h
    have hp := h p (List.mem_cons_self _ _)
    have hn : ¬ p.bt ≤ ((0 : Nat) : Int) * quantum := by simp only [Nat.cast_zero, zero_mul]; omega
    rw [rrAfter_cons, if_neg hn, ih _ (fun q hq => h q (List.mem_cons_of_mem _ hq))]
    simp [rrInit]

theorem capSum_zero (l : List ProcessType) (h : ∀ p ∈ l, 0 < p.bt) : capSum l 0 = 0 := by
  induction l with
  | nil => rfl
  | cons a rest ih =>
    rw [capSum_cons, ih (fun p hp => h p (List.mem_cons_of_mem _ hp)),
      min_eq_right (le_of_lt (h a (List.mem_cons_self _ _)))]
    rfl

/-- A run that returns from the state after `m` scans returns the state after some number
`M` of scans by which every process has finished. -/
theorem rrLoop_rrAfter (quantum : Int) (hQ : 1 ≤ quantum) (processes : List ProcessType) :
    ∀ (fuel m : Nat) (out : List (ProcessType × Int) × Int),
      rrLoop quantum fuel (rrAfter quantum m [] processes) (capSum processes (m * quantum)) =
        some out →
      ∃ M : Nat, out = (rrAfter quantum M [] processes, capSum processes (M * quantum)) ∧
        ∀ p ∈ processes, p.bt ≤ M * quantum := by
  intro fuel
  induction fuel with
  | zero => intro m out h; simp [rrLoop] at h
  | succ n ih =>
    intro m out h
    have hscan := rrScan_rrAfter quantum hQ m processes [] (capSum processes (m * quantum)) true
      (by rw [capSum_nil]; omega)
    rw [rrLoop, hscan] at h
    simp only [List.nil_append, Bool.true_and] at h
    by_cases hall : processes.all (fun p => decide (p.bt ≤ m * quantum)) = true
    · simp only [hall, if_true, Option.some.injEq] at h
      refine ⟨m + 1, h.symm, ?_⟩
      intro p hp
      have := List.all_eq_true.1 hall p hp
      simp only [decide_eq_true_eq] at this
      have hmul : ((m + 1 : Nat) : Int) * quantum = m * quantum + quantum := by
        push_cast; ring
      rw [hmul]
      omega
    · simp only [hall, Bool.false_eq_true, if_false] at h
      exact ih (m + 1) out h

theorem rrAfter_getElem? (quantum : Int) (M : Nat) (after : List ProcessType) :
    ∀ (before : List ProcessType) (i : Nat) (p : ProcessType),
      (∀ q ∈ after, q.bt ≤ M * quantum) → after[i]? = some p →
      (rrAfter quantum M before after)[i]? =
        some (rrFinished quantum (before ++ after.take i) p (after.drop (i + 1)), 0) := by
  induction after with
  | nil => intro before i p _ h; simp at h
  | cons a rest ih =>
    intro before i p hfin h
    rw [rrAfter_cons, if_pos (hfin a (List.mem_cons_self _ _))]
    cases i with
    | zero =>
      simp only [List.getElem?_cons_zero, Option.some.injEq] at h
      subst h
      simp
    | succ j =>
      rw [List.getElem?_cons_succ] at h
      rw [List.getElem?_cons_succ,
        ih (before ++ [a]) j p (fun q hq => hfin q (List.mem_cons_of_mem _ hq)) h]
      simp

/-- Either a scan runs nothing and changes nothing, or the cell it ran last is in its
output, unfinished or completed at the clock the scan leaves. -/
theorem rrScan_last_run (quantum : Int) (cells : List (ProcessType × Int)) :
    ∀ (ct : Int) (done : Bool),
      ((rrScan quantum cells ct done).1 = cells ∧ (rrScan quantum cells ct done).2.1 = ct) ∨
      (∃ c ∈ (rrScan quantum cells ct done).1,
        0 < c.2 ∨ c.1.art + c.1.tat = (rrScan quantum cells ct done).2.1) := by
  induction cells with
  | nil => intro ct done; left; exact ⟨rfl, rfl⟩
  | cons c rest ih =>
    obtain ⟨p, r⟩ := c
    intro ct done
    rw [rrScan_cons]
    by_cases hr : r > 0
    · right
      by_cases hq : r > quantum
      · simp only [hr, hq, if_true]
        rcases ih (ct + quantum) false with ⟨h1, h2⟩ | ⟨c, hc, h⟩
        · exact ⟨(p, r - quantum), List.mem_cons_self _ _, Or.inl (by simp only; omega)⟩
        · exact ⟨c, List.mem_cons_of_mem _ hc, h⟩
      · simp only [hr, hq, if_true, if_false]
        rcases ih (ct + r) false with ⟨h1, h2⟩ | ⟨c, hc, h⟩
        · refine ⟨_, List.mem_cons_self _ _, Or.inr ?_⟩
          simp only [h2]
          omega
        · exact ⟨c, List.mem_cons_of_mem _ hc, h⟩
    · simp only [hr, if_false]
      rcases ih ct done with ⟨h1, h2⟩ | ⟨c, hc, h⟩
      · left
        exact ⟨by rw [h1], h2⟩
      · right
        exact ⟨c, List.mem_cons_of_mem _ hc, h⟩

/-- In a run that returns, some record completed at the clock the run ends with, provided
some cell was unfinished or completed at the clock at the start. -/
theorem rrLoop_last_completion (quantum : Int) :
    ∀ (fuel : Nat) (cells : List (ProcessType × Int)) (ct : Int)
      (out : List (ProcessType × Int) × Int),
      (∃ c ∈ cells, 0 < c.2 ∨ c.1.art + c.1.tat = ct) →
      rrLoop quantum fuel cells ct = some out →
      ∃ c ∈ out.1, c.1.art + c.1.tat = out.2 := by
  intro fuel
  induction fuel with
  | zero => intro cells ct out _ h; simp [rrLoop] at h
  | succ n ih =>
    intro cells ct out hex h
    rw [rrLoop] at h
    have hnext : ∃ c ∈ (rrScan quantum cells ct true).1,
        0 < c.2 ∨ c.1.art + c.1.tat = (rrScan quantum cells ct true).2.1 := by
      rcases rrScan_last_run quantum cells ct true with ⟨h1, h2⟩ | h'
      · rw [h1, h2]; exact hex
      · exact h'
    by_cases hd : (rrScan quantum cells ct true).2.2 = true
    · simp only [hd, if_true, Option.some.injEq] at h
      obtain ⟨d1, d2, _, _⟩ := rrScan_done quantum cells ct true hd
      obtain ⟨c, hc, hdis⟩ := hnext
      rw [← h]
      refine ⟨c, hc, ?_⟩
      rcases hdis with hpos | heq
      · have := d1 c (d2 ▸ hc)
        omega
      · exact heq
    · simp only [hd] at h
      exact ih _ _ out hnext h

theorem sum_take_drop (l : List ProcessType) (i : Nat) (p : ProcessType) (h : l[i]? = some p) :
    (l.map (fun q => q.bt)).sum =
      ((l.take i).map (fun q => q.bt)).sum + p.bt + ((l.drop (i + 1)).map (fun q => q.bt)).sum := by
  induction l generalizing i with
  | nil => simp at h
  | cons a rest ih =>
    cases i with
    | zero =>
      simp only [List.getElem?_cons_zero, Option.some.injEq] at h
      subst h
      simp
    | succ j =>
      rw [List.getElem?_cons_succ] at h
      have := ih j h
      simp only [List.map_cons, List.sum_cons, List.take_succ_cons, List.drop_succ_cons, this]
      omega

theorem rrCompletion_le_sum (quantum : Int) (l : List ProcessType) (i : Nat) (p : ProcessType)
    (h : l[i]? = some p) :
    rrCompletion quantum (l.take i) p (l.drop (i + 1)) ≤ (l.map (fun q => q.bt)).sum := by
  rw [sum_take_drop l i p h]
  unfold rrCompletion
  have h1 := capSum_le_sum (l.take i) (ceilDiv p.bt quantum * quantum)
  have h2 := capSum_le_sum (l.drop (i + 1)) ((ceilDiv p.bt quantum - 1) * quantum)
  omega

theorem rrAfter_length (quantum : Int) (m : Nat) (after : List ProcessType) :
    ∀ before : List ProcessType, (rrAfter quantum m before after).length = after.length := by
  induction after with
  | nil => intro before; rfl
  | cons a rest ih =>
    intro before
    rw [rrAfter_cons, List.length_cons, List.length_cons, ih]

/-- A run of round robin on a workload with positive bursts that returns, returns the
state after some number `M` of scans by which every process has finished. -/
theorem rrRun_eq_rrAfter (processes : List ProcessType) (quantum : Int)
    (hbt : ∀ p ∈ processes, 0 < p.bt) (hQ : 1 ≤ quantum) (fuel : Nat)
    (out : List (ProcessType × Int) × Int) (h : rrRun fuel processes quantum = some out) :
    ∃ M : Nat, out = (rrAfter quantum M [] processes, capSum processes (M * quantum)) ∧
      ∀ p ∈ processes, p.bt ≤ M * quantum := by
  unfold rrRun at h
  have h0 : (0 : Int) = capSum processes (((0 : Nat) : Int) * quantum) := by
    simp only [Nat.cast_zero, zero_mul]
    exact (capSum_zero processes hbt).symm
  rw [← rrAfter_zero quantum processes [] hbt, h0] at h
  exact rrLoop_rrAfter quantum hQ processes fuel 0 out h

/-! ## Lemmas: the completion times of round robin in exact arithmetic -/

/-- In exact arithmetic: for every workload with positive burst times and every quantum at
least 1, `roundRobinScheduling` returns, and process `i` completes at
`C_i = Σ_{j<i} min(BT_j, r_i·Q) + BT_i + Σ_{j>i} min(BT_j, (r_i − 1)·Q)` with
`r_i = ceil(BT_i / Q)`, a value in which no arrival time occurs; the scheduler writes
`TAT_i = C_i − AT_i` and `WT_i = C_i − BT_i − AT_i`, its working remaining burst ends at 0,
the clock ends at the sum of all burst times, no `C_i` exceeds that sum and, for a
non-empty workload, some `C_i` equals it. -/
theorem roundRobin_completion_formula_exact (processes : List ProcessType) (quantum : Int)
    (hbt : ∀ p ∈ processes, 0 < p.bt) (hQ : 1 ≤ quantum) :
    (∃ fuel out, rrRun fuel processes quantum = some out) ∧
    (∀ fuel out, rrRun fuel processes quantum = some out →
      out.2 = (processes.map (fun p => p.bt)).sum ∧
      ∀ (i : Nat) (p : ProcessType), processes[i]? = some p →
        out.1[i]? =
          some (rrFinished quantum (processes.take i) p (processes.drop (i + 1)), 0)) ∧
    (∀ (i : Nat) (p : ProcessType), processes[i]? = some p →
      rrCompletion quantum (processes.take i) p (processes.drop (i + 1)) ≤
        (processes.map (fun p => p.bt)).sum) ∧
    (processes ≠ [] → ∃ (i : Nat) (p : ProcessType), processes[i]? = some p ∧
      rrCompletion quantum (processes.take i) p (processes.drop (i + 1)) =
        (processes.map (fun p => p.bt)).sum) := by
  have hterm : ∃ fuel out, rrRun fuel processes quantum = some out :=
    ⟨rrRemaining (rrInit processes) + 1,
      rrLoop_terminates quantum hQ _ (rrInit processes) 0 (Nat.lt_succ_self _)⟩
  have hform : ∀ fuel out, rrRun fuel processes quantum = some out →
      out.2 = (processes.map (fun p => p.bt)).sum ∧
      ∀ (i : Nat) (p : ProcessType), processes[i]? = some p →
        out.1[i]? =
          some (rrFinished quantum (processes.take i) p (processes.drop (i + 1)), 0) := by
    intro fuel out h
    obtain ⟨M, rfl, hM⟩ := rrRun_eq_rrAfter processes quantum hbt hQ fuel out h
    refine ⟨capSum_eq_sum processes _ hM, ?_⟩
    intro i p hp
    have := rrAfter_getElem? quantum M processes [] i p hM hp
    simpa using this
  refine ⟨hterm, hform, fun i p hp => rrCompletion_le_sum quantum processes i p hp, ?_⟩
  intro hne
  obtain ⟨fuel, out, hrun⟩ := hterm
  obtain ⟨hclock, hcells⟩ := hform fuel out hrun
  have hinit : ∃ c ∈ rrInit processes, 0 < c.2 ∨ c.1.art + c.1.tat = 0 := by
    obtain ⟨a, ha⟩ := List.exists_mem_of_ne_nil processes hne
    exact ⟨(a, a.bt), List.mem_map.2 ⟨a, ha, rfl⟩, Or.inl (hbt a ha)⟩
  obtain ⟨c, hc, hlast⟩ := rrLoop_last_completion quantum fuel _ 0 out hinit hrun
  obtain ⟨i, hi⟩ := List.mem_iff_getElem?.1 hc
  have hlen : out.1.length = processes.length := by
    obtain ⟨M, rfl, _⟩ := rrRun_eq_rrAfter processes quantum hbt hQ fuel out hrun
    exact rrAfter_length quantum M processes []
  have hilt : i < processes.length := by
    rw [← hlen]
    exact lt_length_of_getElem? hi
  have hp : processes[i]? = some processes[i] := List.getElem?_eq_getElem hilt
  refine ⟨i, processes[i], hp, ?_⟩
  have := hcells i _ hp
  rw [hi] at this
  simp only [Option.some.injEq] at this
  rw [this] at hlast
  simp only [rrFinished] at hlast
  omega

/-! ## Lemmas: 32-bit arithmetic of the walk -/

theorem wrap32_of_isInt {x : Int} (h : IsInt x) : wrap32 x = x :=
  wrap32_of_inRange h.1 h.2

/-- Where no operation overflows, the walk in `int` arithmetic is the exact walk. -/
theorem priorityWalk32_eq (l : List ProcessType) :
    ∀ t : Int, WalkInRange l t → priorityWalk32 l t = priorityWalk l t := by
  induction l with
  | nil => intro t _; rfl
  | cons p rest ih =>
    intro t h
    obtain ⟨h1, h2, h3, h4⟩ := h
    have hmax : (if t < p.art then p.art else t) = max t p.art := by
      by_cases hlt : t < p.art
      · rw [if_pos hlt, max_eq_right (le_of_lt hlt)]
      · rw [if_neg hlt, max_eq_left (not_lt.1 hlt)]
    rw [priorityWalk_cons]
    simp only [priorityWalk32, hmax]
    rw [wrap32_of_isInt h1, wrap32_of_isInt h2, wrap32_of_isInt h3, ih _ h4]

theorem sjfStep32_idle (s : SjfState) (h : sjfShortest s = none) :
    sjfStep32 s = { s with current_time := wrap32 (s.current_time + 1) } := by
  unfold sjfStep32
  rw [h]

theorem sjfStep32_run (s : SjfState) (k : Nat) (p : ProcessType)
    (h : sjfShortest s = some k) (hp : s.processes[k]? = some p) :
    sjfStep32 s =
      if wrap32 (p.rem_bt - 1) = 0 then
        { processes := s.processes.set k
            { p with rem_bt := wrap32 (p.rem_bt - 1),
                     tat := wrap32 (wrap32 (s.current_time + 1) - p.art),
                     wt := wrap32 (wrap32 (wrap32 (s.current_time + 1) - p.art) - p.bt) },
          current_time := wrap32 (s.current_time + 1),
          completed := s.completed + 1 }
      else
        { processes := s.processes.set k { p with rem_bt := wrap32 (p.rem_bt - 1) },
          current_time := wrap32 (s.current_time + 1),
          completed := s.completed } := by
  unfold sjfStep32
  rw [h]
  simp only [hp]

theorem rem_sum_nonneg (s : SjfState) (h : SjfInv s) :
    0 ≤ (s.processes.map (fun p => p.rem_bt)).sum := by
  apply List.sum_nonneg
  intro x hx
  obtain ⟨q, hq, rfl⟩ := List.mem_map.1 hx
  exact (h.1 q hq).1

/-- Within the bound, an iteration in `int` arithmetic is the exact iteration, and it
stays within the bound. -/
theorem sjfStep32_eq (latest bound : Int) (hB : bound < INT_MAX) (s : SjfState)
    (hinv : SjfInv s) (hfit : SjfFit latest bound s)
    (hlt : s.completed < s.processes.length) :
    sjfStep32 s = sjfStep s ∧ SjfFit latest bound (sjfStep s) := by
  obtain ⟨hcells, ht, hsum⟩ := hfit
  have hnext := sjfStep_inv s hinv
  have hsum0 := rem_sum_nonneg s hinv
  have hmaxl : s.current_time ≤ max s.current_time latest := le_max_left _ _
  have hmaxr : latest ≤ max s.current_time latest := le_max_right _ _
  unfold INT_MAX at hB
  cases hs : sjfShortest s with
  | none =>
    obtain ⟨p, hp, hpos⟩ := exists_unfinished s hinv hlt
    obtain ⟨a1, a2, a3⟩ := hcells p hp
    have hnot := sjfShortest_none s hs p hp
    have harr : s.current_time < p.art := by
      by_contra hle
      exact hnot ⟨by omega, hpos, a3⟩
    have hw : wrap32 (s.current_time + 1) = s.current_time + 1 :=
      wrap32_of_inRange (by unfold INT_MIN; omega) (by unfold INT_MAX; omega)
    rw [sjfStep32_idle s hs, sjfStep_idle s hs, hw]
    refine ⟨rfl, hcells, by simp only; omega, ?_⟩
    simp only
    have : max (s.current_time + 1) latest = max s.current_time latest := by
      rw [max_eq_right (by omega : s.current_time + 1 ≤ latest),
        max_eq_right (by omega : s.current_time ≤ latest)]
    rw [this]
    exact hsum
  | some k =>
    obtain ⟨p, hp, harr, hpos, hmax, _, _⟩ := sjfShortest_some s k hs
    have hmem : p ∈ s.processes := List.getElem?_mem hp
    obtain ⟨a1, a2, a3⟩ := hcells p hmem
    obtain ⟨c1, c2, _, _⟩ := hinv.1 p hmem
    have hklt := lt_length_of_getElem? hp
    have hstep := sjfStep_run s k p hs hp
    have hstep32 := sjfStep32_run s k p hs hp
    unfold INT_MAX at hmax
    have hw1 : wrap32 (p.rem_bt - 1) = p.rem_bt - 1 :=
      wrap32_of_inRange (by unfold INT_MIN; omega) (by unfold INT_MAX; omega)
    by_cases hz : p.rem_bt - 1 = 0
    · rw [if_pos hz] at hstep
      rw [hw1, if_pos hz] at hstep32
      have hsumset := int_sum_map_set_of_getElem? (fun p => p.rem_bt) s.processes k p
        { p with rem_bt := p.rem_bt - 1, tat := s.current_time + 1 - p.art,
                 wt := s.current_time + 1 - p.art - p.bt } hp
      simp only at hsumset
      rw [hstep] at hnext
      have hsum1 := rem_sum_nonneg _ hnext
      simp only at hsum1
      have hnew := hnext.1 _ (List.getElem?_mem
        (List.getElem?_set_eq_of_lt _ hklt : (s.processes.set k _)[k]? = some _))
      obtain ⟨_, _, _, n4⟩ := hnew
      obtain ⟨_, n5, n6⟩ := n4 hz
      simp only at n5 n6
      have hw2 : wrap32 (s.current_time + 1) = s.current_time + 1 :=
        wrap32_of_inRange (by unfold INT_MIN; omega) (by unfold INT_MAX; omega)
      have hw3 : wrap32 (s.current_time + 1 - p.art) = s.current_time + 1 - p.art :=
        wrap32_of_inRange (by unfold INT_MIN; omega) (by unfold INT_MAX; omega)
      have hw4 : wrap32 (s.current_time + 1 - p.art - p.bt) = s.current_time + 1 - p.art - p.bt :=
        wrap32_of_inRange (by unfold INT_MIN; omega) (by unfold INT_MAX; omega)
      rw [hstep32, hstep, hw2, hw3, hw4]
      refine ⟨rfl, ?_, by simp only; omega, ?_⟩
      · intro q hq
        rcases List.mem_or_eq_of_mem_set hq with hq | rfl
        · exact hcells q hq
        · exact ⟨a1, a2, by simp only; unfold INT_MAX; omega⟩
      · simp only
        have : max (s.current_time + 1) latest ≤ max s.current_time latest + 1 :=
          max_le (by omega) (by omega)
        omega
    · rw [if_neg hz] at hstep
      rw [hw1, if_neg hz] at hstep32
      have hsumset := int_sum_map_set_of_getElem? (fun p => p.rem_bt) s.processes k p
        { p with rem_bt := p.rem_bt - 1 } hp
      simp only at hsumset
      rw [hstep] at hnext
      have hsum1 := rem_sum_nonneg _ hnext
      simp only at hsum1
      have hw2 : wrap32 (s.current_time + 1) = s.current_time + 1 :=
        wrap32_of_inRange (by unfold INT_MIN; omega) (by unfold INT_MAX; omega)
      rw [hstep32, hstep, hw2]
      refine ⟨rfl, ?_, by simp only; omega, ?_⟩
      · intro q hq
        rcases List.mem_or_eq_of_mem_set hq with hq | rfl
        · exact hcells q hq
        · exact ⟨a1, a2, by simp only; unfold INT_MAX; omega⟩
      · simp only
        have : max (s.current_time + 1) latest ≤ max s.current_time latest + 1 :=
          max_le (by omega) (by omega)
        omega

/-- Within the bound, the loop in `int` arithmetic is the exact loop. -/
theorem sjfLoop32_eq (latest bound : Int) (hB : bound < INT_MAX) :
    ∀ (fuel : Nat) (s : SjfState), SjfInv s → SjfFit latest bound s →
      sjfLoop32 fuel s = sjfLoop fuel s ∧ sjfIdleSteps32 fuel s = sjfIdleSteps fuel s := by
  intro fuel
  induction fuel with
  | zero => intro s _ _; exact ⟨rfl, rfl⟩
  | succ n ih =>
    intro s hinv hfit
    rw [sjfLoop32, sjfLoop, sjfIdleSteps32, sjfIdleSteps]
    by_cases hlt : s.completed < s.processes.length
    · obtain ⟨he, hf⟩ := sjfStep32_eq latest bound hB s hinv hfit hlt
      obtain ⟨i1, i2⟩ := ih (sjfStep s) (sjfStep_inv s hinv) hf
      rw [if_pos hlt, if_pos hlt, if_pos hlt, if_pos hlt, he, i1, i2]
      exact ⟨rfl, rfl⟩
    · rw [if_neg hlt, if_neg hlt, if_neg hlt, if_neg hlt]
      exact ⟨rfl, rfl⟩

theorem latestArrival_nonneg (l : List ProcessType) : 0 ≤ latestArrival l := by
  induction l with
  | nil => exact le_refl _
  | cons a rest ih =>
    simp only [latestArrival, List.map_cons, List.foldr_cons]
    exact le_trans ih (le_max_right _ _)

theorem bt_le_sum (l : List ProcessType) (h : ∀ p ∈ l, 0 < p.bt) :
    ∀ p ∈ l, p.bt ≤ (l.map (fun p => p.bt)).sum := by
  induction l with
  | nil => intro p hp; simp at hp
  | cons a rest ih =>
    intro p hp
    have hrest : 0 ≤ (rest.map (fun p => p.bt)).sum := by
      apply List.sum_nonneg
      intro x hx
      obtain ⟨q, hq, rfl⟩ := List.mem_map.1 hx
      exact le_of_lt (h q (List.mem_cons_of_mem _ hq))
    have ha := h a (List.mem_cons_self _ _)
    simp only [List.map_cons, List.sum_cons]
    rcases List.mem_cons.1 hp with rfl | hp
    · omega
    · have := ih (fun q hq => h q (List.mem_cons_of_mem _ hq)) p hp
      omega

theorem sjfInit_fit (processes : List ProcessType)
    (hbt : ∀ p ∈ processes, 0 < p.bt) (hart : ∀ p ∈ processes, 0 ≤ p.art)
    (hfit : SjfInRange processes) :
    SjfFit (latestArrival processes)
      (latestArrival processes + (processes.map (fun p => p.bt)).sum) (sjfInit processes) := by
  unfold SjfInRange at hfit
  have hl := latestArrival_nonneg processes
  refine ⟨?_, le_refl _, ?_⟩
  · intro q hq
    obtain ⟨p, hp, rfl⟩ := List.mem_map.1 hq
    have := bt_le_sum processes hbt p hp
    exact ⟨hart p hp, le_latestArrival processes p hp, by simp only; omega⟩
  · simp only [sjfInit, List.map_map, Function.comp_def]
    rw [max_eq_right hl]

/-- On a valid workload whose latest arrival plus total burst is below `INT_MAX`, the
loop of `sjfScheduling` in `int` arithmetic is the exact loop. -/
theorem sjfRun32_eq (processes : List ProcessType)
    (hbt : ∀ p ∈ processes, 0 < p.bt) (hart : ∀ p ∈ processes, 0 ≤ p.art)
    (hfit : SjfInRange processes) (fuel : Nat) :
    sjfRun32 fuel processes = sjfRun fuel processes ∧
    sjfIdleSteps32 fuel (sjfInit processes) = sjfIdleSteps fuel (sjfInit processes) := by
  unfold sjfRun32 sjfRun
  exact sjfLoop32_eq _ _ hfit fuel _ (sjfInit_inv processes hbt)
    (sjfInit_fit processes hbt hart hfit)

theorem bt_lt_max_of_inRange (processes : List ProcessType)
    (hbt : ∀ p ∈ processes, 0 < p.bt) (hfit : SjfInRange processes) :
    ∀ p ∈ processes, p.bt < INT_MAX := by
  intro p hp
  unfold SjfInRange at hfit
  have := bt_le_sum processes hbt p hp
  have := latestArrival_nonneg processes
  omega

/-- While no record is both arrived and unfinished and the clock stays an `int`, the loop
in `int` arithmetic only advances the clock. -/
theorem sjfLoop32_idle (l : List ProcessType) (c : Nat) (hc : c < l.length) :
    ∀ (d : Nat) (t : Int) (fuel : Nat), INT_MIN ≤ t → t + d ≤ INT_MAX →
      (∀ p ∈ l, p.rem_bt ≤ 0 ∨ t + d ≤ p.art) →
      sjfLoop32 (d + fuel) { processes := l, current_time := t, completed := c } =
        sjfLoop32 fuel { processes := l, current_time := t + d, completed := c } := by
  intro d
  induction d with
  | zero =>
    intro t fuel _ _ _
    simp
  | succ n ih =>
    intro t fuel h1 h2 h3
    push_cast at h2 h3
    have hnone : sjfShortest { processes := l, current_time := t, completed := c } = none := by
      cases hs : sjfShortest { processes := l, current_time := t, completed := c } with
      | none => rfl
      | some k =>
        obtain ⟨p, hp, e1, e2, _⟩ := sjfShortest_some _ k hs
        rcases h3 p (List.getElem?_mem hp) with h | h
        · omega
        · simp only at e1
          omega
    have hw : wrap32 (t + 1) = t + 1 :=
      wrap32_of_inRange (by omega) (by omega)
    rw [show n + 1 + fuel = (n + fuel) + 1 by omega, sjfLoop32]
    simp only [hc, if_true]
    rw [sjfStep32_idle _ hnone]
    simp only [hw]
    rw [ih (t + 1) fuel (by omega) (by omega)
      (fun p hp => (h3 p hp).imp id (fun h => by omega))]
    congr 2
    push_cast
    omega

theorem sjfLoop32_succ (fuel : Nat) (s : SjfState) (h : s.completed < s.processes.length) :
    sjfLoop32 (1 + fuel) s = sjfLoop32 fuel (sjfStep32 s) := by
  rw [Nat.add_comm, sjfLoop32, if_pos h]

/-! ## Theorems: shortest remaining time first in 32-bit arithmetic -/

/-- C4 (as stated, refuted): the single process with burst 2 arriving at time `INT_MAX` is
a valid workload; `sjfScheduling` runs its first unit at clock `INT_MAX`, the clock wraps
to `INT_MIN`, the process counts as not arrived until the clock is back at `INT_MAX`, and
the run returns with `WT = −1` and `TAT = 1`, below 0 and below the burst time. -/
theorem sjfScheduling32_late_arrival_wraps :
    (0 < lateLongProcess.bt ∧ 0 ≤ lateLongProcess.art ∧ IsInt lateLongProcess.art) ∧
    sjfScheduling32 (2147483647 + (1 + (4294967295 + (1 + 0)))) [lateLongProcess] =
      some [{ lateLongProcess with rem_bt := 0, wt := -1, tat := 1 }] := by
  refine ⟨by decide, ?_⟩
  unfold sjfScheduling32 sjfRun32
  have h0 : sjfInit [lateLongProcess] =
      SjfState.mk [{ lateLongProcess with rem_bt := 2 }] 0 0 := by decide
  have h1 : sjfStep32 (SjfState.mk [{ lateLongProcess with rem_bt := 2 }]
        (0 + (2147483647 : Nat)) 0) =
      SjfState.mk [{ lateLongProcess with rem_bt := 1 }] (-2147483648) 0 := by decide
  have h2 : sjfStep32 (SjfState.mk [{ lateLongProcess with rem_bt := 1 }]
        (-2147483648 + (4294967295 : Nat)) 0) =
      SjfState.mk [{ lateLongProcess with rem_bt := 0, wt := -1, tat := 1 }]
        (-2147483648) 1 := by decide
  rw [h0, sjfLoop32_idle _ 0 (by decide) 2147483647 0 _ (by decide) (by decide) (by decide),
    sjfLoop32_succ _ _ (by decide), h1,
    sjfLoop32_idle _ 0 (by decide) 4294967295 (-2147483648) _ (by decide) (by decide)
      (by decide),
    sjfLoop32_succ _ _ (by decide), h2]
  rfl

/-- C4 (amended): for every valid workload (every burst time positive, every arrival time
non-negative) whose latest arrival plus total burst is below `INT_MAX`, `sjfScheduling`
returns, and when it does the records are those of the input, in its order, and every
process has `rem_bt = 0`, `WT ≥ 0`, `TAT = WT + burst_time` and `TAT ≥ burst_time`. -/
theorem sjfScheduling32_results (processes : List ProcessType)
    (hbt : ∀ p ∈ processes, 0 < p.bt) (hart : ∀ p ∈ processes, 0 ≤ p.art)
    (hfit : SjfInRange processes) :
    (∃ fuel out, sjfScheduling32 fuel processes = some out) ∧
    (∀ fuel out, sjfScheduling32 fuel processes = some out →
      out.map identityFields = processes.map identityFields ∧
      ∀ p ∈ out, p.rem_bt = 0 ∧ 0 ≤ p.wt ∧ p.tat = p.wt + p.bt ∧ p.bt ≤ p.tat) := by
  have heq : ∀ fuel, sjfScheduling32 fuel processes = sjfScheduling fuel processes := by
    intro fuel
    unfold sjfScheduling32 sjfScheduling
    rw [(sjfRun32_eq processes hbt hart hfit fuel).1]
  have hex := sjfScheduling_results_exact processes hbt hart
  constructor
  · obtain ⟨fuel, out, h⟩ := hex.2 (bt_lt_max_of_inRange processes hbt hfit)
    exact ⟨fuel, out, by rw [heq]; exact h⟩
  · intro fuel out h
    rw [heq] at h
    refine ⟨?_, hex.1 fuel out h⟩
    unfold sjfScheduling sjfRun at h
    cases hrun : sjfLoop fuel (sjfInit processes) with
    | none => rw [hrun] at h; simp at h
    | some fin =>
      rw [hrun] at h
      simp only [Option.map_some', Option.some.injEq] at h
      rw [← h, sjfLoop_identity fuel _ fin hrun, sjfInit_identity]

/-- C12 (as stated, refuted): on the valid workload of a process arriving at 0 and one
arriving at `INT_MAX`, each with burst 1, the clock wraps when the second completes:
`sjfScheduling` stops at clock `INT_MIN`, below the completion time 1 of the first process
and below the sum of the burst times plus the idle steps. -/
theorem sjfRun32_clock_wraps :
    (∀ p ∈ earlyLateWorkload, 0 < p.bt ∧ 0 ≤ p.art ∧ IsInt p.art) ∧
    ∃ out, sjfRun32 (1 + (2147483646 + (1 + 0))) earlyLateWorkload = some out ∧
      out.current_time = -2147483648 ∧
      (∃ p ∈ out.processes, out.current_time < p.art + p.tat) ∧
      out.current_time < (earlyLateWorkload.map (fun p => p.bt)).sum +
        sjfIdleSteps32 (1 + (2147483646 + (1 + 0))) (sjfInit earlyLateWorkload) := by
  refine ⟨by decide, ?_⟩
  have h0 : sjfStep32 (sjfInit earlyLateWorkload) =
      SjfState.mk
        [ { pid := 1, bt := 1, art := 0, wt := 0, tat := 1, pri := 0, rem_bt := 0 },
          { pid := 2, bt := 1, art := 2147483647, wt := 0, tat := 0, pri := 0, rem_bt := 1 } ]
        1 1 := by decide
  have h1 : sjfStep32 (SjfState.mk
        [ { pid := 1, bt := 1, art := 0, wt := 0, tat := 1, pri := 0, rem_bt := 0 },
          { pid := 2, bt := 1, art := 2147483647, wt := 0, tat := 0, pri := 0, rem_bt := 1 } ]
        (1 + (2147483646 : Nat)) 1) =
      SjfState.mk
        [ { pid := 1, bt := 1, art := 0, wt := 0, tat := 1, pri := 0, rem_bt := 0 },
          { pid := 2, bt := 1, art := 2147483647, wt := 0, tat := 1, pri := 0, rem_bt := 0 } ]
        (-2147483648) 2 := by decide
  have hrun : sjfRun32 (1 + (2147483646 + (1 + 0))) earlyLateWorkload =
      some (SjfState.mk
        [ { pid := 1, bt := 1, art := 0, wt := 0, tat := 1, pri := 0, rem_bt := 0 },
          { pid := 2, bt := 1, art := 2147483647, wt := 0, tat := 1, pri := 0, rem_bt := 0 } ]
        (-2147483648) 2) := by
    unfold sjfRun32
    rw [sjfLoop32_succ _ _ (by decide), h0,
      sjfLoop32_idle _ 1 (by decide) 2147483646 1 _ (by decide) (by decide) (by decide),
      sjfLoop32_succ _ _ (by decide), h1]
    rfl
  refine ⟨_, hrun, rfl, ⟨_, List.mem_cons_self _ _, by decide⟩, ?_⟩
  have hs : (earlyLateWorkload.map (fun p => p.bt)).sum = 2 := by decide
  rw [hs]
  simp only
  omega

/-- C12 (amended): for every non-empty valid workload whose latest arrival plus total
burst is below `INT_MAX`, `sjfScheduling` stops, and the clock at which it stops is the
largest completion time `arrival_time + TAT` over all processes (some process has it,
none exceeds it) and is the sum of all burst times plus the number of idle steps
(iterations at which no record was arrived and unfinished). -/
theorem sjfRun32_elapsed_time (processes : List ProcessType) (hne : processes ≠ [])
    (hbt : ∀ p ∈ processes, 0 < p.bt) (hart : ∀ p ∈ processes, 0 ≤ p.art)
    (hfit : SjfInRange processes) :
    (∃ fuel out, sjfRun32 fuel processes = some out) ∧
    (∀ fuel out, sjfRun32 fuel processes = some out →
      (∃ p ∈ out.processes, p.art + p.tat = out.current_time) ∧
      (∀ p ∈ out.processes, p.art + p.tat ≤ out.current_time) ∧
      out.current_time =
        (processes.map (fun p => p.bt)).sum + sjfIdleSteps32 fuel (sjfInit processes)) := by
  have hex := sjf_elapsed_time_exact processes hne hbt hart
  constructor
  · obtain ⟨fuel, out, h⟩ := hex.2 (bt_lt_max_of_inRange processes hbt hfit)
    exact ⟨fuel, out, by rw [(sjfRun32_eq processes hbt hart hfit fuel).1]; exact h⟩
  · intro fuel out h
    obtain ⟨e1, e2⟩ := sjfRun32_eq processes hbt hart hfit fuel
    rw [e1] at h
    rw [e2]
    exact hex.1 fuel out h

/-- Witness for C4 (amended): the workload of `main`. -/
theorem sjfScheduling32_results_witness :
    (∀ p ∈ referenceWorkload, 0 < p.bt) ∧ (∀ p ∈ referenceWorkload, 0 ≤ p.art) ∧
    SjfInRange referenceWorkload ∧
    ∃ fuel out, sjfScheduling32 fuel referenceWorkload = some out :=
  ⟨by decide, by decide, by unfold SjfInRange; decide,
    (sjfScheduling32_results referenceWorkload (by decide) (by decide)
      (by unfold SjfInRange; decide)).1⟩

/-- Witness for C12 (amended): the workload of `main`. -/
theorem sjfRun32_elapsed_time_witness :
    referenceWorkload ≠ [] ∧ (∀ p ∈ referenceWorkload, 0 < p.bt) ∧
    (∀ p ∈ referenceWorkload, 0 ≤ p.art) ∧ SjfInRange referenceWorkload ∧
    ∃ fuel out, sjfRun32 fuel referenceWorkload = some out :=
  ⟨by decide, by decide, by decide, by unfold SjfInRange; decide,
    (sjfRun32_elapsed_time referenceWorkload (by decide) (by decide) (by decide)
      (by unfold SjfInRange; decide)).1⟩

/-! ## Lemmas: 32-bit arithmetic of round robin -/

theorem rrScan32_cons (quantum : Int) (p : ProcessType) (r : Int)
    (rest : List (ProcessType × Int)) (ct : Int) (done : Bool) :
    rrScan32 quantum ((p, r) :: rest) ct done =
      if r > 0 then
        if r > quantum then
          ((p, wrap32 (r - quantum)) :: (rrScan32 quantum rest (wrap32 (ct + quantum)) false).1,
            (rrScan32 quantum rest (wrap32 (ct + quantum)) false).2)
        else
          (({ p with wt := wrap32 (wrap32 (wrap32 (ct + r) - p.bt) - p.art),
                     tat := wrap32 (wrap32 (ct + r) - p.art) }, 0) ::
              (rrScan32 quantum rest (wrap32 (ct + r)) false).1,
            (rrScan32 quantum rest (wrap32 (ct + r)) false).2)
      else
        ((p, r) :: (rrScan32 quantum rest ct done).1, (rrScan32 quantum rest ct done).2) := by
  simp only [rrScan32]

/-- A scan neither gains nor loses time: the clock plus the work left is unchanged. -/
theorem rrScan_conserves (quantum : Int) (cells : List (ProcessType × Int)) :
    ∀ (ct : Int) (done : Bool), (∀ c ∈ cells, 0 ≤ c.2) →
      (rrScan quantum cells ct done).2.1 +
          ((rrScan quantum cells ct done).1.map Prod.snd).sum =
        ct + (cells.map Prod.snd).sum := by
  induction cells with
  | nil => intro ct done _; simp [rrScan]
  | cons c rest ih =>
    obtain ⟨p, r⟩ := c
    intro ct done h
    have hrest : ∀ c ∈ rest, 0 ≤ c.2 := fun c hc => h c (List.mem_cons_of_mem _ hc)
    rw [rrScan_cons]
    by_cases hr : r > 0
    · by_cases hq : r > quantum
      · simp only [hr, hq, if_true, List.map_cons, List.sum_cons]
        have := ih (ct + quantum) false hrest
        omega
      · simp only [hr, hq, if_true, if_false, List.map_cons, List.sum_cons]
        have := ih (ct + r) false hrest
        omega
    · simp only [hr, if_false, List.map_cons, List.sum_cons]
      have := ih ct done hrest
      omega

/-- A scan keeps every arrival time. -/
theorem rrScan_arrivals (P : Int → Prop) (quantum : Int) (cells : List (ProcessType × Int)) :
    ∀ (ct : Int) (done : Bool), (∀ c ∈ cells, P c.1.art) →
      ∀ c ∈ (rrScan quantum cells ct done).1, P c.1.art := by
  induction cells with
  | nil => intro ct done _ c hc; simp [rrScan] at hc
  | cons c rest ih =>
    obtain ⟨p, r⟩ := c
    intro ct done h
    have hp : P p.art := h (p, r) (List.mem_cons_self _ _)
    have hrest : ∀ c ∈ rest, P c.1.art := fun c hc => h c (List.mem_cons_of_mem _ hc)
    rw [rrScan_cons]
    by_cases hr : r > 0
    · by_cases hq : r > quantum
      · simp only [hr, hq, if_true]
        intro c hc
        rcases List.mem_cons.1 hc with rfl | hc
        · exact hp
        · exact ih _ _ hrest c hc
      · simp only [hr, hq, if_true, if_false]
        intro c hc
        rcases List.mem_cons.1 hc with rfl | hc
        · exact hp
        · exact ih _ _ hrest c hc
    · simp only [hr, if_false]
      intro c hc
      rcases List.mem_cons.1 hc with rfl | hc
      · exact hp
      · exact ih _ _ hrest c hc

theorem rr_sum_nonneg (cells : List (ProcessType × Int)) (h : ∀ c ∈ cells, 0 ≤ c.2) :
    0 ≤ (cells.map Prod.snd).sum := by
  induction cells with
  | nil => simp
  | cons c rest ih =>
    have h1 := h c (List.mem_cons_self _ _)
    have h2 := ih (fun c hc => h c (List.mem_cons_of_mem _ hc))
    simp only [List.map_cons, List.sum_cons]
    omega

/-- Where the clock plus the work left stays within `int` and the arrival times leave room
for the subtractions, a scan in `int` arithmetic is the exact scan. -/
theorem rrScan32_eq (quantum : Int) (hQ : 1 ≤ quantum) (S : Int) (hS : S ≤ INT_MAX)
    (cells : List (ProcessType × Int)) :
    ∀ (ct : Int) (done : Bool), 0 ≤ ct →
      (∀ c ∈ cells, RRCell ct c ∧ c.1.art ≤ INT_MAX ∧ S - c.1.art ≤ INT_MAX) →
      ct + (cells.map Prod.snd).sum ≤ S →
      rrScan32 quantum cells ct done = rrScan quantum cells ct done := by
  induction cells with
  | nil => intro ct done _ _ _; simp [rrScan, rrScan32]
  | cons c rest ih =>
    obtain ⟨p, r⟩ := c
    intro ct done hct h hsum
    obtain ⟨⟨h1, h2, h3, _⟩, ha1, ha2⟩ := h (p, r) (List.mem_cons_self _ _)
    simp only at h1 h2 h3 ha1 ha2
    have hrest : ∀ c ∈ rest, RRCell ct c ∧ c.1.art ≤ INT_MAX ∧ S - c.1.art ≤ INT_MAX :=
      fun c hc => h c (List.mem_cons_of_mem _ hc)
    have hnn := rr_sum_nonneg rest (fun c hc => (hrest c hc).1.1)
    simp only [List.map_cons, List.sum_cons] at hsum
    simp only [INT_MAX] at hS ha1 ha2
    rw [rrScan_cons, rrScan32_cons]
    by_cases hr : r > 0
    · by_cases hq : r > quantum
      · simp only [hr, hq, if_true]
        rw [wrap32_of_inRange (x := r - quantum) (by simp only [INT_MIN]; omega)
              (by simp only [INT_MAX]; omega),
            wrap32_of_inRange (x := ct + quantum) (by simp only [INT_MIN]; omega)
              (by simp only [INT_MAX]; omega),
            ih (ct + quantum) false (by omega)
              (fun c hc => ⟨RRCell_mono (hrest c hc).1 (by omega), (hrest c hc).2⟩) (by omega)]
      · simp only [hr, hq, if_true, if_false]
        rw [wrap32_of_inRange (x := ct + r) (by simp only [INT_MIN]; omega)
              (by simp only [INT_MAX]; omega),
            wrap32_of_inRange (x := ct + r - p.bt) (by simp only [INT_MIN]; omega)
              (by simp only [INT_MAX]; omega),
            wrap32_of_inRange (x := ct + r - p.bt - p.art) (by simp only [INT_MIN]; omega)
              (by simp only [INT_MAX]; omega),
            wrap32_of_inRange (x := ct + r - p.art) (by simp only [INT_MIN]; omega)
              (by simp only [INT_MAX]; omega),
            ih (ct + r) false (by omega)
              (fun c hc => ⟨RRCell_mono (hrest c hc).1 (by omega), (hrest c hc).2⟩) (by omega)]
    · simp only [hr, if_false]
      rw [ih ct done hct hrest (by omega)]

/-- Where the clock plus the work left stays within `int`, the scan loop in `int` arithmetic
is the exact loop. -/
theorem rrLoop32_eq (quantum : Int) (hQ : 1 ≤ quantum) (S : Int) (hS : S ≤ INT_MAX) :
    ∀ (fuel : Nat) (cells : List (ProcessType × Int)) (ct : Int), 0 ≤ ct →
      (∀ c ∈ cells, RRCell ct c ∧ c.1.art ≤ INT_MAX ∧ S - c.1.art ≤ INT_MAX) →
      ct + (cells.map Prod.snd).sum ≤ S →
      rrLoop32 quantum fuel cells ct = rrLoop quantum fuel cells ct := by
  intro fuel
  induction fuel with
  | zero => intro cells ct _ _ _; rfl
  | succ n ih =>
    intro cells ct hct h hsum
    simp only [rrLoop, rrLoop32]
    rw [rrScan32_eq quantum hQ S hS cells ct true hct h hsum]
    have hinv := rrScan_inv quantum hQ cells ct true (fun c hc => (h c hc).1)
    have hcons := rrScan_conserves quantum cells ct true (fun c hc => (h c hc).1.1)
    have harr := rrScan_arrivals (fun a => a ≤ INT_MAX ∧ S - a ≤ INT_MAX) quantum cells ct true
      (fun c hc => (h c hc).2)
    by_cases hd : (rrScan quantum cells ct true).2.2 = true
    · simp only [hd, if_true]
    · simp only [hd]
      exact ih _ _ (by omega) (fun c hc => ⟨hinv.2 c hc, harr c hc⟩) (by omega)

/-- Where the total burst time is within `int` and the arrival times leave room for the
subtractions, round robin in `int` arithmetic is the exact round robin. -/
theorem rrRun32_eq (processes : List ProcessType) (quantum : Int)
    (hbt : ∀ p ∈ processes, 0 < p.bt) (hQ : 1 ≤ quantum) (hr : RRInRange processes)
    (fuel : Nat) :
    rrRun32 fuel processes quantum = rrRun fuel processes quantum := by
  unfold rrRun32 rrRun
  refine rrLoop32_eq quantum hQ _ hr.1 fuel _ 0 (le_refl 0) ?_ ?_
  · intro c hc
    refine ⟨rrInit_inv processes hbt c hc, ?_⟩
    simp only [rrInit, List.mem_map] at hc
    obtain ⟨p, hp, rfl⟩ := hc
    exact hr.2 p hp
  · simp only [rrInit, List.map_map]
    have : (Prod.snd ∘ fun (p : ProcessType) => (p, p.bt)) = fun p => p.bt := rfl
    rw [this]
    omega

/-! ## Round robin in 32-bit arithmetic: quantum at least the largest burst -/

/-- C6 (as stated, refuted): with bursts `INT_MAX` and 1, arrival times 0 and quantum
`INT_MAX` (at least the largest burst), the clock of `roundRobinScheduling` overflows at the
second completion: the second record gets `TAT = −2147483648` and `WT = 2147483647`, while
first-come-first-served completes it at `2147483648` with `TAT = 2147483648`. -/
theorem roundRobin32_large_quantum_overflow :
    (∀ p ∈ overflowBurstWorkload, 0 < p.bt ∧ p.bt ≤ 2147483647) ∧
    roundRobinScheduling32 2 overflowBurstWorkload 2147483647 =
      some [ { pid := 1, bt := 2147483647, art := 0, wt := 0, tat := 2147483647, pri := 1,
               rem_bt := 0 },
             { pid := 2, bt := 1, art := 0, wt := 2147483647, tat := -2147483648, pri := 2,
               rem_bt := 0 } ] ∧
    fcfsSchedule overflowBurstWorkload 0 =
      [ { pid := 1, bt := 2147483647, art := 0, wt := 0, tat := 2147483647, pri := 1,
          rem_bt := 0 },
        { pid := 2, bt := 1, art := 0, wt := 2147483647, tat := 2147483648, pri := 2,
          rem_bt := 0 } ] :=
  ⟨by decide, by decide, by decide⟩

/-- C6 (amended): if every burst time is positive, the quantum is at least the largest
burst time, the sum of the burst times is at most `INT_MAX` and every arrival time `AT`
satisfies `sum − INT_MAX ≤ AT ≤ INT_MAX`, then `roundRobinScheduling`, computed in `int`
arithmetic, returns (two scans are enough) the first-come-first-served schedule in input
order from time 0: process `i` completes at the sum of the bursts of processes `0..i`, so
`TAT_i = (BT_0 + .. + BT_i) − AT_i` and `WT_i = (BT_0 + .. + BT_{i-1}) − AT_i`. -/
theorem roundRobin32_large_quantum_fcfs (processes : List ProcessType) (quantum : Int)
    (hbt : ∀ p ∈ processes, 0 < p.bt) (hq : ∀ p ∈ processes, p.bt ≤ quantum)
    (hr : RRInRange processes) (extra : Nat) :
    roundRobinScheduling32 (2 + extra) processes quantum = some (fcfsSchedule processes 0) ∧
    ∀ (i : Nat) (p : ProcessType), processes[i]? = some p →
      (fcfsSchedule processes 0)[i]? =
        some { p with tat := burstPrefix processes (i + 1) - p.art,
                      wt := burstPrefix processes i - p.art } := by
  have hexact := roundRobin_large_quantum_fcfs_exact processes quantum hbt hq extra
  refine ⟨?_, hexact.2⟩
  cases processes with
  | nil =>
    have h2 : 2 + extra = (1 + extra) + 1 := by omega
    rw [h2]
    rfl
  | cons p rest =>
    have hQ : 1 ≤ quantum := by
      have h1 := hbt p (List.mem_cons_self _ _)
      have h2 := hq p (List.mem_cons_self _ _)
      omega
    rw [← hexact.1]
    unfold roundRobinScheduling32 roundRobinScheduling
    rw [rrRun32_eq _ quantum hbt hQ hr]

/-- Witness for C6 (amended): the workload of `main` with quantum 10. -/
theorem roundRobin32_large_quantum_fcfs_witness :
    (∀ p ∈ referenceWorkload, 0 < p.bt) ∧ (∀ p ∈ referenceWorkload, p.bt ≤ 10) ∧
    RRInRange referenceWorkload ∧
    roundRobinScheduling32 (2 + 0) referenceWorkload 10 =
      some (fcfsSchedule referenceWorkload 0) :=
  ⟨by decide, by decide, by unfold RRInRange; decide,
    (roundRobin32_large_quantum_fcfs referenceWorkload 10 (by decide) (by decide)
      (by unfold RRInRange; decide) 0).1⟩

/-! ## Round robin in 32-bit arithmetic: the results of a valid workload -/

/-- C7 (as stated, refuted): a single process with burst 1 that arrives at time 100 is run
by `roundRobinScheduling` at time 0 and ends with `WT = −100` and `TAT = −99`, below 0 and
below its burst time; and on the valid workload with bursts `INT_MAX` and 1 and quantum
`INT_MAX` the clock overflows, the second process ends with `WT = 2147483647` and
`TAT = −2147483648`, and `TAT ≠ WT + burst_time`. -/
theorem roundRobin32_negative_waiting_time :
    (∀ p ∈ lateWorkload, 0 < p.bt ∧ 0 ≤ p.art) ∧
    rrRun32 2 lateWorkload 1 =
      some ([({ pid := 1, bt := 1, art := 100, wt := -100, tat := -99, pri := 0, rem_bt := 0 },
        0)], 1) ∧
    (∀ p ∈ overflowBurstWorkload, 0 < p.bt ∧ 0 ≤ p.art) ∧
    (rrRun32 2 overflowBurstWorkload 2147483647).map
        (fun out => out.1.map (fun c => (c.1.wt, c.1.bt, c.1.tat))) =
      some [(0, 2147483647, 2147483647), (2147483647, 1, -2147483648)] :=
  ⟨by decide, by decide, by decide, by decide⟩

/-- C7 (amended): for every valid workload (every burst time positive, every arrival time
non-negative) whose burst times sum to at most `INT_MAX` and whose arrival times are at most
`INT_MAX`, and every quantum at least 1, `roundRobinScheduling`, computed in `int`
arithmetic, returns, and when it does the records are the input records with new results,
in input order, and every process has its working remaining burst at 0,
`TAT = WT + burst_time`, `WT ≥ −arrival_time` and `TAT ≥ burst_time − arrival_time`. -/
theorem roundRobin32_results (processes : List ProcessType) (quantum : Int)
    (hbt : ∀ p ∈ processes, 0 < p.bt) (hart : ∀ p ∈ processes, 0 ≤ p.art)
    (hQ : 1 ≤ quantum) (hr : RRInRange processes) :
    (∃ fuel out, rrRun32 fuel processes quantum = some out) ∧
    (∀ fuel out, rrRun32 fuel processes quantum = some out →
      out.1.map (fun c => clearResults c.1) = processes.map clearResults ∧
      ∀ c ∈ out.1, c.2 = 0 ∧ c.1.tat = c.1.wt + c.1.bt ∧
        -c.1.art ≤ c.1.wt ∧ c.1.bt - c.1.art ≤ c.1.tat) := by
  have hexact := roundRobin_results_exact processes quantum hbt hart hQ
  refine ⟨?_, ?_⟩
  · obtain ⟨fuel, out, h⟩ := hexact.1
    exact ⟨fuel, out, by rw [rrRun32_eq processes quantum hbt hQ hr]; exact h⟩
  · intro fuel out h
    rw [rrRun32_eq processes quantum hbt hQ hr] at h
    refine ⟨?_, hexact.2 fuel out h⟩
    have hf := rrLoop_frame quantum fuel (rrInit processes) 0 out h
    rw [hf]
    simp only [rrInit, List.map_map]
    rfl

/-- Witness for C7 (amended): the workload of `main` with quantum 2. -/
theorem roundRobin32_results_witness :
    (∀ p ∈ referenceWorkload, 0 < p.bt) ∧ (∀ p ∈ referenceWorkload, 0 ≤ p.art) ∧
    (1 : Int) ≤ 2 ∧ RRInRange referenceWorkload ∧
    ∃ fuel out, rrRun32 fuel referenceWorkload 2 = some out :=
  ⟨by decide, by decide, by decide, by unfold RRInRange; decide,
    (roundRobin32_results referenceWorkload 2 (by decide) (by decide) (by decide)
      (by unfold RRInRange; decide)).1⟩

/-! ## Round robin in 32-bit arithmetic: the closed form -/

/-- C18 (as stated, refuted): for the bursts `INT_MAX` and 2 with arrival times 0 and
quantum `INT_MAX`, the formula gives the second process the completion time `2147483649`,
but the clock of `roundRobinScheduling` overflows: the run ends at clock `−2147483647`,
not at the sum of the bursts, and the second process gets `TAT = −2147483647` and
`WT = 2147483647`. -/
theorem roundRobin32_completion_overflow :
    (∀ p ∈ overflowPairWorkload, 0 < p.bt) ∧
    rrRun32 2 overflowPairWorkload 2147483647 =
      some ([ ({ pid := 1, bt := 2147483647, art := 0, wt := 0, tat := 2147483647, pri := 1,
                 rem_bt := 0 }, 0),
              ({ pid := 2, bt := 2, art := 0, wt := 2147483647, tat := -2147483647, pri := 2,
                 rem_bt := 0 }, 0) ], -2147483647) ∧
    overflowPairWorkload[1]?.map
      (fun p => rrCompletion 2147483647 (overflowPairWorkload.take 1) p
        (overflowPairWorkload.drop 2)) = some 2147483649 ∧
    (overflowPairWorkload.map (fun p => p.bt)).sum = 2147483649 :=
  ⟨by decide, by decide, by decide, by decide⟩

/-- C18 (amended): for positive burst times whose sum is at most `INT_MAX`, arrival times
`AT` with `sum − INT_MAX ≤ AT ≤ INT_MAX` and a quantum `Q ≥ 1`, `roundRobinScheduling`,
computed in `int` arithmetic, returns, and process `i` completes at
`C_i = Σ_{j<i} min(BT_j, r_i·Q) + BT_i + Σ_{j>i} min(BT_j, (r_i − 1)·Q)` with
`r_i = ceil(BT_i / Q)`, a value in which no arrival time occurs; the scheduler writes
`TAT_i = C_i − AT_i` and `WT_i = C_i − BT_i − AT_i`, its working remaining burst ends at 0,
the clock ends at the sum of all burst times, no `C_i` exceeds that sum and, for a
non-empty workload, some `C_i` equals it. -/
theorem roundRobin32_completion_formula (processes : List ProcessType) (quantum : Int)
    (hbt : ∀ p ∈ processes, 0 < p.bt) (hQ : 1 ≤ quantum) (hr : RRInRange processes) :
    (∃ fuel out, rrRun32 fuel processes quantum = some out) ∧
    (∀ fuel out, rrRun32 fuel processes quantum = some out →
      out.2 = (processes.map (fun p => p.bt)).sum ∧
      ∀ (i : Nat) (p : ProcessType), processes[i]? = some p →
        out.1[i]? =
          some (rrFinished quantum (processes.take i) p (processes.drop (i + 1)), 0)) ∧
    (∀ (i : Nat) (p : ProcessType), processes[i]? = some p →
      rrCompletion quantum (processes.take i) p (processes.drop (i + 1)) ≤
        (processes.map (fun p => p.bt)).sum) ∧
    (processes ≠ [] → ∃ (i : Nat) (p : ProcessType), processes[i]? = some p ∧
      rrCompletion quantum (processes.take i) p (processes.drop (i + 1)) =
        (processes.map (fun p => p.bt)).sum) := by
  have hexact := roundRobin_completion_formula_exact processes quantum hbt hQ
  refine ⟨?_, ?_, hexact.2.2⟩
  · obtain ⟨fuel, out, h⟩ := hexact.1
    exact ⟨fuel, out, by rw [rrRun32_eq processes quantum hbt hQ hr]; exact h⟩
  · intro fuel out h
    rw [rrRun32_eq processes quantum hbt hQ hr] at h
    exact hexact.2.1 fuel out h

/-- Witness for C18 (amended): the workload of `main` with quantum 2, whose completion times
are 23, 15 and 21. -/
theorem roundRobin32_completion_formula_witness :
    (∀ p ∈ referenceWorkload, 0 < p.bt) ∧ (1 : Int) ≤ 2 ∧ RRInRange referenceWorkload ∧
    referenceWorkload[0]?.map
      (fun p => rrCompletion 2 (referenceWorkload.take 0) p (referenceWorkload.drop 1)) =
        some 23 ∧
    referenceWorkload[1]?.map
      (fun p => rrCompletion 2 (referenceWorkload.take 1) p (referenceWorkload.drop 2)) =
        some 15 ∧
    referenceWorkload[2]?.map
      (fun p => rrCompletion 2 (referenceWorkload.take 2) p (referenceWorkload.drop 3)) =
        some 21 ∧
    ∃ fuel out, rrRun32 fuel referenceWorkload 2 = some out :=
  ⟨by decide, by decide, by unfold RRInRange; decide, by decide, by decide, by decide,
    (roundRobin32_completion_formula referenceWorkload 2 (by decide) (by decide)
      (by unfold RRInRange; decide)).1⟩

/-! ## Lemmas: independence of stale fields in 32-bit arithmetic -/

/-- The iteration that runs the selected record, with the decrement of its remaining burst
written without the wrap: the scan only selects a remaining burst between 1 and
`INT_MAX - 1`. -/
theorem sjfStep32_run_exact (s : SjfState) (k : Nat) (p : ProcessType)
    (h : sjfShortest s = some k) (hp : s.processes[k]? = some p) :
    sjfStep32 s =
      if p.rem_bt - 1 = 0 then
        { processes := s.processes.set k
            { p with rem_bt := p.rem_bt - 1,
                     tat := wrap32 (wrap32 (s.current_time + 1) - p.art),
                     wt := wrap32 (wrap32 (wrap32 (s.current_time + 1) - p.art) - p.bt) },
          current_time := wrap32 (s.current_time + 1),
          completed := s.completed + 1 }
      else
        { processes := s.processes.set k { p with rem_bt := p.rem_bt - 1 },
          current_time := wrap32 (s.current_time + 1),
          completed := s.completed } := by
  obtain ⟨p', hp', _, hpos, hlt, _, _⟩ := sjfShortest_some s k h
  rw [hp] at hp'
  simp only [Option.some.injEq] at hp'
  subst hp'
  have hw : wrap32 (p.rem_bt - 1) = p.rem_bt - 1 :=
    wrap32_of_inRange (by simp only [INT_MIN]; omega)
      (by simp only [INT_MAX] at hlt ⊢; omega)
  rw [sjfStep32_run s k p h hp, hw]

theorem sjfStep32_rem (s : SjfState) (h : SjfRem s) : SjfRem (sjfStep32 s) := by
  obtain ⟨hcell, hcount⟩ := h
  cases hs : sjfShortest s with
  | none =>
    rw [sjfStep32_idle s hs]
    exact ⟨hcell, hcount⟩
  | some k =>
    obtain ⟨p, hp, _, hpos, _, _, _⟩ := sjfShortest_some s k hs
    have hmem : p ∈ s.processes := List.getElem?_mem hp
    obtain ⟨c1, c2⟩ := hcell p hmem
    rw [sjfStep32_run_exact s k p hs hp]
    by_cases hz : p.rem_bt - 1 = 0
    · rw [if_pos hz]
      refine ⟨?_, ?_⟩
      · intro q hq
        rcases List.mem_or_eq_of_mem_set hq with hq | rfl
        · exact hcell q hq
        · refine ⟨?_, ?_⟩ <;> simp only <;> omega
      · have := countP_set_of_getElem? (fun p => decide (p.rem_bt = 0)) s.processes k p
          { p with rem_bt := p.rem_bt - 1,
                   tat := wrap32 (wrap32 (s.current_time + 1) - p.art),
                   wt := wrap32 (wrap32 (wrap32 (s.current_time + 1) - p.art) - p.bt) } hp
        have hd : decide (p.rem_bt - 1 = 0) = true := decide_eq_true hz
        have hnd : decide (p.rem_bt = 0) = false := decide_eq_false (by omega)
        simp only [hd, hnd, if_true, if_false, Bool.false_eq_true] at this
        simp only
        omega
    · rw [if_neg hz]
      refine ⟨?_, ?_⟩
      · intro q hq
        rcases List.mem_or_eq_of_mem_set hq with hq | rfl
        · exact hcell q hq
        · refine ⟨?_, ?_⟩ <;> simp only <;> omega
      · have := countP_set_of_getElem? (fun p => decide (p.rem_bt = 0)) s.processes k p
          { p with rem_bt := p.rem_bt - 1 } hp
        have hd : decide (p.rem_bt - 1 = 0) = false := decide_eq_false hz
        have hnd : decide (p.rem_bt = 0) = false := decide_eq_false (by omega)
        simp only [hd, hnd, if_false, Bool.false_eq_true] at this
        simp only
        omega

theorem sjfInit_rem (processes : List ProcessType) (hbt : ∀ p ∈ processes, 0 < p.bt) :
    SjfRem (sjfInit processes) :=
  ⟨fun p hp => ⟨((sjfInit_inv processes hbt).1 p hp).1, ((sjfInit_inv processes hbt).1 p hp).2.1⟩,
    (sjfInit_inv processes hbt).2⟩

/-- One scan in `int` arithmetic does to the working buffer what `scanRem` says, when the
quantum is at least 1 and the remaining bursts are at most `INT_MAX`. -/
theorem rrScan32_rems (quantum : Int) (hQ : 1 ≤ quantum) (cells : List (ProcessType × Int)) :
    ∀ (ct : Int) (done : Bool), (∀ c ∈ cells, c.2 ≤ INT_MAX) →
      (rrScan32 quantum cells ct done).1.map Prod.snd =
        (cells.map Prod.snd).map (scanRem quantum) := by
  induction cells with
  | nil => intro ct done _; rfl
  | cons c rest ih =>
    obtain ⟨p, r⟩ := c
    intro ct done hb
    have hr0 : r ≤ INT_MAX := hb (p, r) (List.mem_cons_self _ _)
    have hrest : ∀ c ∈ rest, c.2 ≤ INT_MAX := fun c hc => hb c (List.mem_cons_of_mem _ hc)
    rw [rrScan32_cons]
    by_cases hr : r > 0
    · by_cases hq : r > quantum
      · have hw : wrap32 (r - quantum) = r - quantum :=
          wrap32_of_inRange (by simp only [INT_MIN]; omega)
            (by simp only [INT_MAX] at hr0 ⊢; omega)
        simp only [hr, hq, if_true, List.map_cons, ih _ _ hrest, scanRem, hw]
      · simp only [hr, hq, if_true, if_false, List.map_cons, ih _ _ hrest, scanRem]
    · simp only [hr, if_false, List.map_cons, ih _ _ hrest, scanRem]

theorem scanRem_le (quantum : Int) (hQ : 1 ≤ quantum) (r : Int) : scanRem quantum r ≤ max r 0 := by
  unfold scanRem
  split
  · split <;> omega
  · omega

theorem rrScan32_bound (quantum : Int) (hQ : 1 ≤ quantum) (cells : List (ProcessType × Int))
    (ct : Int) (done : Bool) (hb : ∀ c ∈ cells, c.2 ≤ INT_MAX) :
    ∀ c ∈ (rrScan32 quantum cells ct done).1, c.2 ≤ INT_MAX := by
  intro c hc
  have hr : c.2 ∈ (rrScan32 quantum cells ct done).1.map Prod.snd := List.mem_map_of_mem _ hc
  rw [rrScan32_rems quantum hQ cells ct done hb] at hr
  obtain ⟨r, hr1, hr2⟩ := List.mem_map.1 hr
  obtain ⟨c0, hc0, rfl⟩ := List.mem_map.1 hr1
  have h1 := scanRem_le quantum hQ c0.2
  have h2 := hb c0 hc0
  simp only [INT_MAX] at h2 ⊢
  omega

theorem rrScan32_done_eq (quantum : Int) (cells : List (ProcessType × Int)) :
    ∀ (ct : Int) (done : Bool),
      (rrScan32 quantum cells ct done).2.2 =
        (done && cells.all (fun c => decide (c.2 ≤ 0))) := by
  induction cells with
  | nil => intro ct done; simp [rrScan32]
  | cons c rest ih =>
    obtain ⟨p, r⟩ := c
    intro ct done
    rw [rrScan32_cons]
    by_cases hr : r > 0
    · have hn : ¬ r ≤ 0 := by omega
      by_cases hq : r > quantum
      · simp [hr, hq, ih, hn]
      · simp [hr, hq, ih, hn]
    · have hn : r ≤ 0 := by omega
      simp [hr, ih, hn]

/-- For a quantum at least 1 and remaining bursts at most `INT_MAX`, the scan loop in `int`
arithmetic is still running after `fuel` scans exactly when `fuel` is at most the number of
scans the buffer needs. -/
theorem rrLoop32_none_iff (quantum : Int) (hQ : 1 ≤ quantum) :
    ∀ (fuel : Nat) (cells : List (ProcessType × Int)) (ct : Int),
      (∀ c ∈ cells, c.2 ≤ INT_MAX) →
      (rrLoop32 quantum fuel cells ct = none ↔
        fuel ≤ scansNeeded quantum (cells.map Prod.snd)) := by
  intro fuel
  induction fuel with
  | zero => intro cells ct _; simp [rrLoop32]
  | succ n ih =>
    intro cells ct hb
    rw [rrLoop32]
    have hdone := rrScan32_done_eq quantum cells ct true
    by_cases hall : cells.all (fun c => decide (c.2 ≤ 0)) = true
    · rw [hall] at hdone
      simp only [Bool.and_self] at hdone
      have hz : scansNeeded quantum (cells.map Prod.snd) = 0 := by
        apply scansNeeded_zero quantum hQ
        intro r hr
        obtain ⟨c, hc, rfl⟩ := List.mem_map.1 hr
        have := List.all_eq_true.1 hall c hc
        simpa using this
      simp [hdone, hz]
    · have hd : (rrScan32 quantum cells ct true).2.2 = false := by
        rw [hdone]
        simpa using hall
      have hex : ∃ r ∈ cells.map Prod.snd, 0 < r := by
        by_contra hno
        apply hall
        rw [List.all_eq_true]
        intro c hc
        have : ¬ 0 < c.2 := fun hpos => hno ⟨c.2, List.mem_map.2 ⟨c, hc, rfl⟩, hpos⟩
        simp only [decide_eq_true_eq]
        omega
      have hpos := scansNeeded_pos quantum hQ _ hex
      simp only [hd, Bool.false_eq_true, if_false]
      rw [ih _ _ (rrScan32_bound quantum hQ cells ct true hb),
        rrScan32_rems quantum hQ cells ct true hb, scansNeeded_scanRem quantum hQ]
      omega

theorem sjfStep32_stuck (s : SjfState) (h : SjfStuck s) : SjfStuck (sjfStep32 s) := by
  obtain ⟨hle, ⟨w, hw, hwbt⟩, hcount⟩ := h
  cases hs : sjfShortest s with
  | none =>
    rw [sjfStep32_idle s hs]
    exact ⟨hle, ⟨w, hw, hwbt⟩, hcount⟩
  | some k =>
    obtain ⟨p, hp, _, hpos, _, _, _⟩ := sjfShortest_some s k hs
    have hmem : p ∈ s.processes := List.getElem?_mem hp
    have hpb := hle p hmem
    have hne : w ≠ p := by
      intro e
      rw [e] at hwbt
      omega
    rw [sjfStep32_run_exact s k p hs hp]
    by_cases hz : p.rem_bt - 1 = 0
    · rw [if_pos hz]
      refine ⟨?_, ?_, ?_⟩
      · intro q hq
        rcases List.mem_or_eq_of_mem_set hq with hq | rfl
        · exact hle q hq
        · simp only; omega
      · rcases mem_set_or_eq_of_mem s.processes k p
          { p with rem_bt := p.rem_bt - 1,
                   tat := wrap32 (wrap32 (s.current_time + 1) - p.art),
                   wt := wrap32 (wrap32 (wrap32 (s.current_time + 1) - p.art) - p.bt) }
          w hp hw with h1 | h1
        · exact ⟨w, h1, hwbt⟩
        · exact absurd h1 hne
      · have := countP_set_of_getElem? (fun p => decide (0 < p.bt ∧ p.rem_bt = 0)) s.processes k p
          { p with rem_bt := p.rem_bt - 1,
                   tat := wrap32 (wrap32 (s.current_time + 1) - p.art),
                   wt := wrap32 (wrap32 (wrap32 (s.current_time + 1) - p.art) - p.bt) } hp
        have hd : decide (0 < p.bt ∧ p.rem_bt - 1 = 0) = true := decide_eq_true ⟨by omega, hz⟩
        have hnd : decide (0 < p.bt ∧ p.rem_bt = 0) = false :=
          decide_eq_false (fun h => by omega)
        simp only [hd, hnd, if_true, if_false, Bool.false_eq_true] at this
        simp only
        omega
    · rw [if_neg hz]
      refine ⟨?_, ?_, ?_⟩
      · intro q hq
        rcases List.mem_or_eq_of_mem_set hq with hq | rfl
        · exact hle q hq
        · simp only; omega
      · rcases mem_set_or_eq_of_mem s.processes k p { p with rem_bt := p.rem_bt - 1 } w hp hw
          with h1 | h1
        · exact ⟨w, h1, hwbt⟩
        · exact absurd h1 hne
      · have := countP_set_of_getElem? (fun p => decide (0 < p.bt ∧ p.rem_bt = 0)) s.processes k p
          { p with rem_bt := p.rem_bt - 1 } hp
        have hd : decide (0 < p.bt ∧ p.rem_bt - 1 = 0) = false :=
          decide_eq_false (fun h => hz h.2)
        have hnd : decide (0 < p.bt ∧ p.rem_bt = 0) = false :=
          decide_eq_false (fun h => by omega)
        simp only [hd, hnd, if_false, Bool.false_eq_true] at this
        simp only
        omega

theorem sjfLoop32_stuck :
    ∀ (fuel : Nat) (s : SjfState), SjfStuck s → sjfLoop32 fuel s = none := by
  intro fuel
  induction fuel with
  | zero =>
    intro s h
    rw [sjfLoop32, if_pos (SjfStuck_lt s h)]
  | succ n ih =>
    intro s h
    rw [sjfLoop32, if_pos (SjfStuck_lt s h)]
    exact ih _ (sjfStep32_stuck s h)

/-- With quantum 0 a scan in `int` arithmetic leaves a positive remaining burst as it is and
does not set `done`. -/
theorem rrScan32_zero_quantum (cells : List (ProcessType × Int)) :
    ∀ (ct : Int) (done : Bool), (∃ c ∈ cells, 0 < c.2 ∧ c.2 ≤ INT_MAX) →
      (rrScan32 0 cells ct done).2.2 = false ∧
      ∃ c ∈ (rrScan32 0 cells ct done).1, 0 < c.2 ∧ c.2 ≤ INT_MAX := by
  induction cells with
  | nil => intro ct done h; obtain ⟨c, hc, _⟩ := h; simp at hc
  | cons c rest ih =>
    obtain ⟨p, r⟩ := c
    intro ct done h
    have hdone := rrScan32_done_eq 0 ((p, r) :: rest) ct done
    obtain ⟨c, hc, hpos, hmax⟩ := h
    refine ⟨?_, ?_⟩
    · rw [hdone]
      have : ((p, r) :: rest).all (fun c => decide (c.2 ≤ 0)) = false := by
        rw [List.all_eq_false]
        exact ⟨c, hc, by simp only [decide_eq_true_eq]; omega⟩
      simp [this]
    · rw [rrScan32_cons]
      rcases List.mem_cons.1 hc with rfl | hc
      · simp only at hpos hmax
        have hq : r > 0 := hpos
        have hw : wrap32 (r - 0) = r :=
          by rw [sub_zero]; exact wrap32_of_inRange (by simp only [INT_MIN]; omega) hmax
        simp only [hq, if_true]
        exact ⟨(p, wrap32 (r - 0)), List.mem_cons_self _ _, by simp only; rw [hw]; exact ⟨hpos, hmax⟩⟩
      · by_cases hr : r > 0
        · simp only [hr, if_true]
          obtain ⟨_, c', hc', h'⟩ := ih (wrap32 (ct + 0)) false ⟨c, hc, hpos, hmax⟩
          exact ⟨c', List.mem_cons_of_mem _ hc', h'⟩
        · simp only [hr, if_false]
          obtain ⟨_, c', hc', h'⟩ := ih ct done ⟨c, hc, hpos, hmax⟩
          exact ⟨c', List.mem_cons_of_mem _ hc', h'⟩

theorem rrLoop32_zero_quantum :
    ∀ (fuel : Nat) (cells : List (ProcessType × Int)) (ct : Int),
      (∃ c ∈ cells, 0 < c.2 ∧ c.2 ≤ INT_MAX) → rrLoop32 0 fuel cells ct = none := by
  intro fuel
  induction fuel with
  | zero => intro cells ct _; rfl
  | succ n ih =>
    intro cells ct h
    obtain ⟨h1, h2⟩ := rrScan32_zero_quantum cells ct true h
    rw [rrLoop32]
    simp only [h1, Bool.false_eq_true, if_false]
    exact ih _ _ h2

theorem sjfShortest_max_burst (w t : Int) (clock : Int) (c : Nat) :
    sjfShortest { processes := [{ maxBurstProcess with wt := w, tat := t,
                                                       rem_bt := 2147483647 }],
                  current_time := clock, completed := c } = none := by
  simp [sjfShortest, sjfFind, INT_MAX]

theorem sjfIterate32_max_burst (w t : Int) :
    ∀ j : Nat, ∃ clock : Int,
      sjfIterate32 [{ maxBurstProcess with wt := w, tat := t }] j =
        { processes := [{ maxBurstProcess with wt := w, tat := t, rem_bt := 2147483647 }],
          current_time := clock, completed := 0 } := by
  intro j
  induction j with
  | zero => exact ⟨0, rfl⟩
  | succ n ih =>
    obtain ⟨clock, h⟩ := ih
    refine ⟨wrap32 (clock + 1), ?_⟩
    rw [sjfIterate32, h, sjfStep32_idle _ (sjfShortest_max_burst w t clock 0)]

theorem sjfLoop32_max_burst_stuck (w t : Int) :
    ∀ (fuel : Nat) (clock : Int),
      sjfLoop32 fuel { processes := [{ maxBurstProcess with wt := w, tat := t,
                                                            rem_bt := 2147483647 }],
                       current_time := clock, completed := 0 } = none := by
  intro fuel
  induction fuel with
  | zero => intro clock; simp [sjfLoop32]
  | succ n ih =>
    intro clock
    rw [sjfLoop32, sjfStep32_idle _ (sjfShortest_max_burst w t clock 0)]
    simpa using ih (wrap32 (clock + 1))

/-- On a workload with every burst time positive, at the head of every iteration of the loop
of `sjfScheduling` in `int` arithmetic each remaining burst is between 0 and the burst time
and `completed` counts the records whose remaining burst is 0. -/
theorem sjfIterate32_rem (processes : List ProcessType) (hbt : ∀ p ∈ processes, 0 < p.bt) :
    ∀ j, SjfRem (sjfIterate32 processes j) := by
  intro j
  induction j with
  | zero => exact sjfInit_rem processes hbt
  | succ n ih => exact sjfStep32_rem _ ih

/-! ## Theorems: invalid configurations -/

/-- C16 (as stated, refuted): no scheduler rejects an invalid configuration.  Given the
single record with burst −5 and arrival −3, `priorityScheduling` reports nothing and
overwrites the record's results (`WT = 3`, `TAT = −2`); given a record with burst 2 and
arrival −3, `roundRobinScheduling` and `sjfScheduling` run the simulation and return
`WT = 3`, `TAT = 5`; given the quantum `−1073741824` and a record with burst 1,
`roundRobinScheduling` makes three scans, in which the remaining burst grows until it wraps
negative, and returns without a failure. -/
theorem invalid_configuration_is_simulated :
    (invalidRecord.bt ≤ 0 ∧ invalidRecord.art < 0) ∧
    priorityScheduling32 insertionQsort [invalidRecord] =
      [{ invalidRecord with wt := 3, tat := -2 }] ∧
    roundRobinScheduling32 3 [{ invalidRecord with bt := 2 }] 1 =
      some [{ invalidRecord with bt := 2, wt := 3, tat := 5 }] ∧
    sjfScheduling32 2 [{ invalidRecord with bt := 2 }] =
      some [{ invalidRecord with bt := 2, wt := 3, tat := 5 }] ∧
    rrRun32 2 [unitRecord] (-1073741824) = none ∧
    rrRun32 3 [unitRecord] (-1073741824) = some ([(unitRecord, -2147483647)], -2147483648) := by
  decide

/-- C16 (amended): no scheduler checks its configuration; in `int` arithmetic, on any
workload, valid or not: `priorityScheduling` walks the sorted array and, where no operation
of the walk overflows, writes `TAT = WT + burst_time` with `WT ≥ 0` for every record;
`sjfScheduling` never returns when some burst time is not positive; `roundRobinScheduling`
with a quantum that is not positive and some positive burst time does not stop after its
first scan, and with quantum 0 and some burst time between 1 and `INT_MAX` it never returns;
with a quantum at least 1 and burst times at most `INT_MAX` it returns, whatever the signs of
the burst and arrival times. -/
theorem invalid_configuration_behaviour32 (processes : List ProcessType) :
    (∀ qsort : (ProcessType → ProcessType → Int) → List ProcessType → List ProcessType,
      WalkInRange (qsort comparePriority processes) 0 →
      (priorityScheduling32 qsort processes).map clearResults =
        (qsort comparePriority processes).map clearResults ∧
      ∀ p ∈ priorityScheduling32 qsort processes, p.tat = p.wt + p.bt ∧ 0 ≤ p.wt) ∧
    ((∃ p ∈ processes, p.bt ≤ 0) → ∀ fuel, sjfScheduling32 fuel processes = none) ∧
    (∀ quantum : Int, quantum ≤ 0 → (∃ p ∈ processes, 0 < p.bt) →
      roundRobinScheduling32 1 processes quantum = none) ∧
    ((∃ p ∈ processes, 0 < p.bt ∧ p.bt ≤ INT_MAX) →
      ∀ fuel, roundRobinScheduling32 fuel processes 0 = none) ∧
    (∀ quantum : Int, 1 ≤ quantum → (∀ p ∈ processes, p.bt ≤ INT_MAX) →
      ∃ fuel out, roundRobinScheduling32 fuel processes quantum = some out) := by
  refine ⟨?_, ?_, ?_, ?_, ?_⟩
  · intro qsort hfit
    unfold priorityScheduling32
    rw [priorityWalk32_eq _ 0 hfit]
    refine ⟨priorityWalk_map_clearResults _ _, ?_⟩
    intro p hp
    obtain ⟨h1, h2⟩ := priorityWalk_mem _ _ p hp
    unfold startTime at h2
    exact ⟨h1, by omega⟩
  · intro h fuel
    unfold sjfScheduling32 sjfRun32
    rw [sjfLoop32_stuck fuel _ (sjfInit_stuck processes h)]
    rfl
  · intro quantum hQ h
    obtain ⟨p, hp, hpos⟩ := h
    have hd := rrScan32_done_eq quantum (rrInit processes) 0 true
    have hall : (rrInit processes).all (fun c => decide (c.2 ≤ 0)) = false := by
      rw [List.all_eq_false]
      exact ⟨(p, p.bt), List.mem_map.2 ⟨p, hp, rfl⟩, by simp only [decide_eq_true_eq]; omega⟩
    rw [hall] at hd
    unfold roundRobinScheduling32 rrRun32
    rw [rrLoop32]
    simp only [hd, Bool.and_false, Bool.false_eq_true, if_false]
    rfl
  · intro h fuel
    obtain ⟨p, hp, hpos⟩ := h
    have hc : ∃ c ∈ rrInit processes, 0 < c.2 ∧ c.2 ≤ INT_MAX :=
      ⟨(p, p.bt), List.mem_map.2 ⟨p, hp, rfl⟩, hpos⟩
    unfold roundRobinScheduling32 rrRun32
    rw [rrLoop32_zero_quantum fuel _ 0 hc]
    rfl
  · intro quantum hQ hmax
    have hb : ∀ c ∈ rrInit processes, c.2 ≤ INT_MAX := by
      intro c hc
      simp only [rrInit, List.mem_map] at hc
      obtain ⟨p, hp, rfl⟩ := hc
      exact hmax p hp
    cases h1 : rrLoop32 quantum (scansNeeded quantum ((rrInit processes).map Prod.snd) + 1)
        (rrInit processes) 0 with
    | none =>
      rw [rrLoop32_none_iff quantum hQ _ _ _ hb] at h1
      omega
    | some o1 =>
      exact ⟨_, o1.1.map Prod.fst, by unfold roundRobinScheduling32 rrRun32; rw [h1]; rfl⟩

/-- Witness for C16 (amended): `sjfScheduling` on the record with burst −5, and
`roundRobinScheduling` with quantum 0 on the workload of `main`. -/
theorem invalid_configuration_behaviour32_witness :
    (∃ p ∈ [invalidRecord], p.bt ≤ 0) ∧ sjfScheduling32 10 [invalidRecord] = none ∧
    (∃ p ∈ referenceWorkload, 0 < p.bt ∧ p.bt ≤ INT_MAX) ∧
    roundRobinScheduling32 10 referenceWorkload 0 = none :=
  ⟨by decide,
    (invalid_configuration_behaviour32 [invalidRecord]).2.1 (by decide) 10,
    by decide,
    (invalid_configuration_behaviour32 referenceWorkload).2.2.2.1 (by decide) 10⟩

/-! ## Theorems: invariants of the SRTF loop -/

/-- C17 (the code at the failing input): on the workload of one process with burst
`INT_MAX`, which has every burst time positive, whatever `wt` and `tat` the record comes
with, no iteration of the `sjfScheduling` loop selects the record: after any number of
iterations the record is as on entry, with `rem_bt = INT_MAX` and its `wt` and `tat` not
written, `completed` is 0, and the loop has not exited.  The record's `WT` and `TAT` are
written zero times, not once. -/
theorem sjfScheduling32_max_burst_never_written :
    (∀ p ∈ [maxBurstProcess], 0 < p.bt) ∧
    ∀ (w t : Int) (j : Nat),
      sjfShortest (sjfIterate32 [{ maxBurstProcess with wt := w, tat := t }] j) = none ∧
      (sjfIterate32 [{ maxBurstProcess with wt := w, tat := t }] j).processes =
        [{ maxBurstProcess with wt := w, tat := t, rem_bt := 2147483647 }] ∧
      (sjfIterate32 [{ maxBurstProcess with wt := w, tat := t }] j).completed = 0 ∧
      sjfScheduling32 j [{ maxBurstProcess with wt := w, tat := t }] = none := by
  refine ⟨by decide, ?_⟩
  intro w t j
  obtain ⟨clock, h⟩ := sjfIterate32_max_burst w t j
  rw [h]
  refine ⟨sjfShortest_max_burst w t clock 0, rfl, rfl, ?_⟩
  unfold sjfScheduling32 sjfRun32
  have hi : sjfInit [{ maxBurstProcess with wt := w, tat := t }] =
      { processes := [{ maxBurstProcess with wt := w, tat := t, rem_bt := 2147483647 }],
        current_time := 0, completed := 0 } := rfl
  rw [hi, sjfLoop32_max_burst_stuck w t j 0]
  rfl

end SchedSim
